import Mathlib

/-! # Track store of markup_tool (`markup_backend/src/track_container.cpp`)

Shallow embedding of `TrackContainer`: the tracks (`tracks_`, a `std::list<Track>`),
the per-frame index (`timeline_`, a vector of buckets of `Detection*`) and the
operations that edit both.

Modelling decisions.

* A `Detection*` is an address (`Nat`).  Every list node that holds a detection inside
  `tracks_` carries its address; the ghost field `heap_top` is the next address the
  allocator hands out (addresses are never reused).  Dereferencing an address that no
  stored node carries is undefined behaviour and is reported as `Fault.dangling`.
* `size_t` values are natural numbers; where the source computes `max_id + 1` and
  `det.frame -= 1` the result is reduced modulo `2^64`.
* A failed `assert` and undefined behaviour end the run: operations return
  `Except Fault _`.
* Floating-point fields (`bbox`, `confidence`) are only ever copied by the store, so they
  are carried as their bit patterns.  `load` is modelled on the values its extraction
  operators have read, `save` on the values it hands to the insertion operators; the
  conversion between a float and its text is not modelled.
* The class `Track` is declared in a header that is not part of the sources at hand; its
  members `add` and `del` are modelled from the specification.
-/

namespace MarkupTool

/-- Number of values of `size_t`. -/
def SIZE_MOD : Nat := 18446744073709551616

/-- Bounding box of a detection (bit patterns of the four floats). -/
structure BBox where
  x : Nat
  y : Nat
  width : Nat
  height : Nat
deriving DecidableEq, Repr

/-- One observation: `struct Detection`. -/
structure Detection where
  frame : Nat
  id : Nat
  bbox : BBox
  confidence : Nat
deriving DecidableEq, Repr

/-- A track as a value handed in or out by the caller: identifier and the sequence of
detections (`Track` is a `std::list<Detection>` with an id). -/
structure Track where
  id : Nat
  dets : List Detection
deriving DecidableEq, Repr

/-- List node of a stored track: the detection and the address `&(*it)` it lives at. -/
structure Node where
  addr : Nat
  det : Detection
deriving DecidableEq, Repr

/-- A track held in `tracks_`. -/
structure StoredTrack where
  id : Nat
  nodes : List Node
deriving DecidableEq, Repr

/-- Ways a call can end without returning: a failed `assert` or undefined behaviour. -/
inductive Fault where
  | duplicate_id
  | frame_range
  | timeline_size
  | dangling
  | out_of_bounds
  | add_failed
  | not_initialized
  | no_return
deriving DecidableEq, Repr

/-- State of a `TrackContainer` object. -/
structure TrackContainer where
  video_len_ : Nat
  tracks_ : List StoredTrack
  timeline_ : List (List Nat)
  heap_top : Nat
deriving DecidableEq, Repr

/-- Copy of a detection with the id field overwritten (`new_det = det; new_det.id = id`). -/
def restamp (new_id : Nat) (det : Detection) : Detection :=
  { det with id := new_id }

/-- The caller-visible value of a stored track (copy construction of a `Track`). -/
def StoredTrack.toTrack (t : StoredTrack) : Track :=
  ⟨t.id, t.nodes.map Node.det⟩

/-- Modelled from the spec: `Track::add` (declared in the missing header) appends the
detection to the track's sequence; the node it is stored in has address `a`, which is the
pointer `add` returns. -/
def StoredTrack.add (t : StoredTrack) (a : Nat) (det : Detection) : StoredTrack :=
  { t with nodes := t.nodes ++ [⟨a, det⟩] }

/-- Modelled from the spec: `Track::del` (declared in the missing header) removes from the
track's sequence the detection at the given frame (the first one in sequence order). -/
def StoredTrack.del (t : StoredTrack) (frame_idx : Nat) : StoredTrack :=
  { t with nodes := t.nodes.eraseP (fun n => n.det.frame == frame_idx) }

/-- Nodes allocated when a list of detections is copied into storage, starting at
address `a`. -/
def copy_nodes : Nat → List Detection → List Node
  | _, [] => []
  | a, d :: ds => ⟨a, d⟩ :: copy_nodes (a + 1) ds

/-- All nodes owned by the tracks. -/
def owned (tracks : List StoredTrack) : List Node :=
  match tracks with
  | [] => []
  | t :: ts => t.nodes ++ owned ts

/-- Read through a `Detection*`. -/
def deref (tracks : List StoredTrack) (p : Nat) : Except Fault Detection :=
  match (owned tracks).find? (fun n => n.addr == p) with
  | some n => .ok n.det
  | none => .error .dangling

/-- The bucket `timeline_[frame]` (empty when out of range; callers check the range). -/
def bucket (timeline : List (List Nat)) (frame : Nat) : List Nat :=
  (timeline[frame]?).getD []

/-- Effect of `timeline_[frame].push_back(p)`. -/
def timeline_push (timeline : List (List Nat)) (frame : Nat) (p : Nat) : List (List Nat) :=
  timeline.set frame (bucket timeline frame ++ [p])

/-- `TrackContainer::TrackContainer(size_t video_length)`. -/
def TrackContainer.construct (video_length : Nat) : TrackContainer :=
  { video_len_ := video_length, tracks_ := [], timeline_ := List.replicate video_length [],
    heap_top := 0 }

/-- The running maximum of `get_new_id`'s loop. -/
def max_id_loop (max_id : Nat) : List StoredTrack → Nat
  | [] => max_id
  | track :: rest => max_id_loop (max track.id max_id) rest

/-- `TrackContainer::get_new_id`. -/
def get_new_id (s : TrackContainer) : Nat :=
  (max_id_loop 0 s.tracks_ + 1) % SIZE_MOD

/-- `TrackContainer::has_track`. -/
def has_track (s : TrackContainer) (id : Nat) : Bool :=
  s.tracks_.any (fun t => t.id == id)

/-- `TrackContainer::get_track`: a copy of the first track with that id, or null. -/
def get_track (s : TrackContainer) (id : Nat) : Option Track :=
  (s.tracks_.find? (fun t => t.id == id)).map StoredTrack.toTrack

/-- `TrackContainer::get_video_len`. -/
def get_video_len (s : TrackContainer) : Nat := s.video_len_

/-- `TrackContainer::get_num_tracks`. -/
def get_num_tracks (s : TrackContainer) : Nat := s.tracks_.length

/-- `TrackContainer::empty`. -/
def empty (s : TrackContainer) : Bool := s.tracks_.length == 0

/-- The loop of `add_track` over the nodes of the track just pushed to `tracks_`. -/
def index_nodes (s : TrackContainer) : List Node → Except Fault TrackContainer
  | [] => .ok s
  | n :: ns =>
    if n.det.frame < s.video_len_ then
      if s.timeline_.length = s.video_len_ then
        index_nodes { s with timeline_ := timeline_push s.timeline_ n.det.frame n.addr } ns
      else .error .timeline_size
    else .error .frame_range

/-- `TrackContainer::add_track`. -/
def add_track (s : TrackContainer) (track : Track) : Except Fault TrackContainer :=
  if has_track s track.id then .error .duplicate_id
  else
    let nodes := copy_nodes s.heap_top track.dets
    index_nodes { s with tracks_ := s.tracks_ ++ [⟨track.id, nodes⟩],
                         heap_top := s.heap_top + nodes.length } nodes

/-- `TrackContainer::create_new_track`; returns the new state and the new id. -/
def create_new_track (s : TrackContainer) (det : Detection) :
    Except Fault (TrackContainer × Nat) :=
  let new_id := get_new_id s
  match add_track s ⟨new_id, [restamp new_id det]⟩ with
  | .error e => .error e
  | .ok s1 => .ok (s1, new_id)

/-- Scan of one bucket that erases the first pointer whose detection carries `id`
(the inner loops of `delete_track` and `delete_detection`). -/
def erase_first_id (tracks : List StoredTrack) (id : Nat) : List Nat → Except Fault (List Nat)
  | [] => .ok []
  | p :: ps =>
    match deref tracks p with
    | .error e => .error e
    | .ok d =>
      if d.id = id then .ok ps
      else
        match erase_first_id tracks id ps with
        | .error e => .error e
        | .ok ps1 => .ok (p :: ps1)

/-- The "delete fast" loop of `delete_track` over the detections of the track. -/
def unindex_nodes (tracks : List StoredTrack) (id : Nat) (timeline : List (List Nat)) :
    List Node → Except Fault (List (List Nat))
  | [] => .ok timeline
  | n :: ns =>
    if n.det.frame < timeline.length then
      match erase_first_id tracks id (bucket timeline n.det.frame) with
      | .error e => .error e
      | .ok b => unindex_nodes tracks id (timeline.set n.det.frame b) ns
    else .error .out_of_bounds

/-- `TrackContainer::delete_track`. -/
def delete_track (s : TrackContainer) (id : Nat) : Except Fault (TrackContainer × Bool) :=
  match s.tracks_.find? (fun t => t.id == id) with
  | none => .ok (s, false)
  | some t =>
    match unindex_nodes s.tracks_ id s.timeline_ t.nodes with
    | .error e => .error e
    | .ok timeline =>
      .ok ({ s with timeline_ := timeline,
                    tracks_ := s.tracks_.eraseP (fun t => t.id == id) }, true)

/-- The loop of `add_det2track` over `tracks_`: the first track with the id gets the new
node. -/
def add_to_first (track_id : Nat) (a : Nat) (det : Detection) :
    List StoredTrack → List StoredTrack
  | [] => []
  | t :: ts => if t.id = track_id then t.add a det :: ts else t :: add_to_first track_id a det ts

/-- `TrackContainer::add_det2track`. -/
def add_det2track (s : TrackContainer) (track_id : Nat) (det : Detection) :
    Except Fault (TrackContainer × Bool) :=
  if det.frame < s.video_len_ then
    if s.video_len_ = s.timeline_.length then
      if has_track s track_id then
        .ok ({ s with tracks_ := add_to_first track_id s.heap_top det s.tracks_,
                      timeline_ := timeline_push s.timeline_ det.frame s.heap_top,
                      heap_top := s.heap_top + 1 }, true)
      else .ok (s, false)
    else .error .timeline_size
  else .error .frame_range

/-- Copies of the detections behind the pointers of one bucket. -/
def deref_all (tracks : List StoredTrack) : List Nat → Except Fault (List Detection)
  | [] => .ok []
  | p :: ps =>
    match deref tracks p with
    | .error e => .error e
    | .ok d =>
      match deref_all tracks ps with
      | .error e => .error e
      | .ok ds => .ok (d :: ds)

/-- `TrackContainer::get_detections`. -/
def get_detections (s : TrackContainer) (frame_idx : Nat) : Except Fault (List Detection) :=
  if frame_idx ≥ s.video_len_ then .ok []
  else if frame_idx < s.timeline_.length then deref_all s.tracks_ (bucket s.timeline_ frame_idx)
  else .error .out_of_bounds

/-- `TrackContainer::delete_detection`. -/
def delete_detection (s : TrackContainer) (track_id frame_idx : Nat) :
    Except Fault (TrackContainer × Bool) :=
  if has_track s track_id then
    if frame_idx ≥ s.video_len_ then .ok (s, false)
    else if s.timeline_.length = s.video_len_ then
      match erase_first_id s.tracks_ track_id (bucket s.timeline_ frame_idx) with
      | .error e => .error e
      | .ok b =>
        .ok ({ s with timeline_ := s.timeline_.set frame_idx b,
                      tracks_ := s.tracks_.map
                        (fun t => if t.id = track_id then t.del frame_idx else t) }, true)
    else .error .timeline_size
  else .ok (s, false)

/-- The loop of `split_track` over `frames2delete`. -/
def delete_detections (s : TrackContainer) (track_id : Nat) :
    List Nat → Except Fault TrackContainer
  | [] => .ok s
  | index :: rest =>
    match delete_detection s track_id index with
    | .error e => .error e
    | .ok (s1, _) => delete_detections s1 track_id rest

/-- `TrackContainer::split_track`. -/
def split_track (s : TrackContainer) (track_id frame_idx : Nat) :
    Except Fault (TrackContainer × Bool) :=
  match s.tracks_.find? (fun t => t.id == track_id) with
  | none => .ok (s, false)
  | some t =>
    let new_id := get_new_id s
    let moved := t.nodes.filter (fun n => decide (n.det.frame ≥ frame_idx))
    let track_tail : Track := ⟨new_id, moved.map (fun n => restamp new_id n.det)⟩
    let frames2delete := moved.map (fun n => n.det.frame)
    if frames2delete = [] then .ok (s, true)
    else
      match delete_detections s track_id frames2delete with
      | .error e => .error e
      | .ok s1 =>
        match add_track s1 track_tail with
        | .error e => .error e
        | .ok s2 => .ok (s2, true)

/-- `TrackContainer::unite_tracks`. -/
def unite_tracks (s : TrackContainer) (id_A id_B : Nat) :
    Except Fault (TrackContainer × Bool) :=
  match get_track s id_A with
  | none => .ok (s, false)
  | some track_A =>
    match get_track s id_B with
    | none => .ok (s, false)
    | some track_B =>
      let new_id := min track_A.id track_B.id
      let delete_id := max track_A.id track_B.id
      let united_tracks : Track :=
        ⟨new_id, track_A.dets.map (restamp new_id) ++ track_B.dets.map (restamp new_id)⟩
      match delete_track s new_id with
      | .error e => .error e
      | .ok (s1, _) =>
        match delete_track s1 delete_id with
        | .error e => .error e
        | .ok (s2, _) =>
          match add_track s2 united_tracks with
          | .error e => .error e
          | .ok s3 => .ok (s3, true)

/-- One data line of a tracks file as the extraction operators read it. -/
structure Row where
  frame : Nat
  id : Nat
  x : Nat
  y : Nat
  width : Nat
  height : Nat
  confidence : Nat
  object_type : Nat
deriving DecidableEq, Repr

/-- Content of a tracks file: the leading video length and the data lines; `none` is a
line on which the extraction fails. -/
structure TrackFile where
  video_length : Nat
  rows : List (Option Row)
deriving DecidableEq, Repr

/-- Effect of `timeline_.resize(n)`. -/
def timeline_resize (timeline : List (List Nat)) (n : Nat) : List (List Nat) :=
  timeline.take n ++ List.replicate (n - timeline.length) []

/-- The detection `load` builds from a retained row (`det.frame -= 1` on a `size_t`). -/
def Row.toDetection (r : Row) : Detection :=
  ⟨(r.frame + SIZE_MOD - 1) % SIZE_MOD, r.id, ⟨r.x, r.y, r.width, r.height⟩, r.confidence⟩

/-- The `while` loop of `load` after the first line; the flag is `is_initalized`.  The
class constant `pedestrian_class_` is declared in the missing header and is a parameter. -/
def load_rows (pedestrian_class_ : Nat) (s : TrackContainer) (is_initalized : Bool) :
    List (Option Row) → Except Fault (TrackContainer × Bool)
  | [] => .ok (s, is_initalized)
  | none :: _ => .ok (s, is_initalized)
  | some r :: rest =>
    if r.object_type ≠ pedestrian_class_ then load_rows pedestrian_class_ s is_initalized rest
    else
      let det := r.toDetection
      match (if has_track s det.id then .ok s else add_track s ⟨det.id, []⟩) with
      | .error e => .error e
      | .ok s1 =>
        match add_det2track s1 det.id det with
        | .error e => .error e
        | .ok (s2, added) =>
          if added then load_rows pedestrian_class_ s2 true rest else .error .add_failed

/-- `TrackContainer::load`; `none` is a file that cannot be opened. -/
def load (pedestrian_class_ : Nat) (s : TrackContainer) (file : Option TrackFile) :
    Except Fault (TrackContainer × Bool) :=
  match file with
  | none => .ok (s, false)
  | some f =>
    match load_rows pedestrian_class_
        { s with video_len_ := f.video_length,
                 timeline_ := timeline_resize s.timeline_ f.video_length } false f.rows with
    | .error e => .error e
    | .ok (s1, is_initalized) =>
      if is_initalized then .ok (s1, true) else .error .not_initialized

/-- The row `save` hands to the output stream for a detection. -/
def Detection.toRow (pedestrian_class_ : Nat) (d : Detection) : Row :=
  ⟨(d.frame + 1) % SIZE_MOD, d.id, d.bbox.x, d.bbox.y, d.bbox.width, d.bbox.height,
    d.confidence, pedestrian_class_⟩

/-- The rows `save` streams for the given frames, in order. -/
def save_frames (pedestrian_class_ : Nat) (s : TrackContainer) :
    List Nat → Except Fault (List Row)
  | [] => .ok []
  | frame_index :: rest =>
    match get_detections s frame_index with
    | .error e => .error e
    | .ok detections =>
      match save_frames pedestrian_class_ s rest with
      | .error e => .error e
      | .ok rows => .ok (detections.map (Detection.toRow pedestrian_class_) ++ rows)

/-- What `TrackContainer::save` has streamed to the opened file when control reaches the
end of its body: the video length and one row per indexed detection, frame by frame (the
values as they are handed to `operator<<`). -/
def save_stream (pedestrian_class_ : Nat) (s : TrackContainer) :
    Except Fault (Nat × List Row) :=
  match save_frames pedestrian_class_ s (List.range s.video_len_) with
  | .error e => .error e
  | .ok rows => .ok (s.video_len_, rows)

/-- `TrackContainer::save`; `opened` says whether the output file could be opened.  When
it could not, the function returns false.  When it could, the function streams the video
length and the rows and control then reaches the closing brace of the body, which has no
`return` statement: undefined behaviour in a function that returns `bool`. -/
def save (pedestrian_class_ : Nat) (s : TrackContainer) (opened : Bool) :
    Except Fault Bool :=
  if opened then
    match save_stream pedestrian_class_ s with
    | .error e => .error e
    | .ok _ => .error .no_return
  else .ok false

/-- A store object before `load` has run: no tracks, no buckets, `video_len_` not yet
set (any value `v0`). -/
def TrackContainer.fresh (v0 : Nat) : TrackContainer :=
  { video_len_ := v0, tracks_ := [], timeline_ := [], heap_top := 0 }

/-- The detections `save` visits for the given frames when frame `f` yields `dets f`. -/
def frames_dets (dets : Nat → List Detection) : List Nat → List Detection
  | [] => []
  | f :: fs => dets f ++ frames_dets dets fs

/-- The detections of a looked-up track, none when there is no such track. -/
def dets_of : Option Track → List Detection
  | some trk => trk.dets
  | none => []

/-- Track ids after a row with id `i` has been loaded: a track is created, at the back,
when the id is met for the first time. -/
def note_id (ids : List Nat) (i : Nat) : List Nat :=
  if i ∈ ids then ids else ids ++ [i]

/-- The rows `load` retains: those of the recognised class. -/
def retained (pedestrian_class_ : Nat) (rows : List Row) : List Row :=
  rows.filter (fun r => decide (r.object_type = pedestrian_class_))

/-! ## States of a store and the properties the claims speak about -/

/-- States a store can be in: built by `TrackContainer(video_length)` and edited by calls
that return. -/
inductive Reachable : TrackContainer → Prop where
  | construct (video_length : Nat) : Reachable (TrackContainer.construct video_length)
  | create_new_track {s s1 : TrackContainer} {i : Nat} (det : Detection) :
      Reachable s → create_new_track s det = .ok (s1, i) → Reachable s1
  | add_track {s s1 : TrackContainer} (track : Track) :
      Reachable s → add_track s track = .ok s1 → Reachable s1
  | add_det2track {s s1 : TrackContainer} {r : Bool} (track_id : Nat) (det : Detection) :
      Reachable s → add_det2track s track_id det = .ok (s1, r) → Reachable s1
  | delete_detection {s s1 : TrackContainer} {r : Bool} (track_id frame_idx : Nat) :
      Reachable s → delete_detection s track_id frame_idx = .ok (s1, r) → Reachable s1
  | delete_track {s s1 : TrackContainer} {r : Bool} (id : Nat) :
      Reachable s → delete_track s id = .ok (s1, r) → Reachable s1
  | split_track {s s1 : TrackContainer} {r : Bool} (track_id frame_idx : Nat) :
      Reachable s → split_track s track_id frame_idx = .ok (s1, r) → Reachable s1
  | unite_tracks {s s1 : TrackContainer} {r : Bool} (id_A id_B : Nat) :
      Reachable s → unite_tracks s id_A id_B = .ok (s1, r) → Reachable s1

/-- States reached through the public operations with `load` among them, from either
constructor (by length, or by file: `load` on a store object not yet set up must return
true). `load` is applied to a store none of whose detections has a frame at or beyond the
video length of the file. -/
inductive ReachableLoaded (pedestrian_class_ : Nat) : TrackContainer → Prop where
  | construct (video_length : Nat) :
      ReachableLoaded pedestrian_class_ (TrackContainer.construct video_length)
  | construct_file {s1 : TrackContainer} (v0 : Nat) (file : Option TrackFile) :
      load pedestrian_class_ (TrackContainer.fresh v0) file = .ok (s1, true) →
      ReachableLoaded pedestrian_class_ s1
  | create_new_track {s s1 : TrackContainer} {i : Nat} (det : Detection) :
      ReachableLoaded pedestrian_class_ s → create_new_track s det = .ok (s1, i) →
      ReachableLoaded pedestrian_class_ s1
  | add_track {s s1 : TrackContainer} (track : Track) :
      ReachableLoaded pedestrian_class_ s → add_track s track = .ok s1 →
      ReachableLoaded pedestrian_class_ s1
  | add_det2track {s s1 : TrackContainer} {r : Bool} (track_id : Nat) (det : Detection) :
      ReachableLoaded pedestrian_class_ s → add_det2track s track_id det = .ok (s1, r) →
      ReachableLoaded pedestrian_class_ s1
  | delete_detection {s s1 : TrackContainer} {r : Bool} (track_id frame_idx : Nat) :
      ReachableLoaded pedestrian_class_ s →
      delete_detection s track_id frame_idx = .ok (s1, r) →
      ReachableLoaded pedestrian_class_ s1
  | delete_track {s s1 : TrackContainer} {r : Bool} (id : Nat) :
      ReachableLoaded pedestrian_class_ s → delete_track s id = .ok (s1, r) →
      ReachableLoaded pedestrian_class_ s1
  | split_track {s s1 : TrackContainer} {r : Bool} (track_id frame_idx : Nat) :
      ReachableLoaded pedestrian_class_ s → split_track s track_id frame_idx = .ok (s1, r) →
      ReachableLoaded pedestrian_class_ s1
  | unite_tracks {s s1 : TrackContainer} {r : Bool} (id_A id_B : Nat) :
      ReachableLoaded pedestrian_class_ s → unite_tracks s id_A id_B = .ok (s1, r) →
      ReachableLoaded pedestrian_class_ s1
  | load {s s1 : TrackContainer} {r : Bool} (file : Option TrackFile) :
      ReachableLoaded pedestrian_class_ s →
      (∀ f, file = some f → ∀ n ∈ owned s.tracks_, n.det.frame < f.video_length) →
      load pedestrian_class_ s file = .ok (s1, r) →
      ReachableLoaded pedestrian_class_ s1

/-- No two tracks share an identifier. -/
def UniqueIds (s : TrackContainer) : Prop :=
  (s.tracks_.map StoredTrack.id).Nodup

/-- Every stored detection carries the id of its track. -/
def Tagged (s : TrackContainer) : Prop :=
  ∀ t ∈ s.tracks_, ∀ n ∈ t.nodes, n.det.id = t.id

/-- The timeline has `video_len_` buckets and every stored detection lies inside it. -/
def Bounded (s : TrackContainer) : Prop :=
  s.timeline_.length = s.video_len_ ∧ ∀ n ∈ owned s.tracks_, n.det.frame < s.video_len_

/-- Every address in use is below the next address of the allocator. -/
def AddrFresh (s : TrackContainer) : Prop :=
  (∀ n ∈ owned s.tracks_, n.addr < s.heap_top) ∧
  ∀ f, ∀ p ∈ bucket s.timeline_ f, p < s.heap_top

/-- Structural facts that hold of every store: unique identifiers, frames and timeline
within the video length, addresses below the allocator's next address. -/
def Sound (s : TrackContainer) : Prop :=
  UniqueIds s ∧ Bounded s ∧ AddrFresh s

/-- Frame-index consistency: stored detections live at distinct addresses, each is
referenced exactly once in the bucket of its frame, and every reference in a bucket is the
address of a stored detection of that frame. -/
def Consistent (s : TrackContainer) : Prop :=
  ((owned s.tracks_).map Node.addr).Nodup ∧
  (∀ n ∈ owned s.tracks_, (bucket s.timeline_ n.det.frame).count n.addr = 1) ∧
  ∀ f, f < s.timeline_.length → ∀ p ∈ bucket s.timeline_ f,
    ∃ n ∈ owned s.tracks_, n.addr = p ∧ n.det.frame = f

/-- Timeline after the addresses of the given nodes have been pushed, in order. -/
def push_all (timeline : List (List Nat)) : List Node → List (List Nat)
  | [] => timeline
  | n :: ns => push_all (timeline_push timeline n.det.frame n.addr) ns

/-- Nodes of a track after `Track::del` has been called for each of the frames, in order. -/
def del_frames (nodes : List Node) : List Nat → List Node
  | [] => nodes
  | f :: fs => del_frames (nodes.eraseP (fun n => n.det.frame == f)) fs

/-- Whether the pointer `p` reads a detection that carries `id`. -/
def carries (tracks : List StoredTrack) (id : Nat) (p : Nat) : Bool :=
  match deref tracks p with
  | .ok d => decide (d.id = id)
  | .error _ => false

/-- The detection read through `p`, with a placeholder for a dangling pointer. -/
def peek (tracks : List StoredTrack) (p : Nat) : Detection :=
  match deref tracks p with
  | .ok d => d
  | .error _ => ⟨0, 0, ⟨0, 0, 0, 0⟩, 0⟩

/-- Timeline after, for each of the frames in order, the first pointer satisfying `q` has
been erased from the bucket of that frame. -/
def erase_frames (q : Nat → Bool) (timeline : List (List Nat)) : List Nat → List (List Nat)
  | [] => timeline
  | f :: fs => erase_frames q (timeline.set f ((bucket timeline f).eraseP q)) fs

/-- What identifies an observation apart from its owner: frame, box and confidence. -/
def payload (d : Detection) : Nat × BBox × Nat :=
  (d.frame, d.bbox, d.confidence)

/-! ## Concrete stores used in the evaluations below -/

/-- A detection at the given frame carrying the given id (box and confidence fixed). -/
def det_at (frame id : Nat) : Detection :=
  ⟨frame, id, ⟨10, 20, 30, 40⟩, 1⟩

/-- Store of video length 1 after `add_track(Track(0))` and `add_track(Track(SIZE_MAX))`. -/
def overflow_store : TrackContainer :=
  { video_len_ := 1, tracks_ := [⟨0, []⟩, ⟨18446744073709551615, []⟩], timeline_ := [[]],
    heap_top := 0 }

/-- Store of video length 1 after `add_track` of track 0 holding one detection at frame 0
and `add_track(Track(SIZE_MAX))`. -/
def overflow_split_store : TrackContainer :=
  { video_len_ := 1, tracks_ := [⟨0, [⟨0, det_at 0 0⟩]⟩, ⟨18446744073709551615, []⟩],
    timeline_ := [[0]], heap_top := 1 }

/-- First step of the scenario: video length 5 after `create_new_track` with a detection at
frame 2, which becomes track 1. -/
def scenario_first : TrackContainer :=
  { video_len_ := 5, tracks_ := [⟨1, [⟨0, det_at 2 1⟩]⟩],
    timeline_ := [[], [], [0], [], []], heap_top := 1 }

/-- The store of the scenario: video length 5, `create_new_track` with a detection at
frame 2 (which becomes track 1), then `add_det2track(1, ·)` with a detection at frame 4. -/
def scenario_store : TrackContainer :=
  { video_len_ := 5, tracks_ := [⟨1, [⟨0, det_at 2 1⟩, ⟨1, det_at 4 1⟩]⟩],
    timeline_ := [[], [], [0], [], [1]], heap_top := 2 }

/-- The scenario store after `split_track(1, 4)`. -/
def scenario_split : TrackContainer :=
  { video_len_ := 5, tracks_ := [⟨1, [⟨0, det_at 2 1⟩]⟩, ⟨2, [⟨2, det_at 4 2⟩]⟩],
    timeline_ := [[], [], [0], [], [2]], heap_top := 3 }

/-- Store of video length 1 after `add_track(Track(1))`. -/
def empty_track_store : TrackContainer :=
  { video_len_ := 1, tracks_ := [⟨1, []⟩], timeline_ := [[]], heap_top := 0 }

/-- The store `empty_track_store` after `add_det2track(1, det)` with a detection at frame 0
whose id field is 7. -/
def foreign_store : TrackContainer :=
  { video_len_ := 1, tracks_ := [⟨1, [⟨0, det_at 0 7⟩]⟩], timeline_ := [[0]], heap_top := 1 }

/-- The store `foreign_store` after `delete_track(1)`. -/
def dangling_store : TrackContainer :=
  { video_len_ := 1, tracks_ := [], timeline_ := [[0]], heap_top := 1 }

/-- Store of video length 1 after two `create_new_track` calls with detections at frame 0
(tracks 1 and 2) and `add_det2track(2, det)` with a detection at frame 0 whose id field
is 1. -/
def shared_id_store : TrackContainer :=
  { video_len_ := 1,
    tracks_ := [⟨1, [⟨0, det_at 0 1⟩]⟩, ⟨2, [⟨1, det_at 0 2⟩, ⟨2, det_at 0 1⟩]⟩],
    timeline_ := [[0, 1, 2]], heap_top := 3 }

/-- The store `shared_id_store` after `delete_track(1)`. -/
def shared_id_deleted : TrackContainer :=
  { video_len_ := 1, tracks_ := [⟨2, [⟨1, det_at 0 2⟩, ⟨2, det_at 0 1⟩]⟩],
    timeline_ := [[1, 2]], heap_top := 3 }

/-- Store of video length 2 after two `create_new_track` calls: track 1 with a detection at
frame 0 and track 2 with a detection at frame 1. -/
def unite_store : TrackContainer :=
  { video_len_ := 2, tracks_ := [⟨1, [⟨0, det_at 0 1⟩]⟩, ⟨2, [⟨1, det_at 1 2⟩]⟩],
    timeline_ := [[0], [1]], heap_top := 2 }

/-- The store `unite_store` after `unite_tracks(2, 1)`. -/
def united_store : TrackContainer :=
  { video_len_ := 2, tracks_ := [⟨1, [⟨2, det_at 1 1⟩, ⟨3, det_at 0 1⟩]⟩],
    timeline_ := [[3], [2]], heap_top := 4 }

/-- Store of video length 1 after `add_track(Track(1))`, `add_track(Track(2))`,
`add_det2track(2, det)` with a detection at frame 0 whose id field is 1, and
`delete_detection(1, 0)`: track 2 still owns the detection, the frame index is empty. -/
def orphan_store : TrackContainer :=
  { video_len_ := 1, tracks_ := [⟨1, []⟩, ⟨2, [⟨0, det_at 0 1⟩]⟩], timeline_ := [[]],
    heap_top := 1 }

/-- The store `unite_store` after `unite_tracks(1, 2)`. -/
def united_store_12 : TrackContainer :=
  { video_len_ := 2, tracks_ := [⟨1, [⟨2, det_at 0 1⟩, ⟨3, det_at 1 1⟩]⟩],
    timeline_ := [[2], [3]], heap_top := 4 }

/-- The first store of the scenario after `split_track(1, 0)`: track 1 is empty and still
there, track 2 holds the detection. -/
def emptied_store : TrackContainer :=
  { video_len_ := 5, tracks_ := [⟨1, []⟩, ⟨2, [⟨1, det_at 2 2⟩]⟩],
    timeline_ := [[], [], [1], [], []], heap_top := 2 }

/-- Rows of a tracks file for video length 5: two rows of class 1 for id 1 (on-disk frames
3 and 5) around a row of class 2 for id 5. -/
def mixed_rows : List Row :=
  [⟨3, 1, 10, 20, 30, 40, 1, 1⟩, ⟨1, 5, 10, 20, 30, 40, 1, 2⟩, ⟨5, 1, 10, 20, 30, 40, 1, 1⟩]

/-- Store of video length 1 after `create_new_track` twice (tracks 1 and 2),
`add_det2track(1, ·)` with a detection carrying id 1, and a third `create_new_track`
(track 3), all detections at frame 0: the bucket of frame 0 interleaves the three tracks. -/
def shared_frame_store : TrackContainer :=
  { video_len_ := 1,
    tracks_ := [⟨1, [⟨0, det_at 0 1⟩, ⟨2, det_at 0 1⟩]⟩, ⟨2, [⟨1, det_at 0 2⟩]⟩,
      ⟨3, [⟨3, det_at 0 3⟩]⟩],
    timeline_ := [[0, 1, 2, 3]], heap_top := 4 }

/-- The store `shared_frame_store` after `delete_track(1)`. -/
def shared_frame_deleted : TrackContainer :=
  { video_len_ := 1, tracks_ := [⟨2, [⟨1, det_at 0 2⟩]⟩, ⟨3, [⟨3, det_at 0 3⟩]⟩],
    timeline_ := [[1, 3]], heap_top := 4 }

/-- The store `shared_frame_store` after `unite_tracks(1, 1)`. -/
def shared_frame_doubled : TrackContainer :=
  { video_len_ := 1,
    tracks_ := [⟨2, [⟨1, det_at 0 2⟩]⟩, ⟨3, [⟨3, det_at 0 3⟩]⟩,
      ⟨1, [⟨4, det_at 0 1⟩, ⟨5, det_at 0 1⟩, ⟨6, det_at 0 1⟩, ⟨7, det_at 0 1⟩]⟩],
    timeline_ := [[1, 3, 4, 5, 6, 7]], heap_top := 8 }

/-- Store of video length 5 after `create_new_track` with a detection at frame 4. -/
def late_store : TrackContainer :=
  { video_len_ := 5, tracks_ := [⟨1, [⟨0, det_at 4 1⟩]⟩],
    timeline_ := [[], [], [], [], [0]], heap_top := 1 }

/-- A tracks file for video length 2 with one row of class 1: on-disk frame 1, id 9. -/
def short_file : TrackFile :=
  ⟨2, [some ⟨1, 9, 10, 20, 30, 40, 1, 1⟩]⟩

/-- The store `late_store` after `load` of `short_file` (pedestrian class 1): the video
length is 2 and track 1 still owns its detection at frame 4. -/
def late_store_loaded : TrackContainer :=
  { video_len_ := 2, tracks_ := [⟨1, [⟨0, det_at 4 1⟩]⟩, ⟨9, [⟨1, det_at 0 9⟩]⟩],
    timeline_ := [[1], []], heap_top := 2 }

/-- A tracks file for video length 6 with one row of class 1: on-disk frame 6, id 1. -/
def longer_file : TrackFile :=
  ⟨6, [some ⟨6, 1, 10, 20, 30, 40, 1, 1⟩]⟩

/-- The scenario store after `load` of `longer_file` (pedestrian class 1): video length 6
and a third detection of track 1 at frame 5. -/
def scenario_extended : TrackContainer :=
  { video_len_ := 6,
    tracks_ := [⟨1, [⟨0, det_at 2 1⟩, ⟨1, det_at 4 1⟩, ⟨2, det_at 5 1⟩]⟩],
    timeline_ := [[], [], [0], [], [1], [2]], heap_top := 3 }

/-- A detection at frame 0 with the given id and confidence. -/
def det_conf (id confidence : Nat) : Detection :=
  ⟨0, id, ⟨10, 20, 30, 40⟩, confidence⟩

/-- Store of video length 1 after `create_new_track` twice (tracks 1 and 2, confidences 1
and 2), `add_track(Track(3))` and `add_det2track(3, det)` with a detection whose id field
is 1 (confidence 4): every track has exactly one detection at frame 0. -/
def crowded_store : TrackContainer :=
  { video_len_ := 1,
    tracks_ := [⟨1, [⟨0, det_conf 1 1⟩]⟩, ⟨2, [⟨1, det_conf 2 2⟩]⟩, ⟨3, [⟨2, det_conf 1 4⟩]⟩],
    timeline_ := [[0, 1, 2]], heap_top := 3 }

/-- The store `crowded_store` after `unite_tracks(1, 2)`. -/
def crowded_united : TrackContainer :=
  { video_len_ := 1,
    tracks_ := [⟨3, [⟨2, det_conf 1 4⟩]⟩, ⟨1, [⟨3, det_conf 1 1⟩, ⟨4, det_conf 1 2⟩]⟩],
    timeline_ := [[2, 3, 4]], heap_top := 5 }

/-- The store `dangling_store` after `add_track(Track(2))`: track 2 is empty and the
bucket of frame 0 still holds the address of the detection that was destroyed with
track 1. -/
def dangling_tracked_store : TrackContainer :=
  { video_len_ := 1, tracks_ := [⟨2, []⟩], timeline_ := [[0]], heap_top := 1 }

/-- The store `foreign_store` after `unite_tracks(1, 1)`: track 1 holds two copies stamped
with id 1, and the bucket of frame 0 still holds the address of the destroyed original. -/
def foreign_doubled : TrackContainer :=
  { video_len_ := 1, tracks_ := [⟨1, [⟨1, det_at 0 1⟩, ⟨2, det_at 0 1⟩]⟩],
    timeline_ := [[0, 1, 2]], heap_top := 3 }

/-- Store of video length 1 with two empty tracks 3 and 7. -/
def two_track_store : TrackContainer :=
  { video_len_ := 1, tracks_ := [⟨3, []⟩, ⟨7, []⟩], timeline_ := [[]], heap_top := 0 }

/-! ## Lemmas and theorems -/

theorem has_track_iff (s : TrackContainer) (id : Nat) :
    has_track s id = true ↔ ∃ t ∈ s.tracks_, t.id = id := by
  simp [has_track, List.any_eq_true]

theorem has_track_false_iff (s : TrackContainer) (id : Nat) :
    has_track s id = false ↔ ∀ t ∈ s.tracks_, t.id ≠ id := by
  simp [has_track, List.any_eq_false]

theorem has_track_congr {s s1 : TrackContainer}
    (h : s1.tracks_.map StoredTrack.id = s.tracks_.map StoredTrack.id) (id : Nat) :
    has_track s1 id = has_track s id := by
  have e : ∀ u : TrackContainer, has_track u id = (u.tracks_.map StoredTrack.id).any (fun i => i == id) := by
    intro u
    unfold has_track
    induction u.tracks_ with
    | nil => rfl
    | cons a l ih => simp [List.any_cons, ih]
  rw [e, e, h]

theorem le_max_id_loop (m : Nat) (ts : List StoredTrack) : m ≤ max_id_loop m ts := by
  induction ts generalizing m with
  | nil => simp [max_id_loop]
  | cons t ts ih =>
    simp only [max_id_loop]
    exact le_trans (le_max_right _ _) (ih _)

theorem id_le_max_id_loop (m : Nat) (ts : List StoredTrack) :
    ∀ t ∈ ts, t.id ≤ max_id_loop m ts := by
  induction ts generalizing m with
  | nil => simp
  | cons t ts ih =>
    intro u hu
    simp only [max_id_loop]
    rcases List.mem_cons.1 hu with rfl | hu
    · exact le_trans (le_max_left _ _) (le_max_id_loop _ _)
    · exact ih _ u hu

theorem max_id_loop_attained (m : Nat) (ts : List StoredTrack) :
    max_id_loop m ts = m ∨ ∃ t ∈ ts, t.id = max_id_loop m ts := by
  induction ts generalizing m with
  | nil => simp [max_id_loop]
  | cons t ts ih =>
    simp only [max_id_loop]
    rcases ih (max t.id m) with h | ⟨u, hu, e⟩
    · rcases le_total t.id m with hm | hm
      · left; rw [h]; exact max_eq_right hm
      · right; exact ⟨t, List.mem_cons_self _ _, by rw [h]; exact (max_eq_left hm).symm⟩
    · right; exact ⟨u, List.mem_cons_of_mem _ hu, e⟩

theorem max_id_loop_eq (ts : List StoredTrack) (m : Nat)
    (hm : ∃ t ∈ ts, t.id = m) (hle : ∀ t ∈ ts, t.id ≤ m) : max_id_loop 0 ts = m := by
  obtain ⟨t, ht, e⟩ := hm
  apply le_antisymm
  · rcases max_id_loop_attained 0 ts with h | ⟨u, hu, e1⟩
    · rw [h]; exact Nat.zero_le _
    · rw [← e1]; exact hle u hu
  · rw [← e]; exact id_le_max_id_loop 0 ts t ht

theorem length_timeline_push (tl : List (List Nat)) (f p : Nat) :
    (timeline_push tl f p).length = tl.length := by
  simp [timeline_push]

theorem bucket_set (tl : List (List Nat)) (g f : Nat) (b : List Nat) :
    bucket (tl.set g b) f = if g = f ∧ f < tl.length then b else bucket tl f := by
  unfold bucket
  rw [List.getElem?_set]
  by_cases h : g = f
  · subst h
    by_cases h2 : g < tl.length
    · simp [h2]
    · have : tl[g]? = none := List.getElem?_eq_none (Nat.le_of_not_lt h2)
      simp [h2, this]
  · simp [h]

theorem bucket_timeline_push (tl : List (List Nat)) (g p f : Nat) :
    bucket (timeline_push tl g p) f
      = if g = f ∧ f < tl.length then bucket tl f ++ [p] else bucket tl f := by
  unfold timeline_push
  rw [bucket_set]
  by_cases h : g = f ∧ f < tl.length
  · simp [h, h.1]
  · simp [h]

theorem length_push_all (tl : List (List Nat)) (ns : List Node) :
    (push_all tl ns).length = tl.length := by
  induction ns generalizing tl with
  | nil => rfl
  | cons n ns ih => simp [push_all, ih, length_timeline_push]

theorem bucket_push_all (tl : List (List Nat)) (ns : List Node) (f : Nat)
    (hf : f < tl.length) :
    bucket (push_all tl ns) f
      = bucket tl f ++ (ns.filter (fun n => decide (n.det.frame = f))).map Node.addr := by
  induction ns generalizing tl with
  | nil => simp [push_all]
  | cons n ns ih =>
    simp only [push_all]
    rw [ih _ (by rw [length_timeline_push]; exact hf), bucket_timeline_push]
    by_cases h : n.det.frame = f
    · simp [h, hf, List.filter_cons]
    · simp [h, List.filter_cons]

theorem bucket_of_length_le (tl : List (List Nat)) (f : Nat) (hf : tl.length ≤ f) :
    bucket tl f = [] := by
  unfold bucket
  rw [List.getElem?_eq_none hf]; rfl

theorem index_nodes_ok {s s1 : TrackContainer} {ns : List Node}
    (h : index_nodes s ns = .ok s1) :
    (∀ n ∈ ns, n.det.frame < s.video_len_) ∧
    s1 = { s with timeline_ := push_all s.timeline_ ns } := by
  induction ns generalizing s with
  | nil =>
    simp only [index_nodes, Except.ok.injEq] at h
    subst h
    simp [push_all]
  | cons n ns ih =>
    simp only [index_nodes] at h
    split at h
    · split at h
      · obtain ⟨h1, h2⟩ := ih h
        refine ⟨?_, ?_⟩
        · intro m hm
          rcases List.mem_cons.1 hm with rfl | hm
          · assumption
          · exact h1 m hm
        · simpa [push_all] using h2
      · cases h
    · cases h

theorem index_nodes_of (s : TrackContainer) (ns : List Node)
    (hb : ∀ n ∈ ns, n.det.frame < s.video_len_) (hl : s.timeline_.length = s.video_len_) :
    index_nodes s ns = .ok { s with timeline_ := push_all s.timeline_ ns } := by
  induction ns generalizing s with
  | nil => simp [index_nodes, push_all]
  | cons n ns ih =>
    simp only [index_nodes]
    rw [if_pos (hb n (List.mem_cons_self _ _)), if_pos hl]
    have key := ih { s with timeline_ := timeline_push s.timeline_ n.det.frame n.addr }
      (fun m hm => hb m (List.mem_cons_of_mem _ hm))
      (by simp [length_timeline_push, hl])
    rw [key]
    simp [push_all]

theorem length_copy_nodes (a : Nat) (ds : List Detection) :
    (copy_nodes a ds).length = ds.length := by
  induction ds generalizing a with
  | nil => rfl
  | cons d ds ih => simp [copy_nodes, ih]

theorem map_det_copy_nodes (a : Nat) (ds : List Detection) :
    (copy_nodes a ds).map Node.det = ds := by
  induction ds generalizing a with
  | nil => rfl
  | cons d ds ih => simp [copy_nodes, ih]

theorem mem_copy_nodes {a : Nat} {ds : List Detection} {n : Node}
    (h : n ∈ copy_nodes a ds) : a ≤ n.addr ∧ n.addr < a + ds.length ∧ n.det ∈ ds := by
  induction ds generalizing a with
  | nil => simp [copy_nodes] at h
  | cons d ds ih =>
    simp only [copy_nodes, List.mem_cons] at h
    rcases h with rfl | h
    · simp
    · obtain ⟨h1, h2, h3⟩ := ih h
      refine ⟨by omega, by simp only [List.length_cons]; omega, List.mem_cons_of_mem _ h3⟩

theorem nodup_addr_copy_nodes (a : Nat) (ds : List Detection) :
    ((copy_nodes a ds).map Node.addr).Nodup := by
  induction ds generalizing a with
  | nil => simp [copy_nodes]
  | cons d ds ih =>
    simp only [copy_nodes, List.map_cons, List.nodup_cons]
    refine ⟨?_, ih _⟩
    intro hmem
    obtain ⟨n, hn, e⟩ := List.mem_map.1 hmem
    have := (mem_copy_nodes hn).1
    omega

theorem add_track_ok {s s1 : TrackContainer} {track : Track}
    (h : add_track s track = .ok s1) :
    has_track s track.id = false ∧ (∀ d ∈ track.dets, d.frame < s.video_len_) ∧
    s1 = { video_len_ := s.video_len_,
           tracks_ := s.tracks_ ++ [⟨track.id, copy_nodes s.heap_top track.dets⟩],
           timeline_ := push_all s.timeline_ (copy_nodes s.heap_top track.dets),
           heap_top := s.heap_top + track.dets.length } := by
  unfold add_track at h
  split at h
  · cases h
  · rename_i hh
    obtain ⟨h1, h2⟩ := index_nodes_ok h
    refine ⟨by simpa using hh, ?_, ?_⟩
    · intro d hd
      have : d ∈ (copy_nodes s.heap_top track.dets).map Node.det := by
        rw [map_det_copy_nodes]; exact hd
      obtain ⟨n, hn, rfl⟩ := List.mem_map.1 this
      exact h1 n hn
    · rw [h2]; simp [length_copy_nodes]

theorem add_track_of (s : TrackContainer) (track : Track)
    (hid : has_track s track.id = false) (hb : ∀ d ∈ track.dets, d.frame < s.video_len_)
    (hl : s.timeline_.length = s.video_len_) :
    add_track s track = .ok
      { video_len_ := s.video_len_,
        tracks_ := s.tracks_ ++ [⟨track.id, copy_nodes s.heap_top track.dets⟩],
        timeline_ := push_all s.timeline_ (copy_nodes s.heap_top track.dets),
        heap_top := s.heap_top + track.dets.length } := by
  unfold add_track
  rw [if_neg (by simp [hid])]
  simp only []
  rw [index_nodes_of]
  · simp [length_copy_nodes]
  · intro n hn; exact hb _ (mem_copy_nodes hn).2.2
  · exact hl

theorem mem_owned {ts : List StoredTrack} {n : Node} :
    n ∈ owned ts ↔ ∃ t ∈ ts, n ∈ t.nodes := by
  induction ts with
  | nil => simp [owned]
  | cons t ts ih => simp [owned, ih]

theorem owned_append (a b : List StoredTrack) : owned (a ++ b) = owned a ++ owned b := by
  induction a with
  | nil => simp [owned]
  | cons t ts ih => simp [owned, ih]

theorem owned_sublist_of_sublist {a b : List StoredTrack} (h : a.Sublist b) :
    (owned a).Sublist (owned b) := by
  induction h with
  | slnil => simp [owned]
  | cons t _ ih =>
    simp only [owned]
    exact ih.trans (List.sublist_append_right _ _)
  | cons₂ t _ ih =>
    simp only [owned]
    exact List.Sublist.append (List.Sublist.refl _) ih

theorem owned_map_sublist (g : StoredTrack → StoredTrack) (ts : List StoredTrack)
    (hg : ∀ t, (g t).nodes.Sublist t.nodes) : (owned (ts.map g)).Sublist (owned ts) := by
  induction ts with
  | nil => simp [owned]
  | cons t ts ih =>
    simp only [List.map_cons, owned]
    exact List.Sublist.append (hg t) ih

theorem erase_first_id_sublist {ts : List StoredTrack} {id : Nat} {b b1 : List Nat}
    (h : erase_first_id ts id b = .ok b1) : b1.Sublist b := by
  induction b generalizing b1 with
  | nil =>
    simp only [erase_first_id, Except.ok.injEq] at h
    subst h; exact List.Sublist.refl _
  | cons p ps ih =>
    simp only [erase_first_id] at h
    split at h
    · cases h
    · split at h
      · simp only [Except.ok.injEq] at h
        subst h; exact List.sublist_cons_self _ _
      · split at h
        · cases h
        · rename_i ps1 he
          simp only [Except.ok.injEq] at h
          subst h
          exact (ih he).cons₂ _

theorem unindex_nodes_ok {ts : List StoredTrack} {id : Nat} {tl tl1 : List (List Nat)}
    {ns : List Node} (h : unindex_nodes ts id tl ns = .ok tl1) :
    tl1.length = tl.length ∧ ∀ f, (bucket tl1 f).Sublist (bucket tl f) := by
  induction ns generalizing tl with
  | nil =>
    simp only [unindex_nodes, Except.ok.injEq] at h
    subst h; exact ⟨rfl, fun f => List.Sublist.refl _⟩
  | cons n ns ih =>
    simp only [unindex_nodes] at h
    split at h
    · split at h
      · cases h
      · rename_i b hb
        obtain ⟨h1, h2⟩ := ih h
        refine ⟨by simpa using h1, fun f => (h2 f).trans ?_⟩
        rw [bucket_set]
        split
        · rename_i hc
          rw [← hc.1]; exact erase_first_id_sublist hb
        · exact List.Sublist.refl _
    · cases h

theorem delete_track_ok {s s1 : TrackContainer} {id : Nat} {r : Bool}
    (h : delete_track s id = .ok (s1, r)) :
    r = has_track s id ∧ s1.video_len_ = s.video_len_ ∧ s1.heap_top = s.heap_top ∧
    s1.tracks_ = s.tracks_.eraseP (fun t => t.id == id) ∧
    s1.timeline_.length = s.timeline_.length ∧
    ∀ f, (bucket s1.timeline_ f).Sublist (bucket s.timeline_ f) := by
  unfold delete_track at h
  split at h
  · rename_i hf
    simp only [Except.ok.injEq, Prod.mk.injEq] at h
    obtain ⟨rfl, rfl⟩ := h
    have hn : ∀ t ∈ s.tracks_, ¬ (t.id == id) = true := by
      simpa [List.find?_eq_none] using hf
    refine ⟨?_, rfl, rfl, ?_, rfl, fun f => List.Sublist.refl _⟩
    · symm; rw [has_track_false_iff]
      intro t ht; simpa using hn t ht
    · rw [List.eraseP_of_forall_not hn]
  · rename_i t hf
    split at h
    · cases h
    · rename_i tl htl
      simp only [Except.ok.injEq, Prod.mk.injEq] at h
      obtain ⟨rfl, rfl⟩ := h
      obtain ⟨h1, h2⟩ := unindex_nodes_ok htl
      refine ⟨?_, rfl, rfl, rfl, h1, h2⟩
      symm; rw [has_track_iff]
      exact ⟨t, List.mem_of_find?_eq_some hf, by simpa using List.find?_some hf⟩

theorem map_id_add_to_first (track_id a : Nat) (det : Detection) (ts : List StoredTrack) :
    (add_to_first track_id a det ts).map StoredTrack.id = ts.map StoredTrack.id := by
  induction ts with
  | nil => rfl
  | cons t ts ih =>
    simp only [add_to_first]
    split
    · simp [StoredTrack.add]
    · simp [ih]

theorem mem_owned_add_to_first {track_id a : Nat} {det : Detection} {ts : List StoredTrack}
    {n : Node} (h : n ∈ owned (add_to_first track_id a det ts)) :
    n ∈ owned ts ∨ n = ⟨a, det⟩ := by
  induction ts with
  | nil => simp [add_to_first, owned] at h
  | cons t ts ih =>
    simp only [add_to_first] at h
    split at h
    · simp only [owned, StoredTrack.add, List.mem_append, List.mem_singleton] at h
      simp only [owned, List.mem_append]
      tauto
    · simp only [owned, List.mem_append] at h
      simp only [owned, List.mem_append]
      rcases h with h | h
      · exact Or.inl (Or.inl h)
      · rcases ih h with h | h
        · exact Or.inl (Or.inr h)
        · exact Or.inr h

theorem add_det2track_ok {s s1 : TrackContainer} {track_id : Nat} {det : Detection} {r : Bool}
    (h : add_det2track s track_id det = .ok (s1, r)) :
    det.frame < s.video_len_ ∧ s.timeline_.length = s.video_len_ ∧ r = has_track s track_id ∧
    s1 = (if has_track s track_id then
            { video_len_ := s.video_len_,
              tracks_ := add_to_first track_id s.heap_top det s.tracks_,
              timeline_ := timeline_push s.timeline_ det.frame s.heap_top,
              heap_top := s.heap_top + 1 }
          else s) := by
  unfold add_det2track at h
  split at h
  · split at h
    · rename_i h1 h2
      split at h
      · rename_i h3
        simp only [Except.ok.injEq, Prod.mk.injEq] at h
        obtain ⟨rfl, rfl⟩ := h
        exact ⟨h1, h2.symm, h3.symm, by rw [if_pos h3]⟩
      · rename_i h3
        simp only [Except.ok.injEq, Prod.mk.injEq] at h
        obtain ⟨rfl, rfl⟩ := h
        exact ⟨h1, h2.symm, by simpa using h3, by rw [if_neg h3]⟩
    · cases h
  · cases h

theorem delete_detection_ok {s s1 : TrackContainer} {track_id frame_idx : Nat} {r : Bool}
    (h : delete_detection s track_id frame_idx = .ok (s1, r)) :
    (r = false ∧ s1 = s ∧ (has_track s track_id = false ∨ s.video_len_ ≤ frame_idx)) ∨
    (r = true ∧ has_track s track_id = true ∧ frame_idx < s.video_len_ ∧
      s.timeline_.length = s.video_len_ ∧
      ∃ b, erase_first_id s.tracks_ track_id (bucket s.timeline_ frame_idx) = .ok b ∧
        s1 = { video_len_ := s.video_len_,
               tracks_ := s.tracks_.map
                 (fun t => if t.id = track_id then t.del frame_idx else t),
               timeline_ := s.timeline_.set frame_idx b,
               heap_top := s.heap_top }) := by
  unfold delete_detection at h
  split at h
  · rename_i h1
    split at h
    · rename_i h2
      simp only [Except.ok.injEq, Prod.mk.injEq] at h
      obtain ⟨rfl, rfl⟩ := h
      exact Or.inl ⟨rfl, rfl, Or.inr h2⟩
    · rename_i h2
      split at h
      · rename_i h3
        split at h
        · cases h
        · rename_i b hb
          simp only [Except.ok.injEq, Prod.mk.injEq] at h
          obtain ⟨rfl, rfl⟩ := h
          exact Or.inr ⟨rfl, h1, by omega, h3, b, hb, rfl⟩
      · cases h
  · rename_i h1
    simp only [Except.ok.injEq, Prod.mk.injEq] at h
    obtain ⟨rfl, rfl⟩ := h
    exact Or.inl ⟨rfl, rfl, Or.inl (by simpa using h1)⟩

theorem bucket_replicate (n f : Nat) : bucket (List.replicate n []) f = [] := by
  unfold bucket
  by_cases h : f < n
  · simp [List.getElem?_replicate, h]
  · simp [List.getElem?_replicate, h]

theorem sound_construct (video_length : Nat) : Sound (TrackContainer.construct video_length) := by
  refine ⟨?_, ⟨?_, ?_⟩, ?_, ?_⟩
  · simp [UniqueIds, TrackContainer.construct]
  · simp [TrackContainer.construct]
  · simp [TrackContainer.construct, owned]
  · simp [TrackContainer.construct, owned]
  · intro f p hp
    simp [TrackContainer.construct, bucket_replicate] at hp

theorem sound_add_track {s s1 : TrackContainer} {track : Track}
    (h : add_track s track = .ok s1) (hs : Sound s) : Sound s1 := by
  obtain ⟨hid, hb, rfl⟩ := add_track_ok h
  obtain ⟨hu, ⟨hl, hfr⟩, ha1, ha2⟩ := hs
  refine ⟨?_, ⟨?_, ?_⟩, ?_, ?_⟩
  · unfold UniqueIds at hu ⊢
    simp only [List.map_append, List.map_cons, List.map_nil]
    rw [List.nodup_append]
    refine ⟨hu, List.nodup_singleton _, ?_⟩
    intro a ha hb2
    simp only [List.mem_singleton] at hb2
    subst hb2
    obtain ⟨t, ht, e⟩ := List.mem_map.1 ha
    exact (has_track_false_iff s track.id).1 hid t ht e
  · simp only [length_push_all]; exact hl
  · intro n hn
    simp only [owned_append, owned, List.append_nil, List.mem_append] at hn
    rcases hn with hn | hn
    · exact hfr n hn
    · exact hb _ (mem_copy_nodes hn).2.2
  · intro n hn
    simp only [owned_append, owned, List.append_nil, List.mem_append] at hn
    rcases hn with hn | hn
    · have := ha1 n hn
      simp only; omega
    · exact (mem_copy_nodes hn).2.1
  · intro f p hp
    simp only at hp ⊢
    by_cases hf : f < s.timeline_.length
    · rw [bucket_push_all _ _ _ hf, List.mem_append] at hp
      rcases hp with hp | hp
      · have := ha2 f p hp; omega
      · obtain ⟨n, hn, rfl⟩ := List.mem_map.1 hp
        exact (mem_copy_nodes (List.mem_filter.1 hn).1).2.1
    · rw [bucket_of_length_le _ _ (by rw [length_push_all]; omega)] at hp
      cases hp

theorem sound_add_det2track {s s1 : TrackContainer} {track_id : Nat} {det : Detection}
    {r : Bool} (h : add_det2track s track_id det = .ok (s1, r)) (hs : Sound s) : Sound s1 := by
  obtain ⟨hfr, hl, -, rfl⟩ := add_det2track_ok h
  split
  · obtain ⟨hu, ⟨_, hb⟩, ha1, ha2⟩ := hs
    refine ⟨?_, ⟨?_, ?_⟩, ?_, ?_⟩
    · unfold UniqueIds at hu ⊢
      simp only [map_id_add_to_first]; exact hu
    · simp only [length_timeline_push]; exact hl
    · intro n hn
      rcases mem_owned_add_to_first hn with hn | rfl
      · exact hb n hn
      · exact hfr
    · intro n hn
      rcases mem_owned_add_to_first hn with hn | rfl
      · have := ha1 n hn
        simp only; omega
      · simp
    · intro f p hp
      simp only at hp ⊢
      rw [bucket_timeline_push] at hp
      split at hp
      · rw [List.mem_append] at hp
        rcases hp with hp | hp
        · have := ha2 f p hp; omega
        · simp only [List.mem_singleton] at hp; omega
      · have := ha2 f p hp; omega
  · exact hs

theorem sound_delete_track {s s1 : TrackContainer} {id : Nat} {r : Bool}
    (h : delete_track s id = .ok (s1, r)) (hs : Sound s) : Sound s1 := by
  obtain ⟨-, hv, ht, htr, hl, hsub⟩ := delete_track_ok h
  obtain ⟨hu, ⟨hl0, hb⟩, ha1, ha2⟩ := hs
  have hown : (owned s1.tracks_).Sublist (owned s.tracks_) := by
    rw [htr]; exact owned_sublist_of_sublist (List.eraseP_sublist _)
  refine ⟨?_, ⟨?_, ?_⟩, ?_, ?_⟩
  · unfold UniqueIds at hu ⊢
    rw [htr]
    exact hu.sublist ((List.eraseP_sublist _).map _)
  · rw [hl, hv]; exact hl0
  · intro n hn; rw [hv]; exact hb n (hown.subset hn)
  · intro n hn; rw [ht]; exact ha1 n (hown.subset hn)
  · intro f p hp; rw [ht]; exact ha2 f p ((hsub f).subset hp)

theorem del_nodes_sublist (track_id frame_idx : Nat) (t : StoredTrack) :
    (if t.id = track_id then t.del frame_idx else t).nodes.Sublist t.nodes := by
  split
  · exact List.eraseP_sublist _
  · exact List.Sublist.refl _

theorem map_id_del (track_id frame_idx : Nat) (ts : List StoredTrack) :
    (ts.map (fun t => if t.id = track_id then t.del frame_idx else t)).map StoredTrack.id
      = ts.map StoredTrack.id := by
  rw [List.map_map]
  apply List.map_congr_left
  intro t _
  simp only [Function.comp]
  split <;> simp [StoredTrack.del]

theorem sound_delete_detection {s s1 : TrackContainer} {track_id frame_idx : Nat} {r : Bool}
    (h : delete_detection s track_id frame_idx = .ok (s1, r)) (hs : Sound s) : Sound s1 := by
  rcases delete_detection_ok h with ⟨-, rfl, -⟩ | ⟨-, -, hfr, hl, b, hb, rfl⟩
  · exact hs
  · obtain ⟨hu, ⟨_, hbd⟩, ha1, ha2⟩ := hs
    have hown := owned_map_sublist
      (fun t => if t.id = track_id then t.del frame_idx else t) s.tracks_
      (del_nodes_sublist track_id frame_idx)
    refine ⟨?_, ⟨?_, ?_⟩, ?_, ?_⟩
    · unfold UniqueIds at hu ⊢
      simp only [map_id_del]; exact hu
    · simp only [List.length_set]; exact hl
    · intro n hn; exact hbd n (hown.subset hn)
    · intro n hn; exact ha1 n (hown.subset hn)
    · intro f p hp
      simp only at hp ⊢
      rw [bucket_set] at hp
      split at hp
      · rename_i hc
        exact ha2 frame_idx p ((erase_first_id_sublist hb).subset hp)
      · exact ha2 f p hp

theorem sound_delete_detections {s s1 : TrackContainer} {track_id : Nat} {frames : List Nat}
    (h : delete_detections s track_id frames = .ok s1) (hs : Sound s) : Sound s1 := by
  induction frames generalizing s with
  | nil =>
    simp only [delete_detections, Except.ok.injEq] at h
    subst h; exact hs
  | cons f fs ih =>
    simp only [delete_detections] at h
    split at h
    · cases h
    · rename_i s2 r h2
      exact ih h (sound_delete_detection h2 hs)

theorem sound_create_new_track {s s1 : TrackContainer} {det : Detection} {id : Nat}
    (h : create_new_track s det = .ok (s1, id)) (hs : Sound s) : Sound s1 := by
  unfold create_new_track at h
  simp only at h
  split at h
  · cases h
  · rename_i s2 h2
    simp only [Except.ok.injEq, Prod.mk.injEq] at h
    obtain ⟨rfl, -⟩ := h
    exact sound_add_track h2 hs

theorem sound_split_track {s s1 : TrackContainer} {track_id frame_idx : Nat} {r : Bool}
    (h : split_track s track_id frame_idx = .ok (s1, r)) (hs : Sound s) : Sound s1 := by
  unfold split_track at h
  split at h
  · simp only [Except.ok.injEq, Prod.mk.injEq] at h
    obtain ⟨rfl, -⟩ := h; exact hs
  · simp only at h
    split at h
    · simp only [Except.ok.injEq, Prod.mk.injEq] at h
      obtain ⟨rfl, -⟩ := h; exact hs
    · split at h
      · cases h
      · rename_i s2 h2
        split at h
        · cases h
        · rename_i s3 h3
          simp only [Except.ok.injEq, Prod.mk.injEq] at h
          obtain ⟨rfl, -⟩ := h
          exact sound_add_track h3 (sound_delete_detections h2 hs)

theorem sound_unite_tracks {s s1 : TrackContainer} {id_A id_B : Nat} {r : Bool}
    (h : unite_tracks s id_A id_B = .ok (s1, r)) (hs : Sound s) : Sound s1 := by
  unfold unite_tracks at h
  split at h
  · simp only [Except.ok.injEq, Prod.mk.injEq] at h
    obtain ⟨rfl, -⟩ := h; exact hs
  · split at h
    · simp only [Except.ok.injEq, Prod.mk.injEq] at h
      obtain ⟨rfl, -⟩ := h; exact hs
    · simp only at h
      split at h
      · cases h
      · rename_i s2 r2 h2
        split at h
        · cases h
        · rename_i s3 r3 h3
          split at h
          · cases h
          · rename_i s4 h4
            simp only [Except.ok.injEq, Prod.mk.injEq] at h
            obtain ⟨rfl, -⟩ := h
            exact sound_add_track h4 (sound_delete_track h3 (sound_delete_track h2 hs))

theorem reachable_sound {s : TrackContainer} (h : Reachable s) : Sound s := by
  induction h with
  | construct n => exact sound_construct n
  | create_new_track det _ h ih => exact sound_create_new_track h ih
  | add_track track _ h ih => exact sound_add_track h ih
  | add_det2track track_id det _ h ih => exact sound_add_det2track h ih
  | delete_detection track_id frame_idx _ h ih => exact sound_delete_detection h ih
  | delete_track id _ h ih => exact sound_delete_track h ih
  | split_track track_id frame_idx _ h ih => exact sound_split_track h ih
  | unite_tracks id_A id_B _ h ih => exact sound_unite_tracks h ih

theorem reachable_overflow_store : Reachable overflow_store :=
  Reachable.add_track ⟨18446744073709551615, []⟩
    (Reachable.add_track ⟨0, []⟩ (Reachable.construct 1) rfl) rfl

theorem reachable_two_track_store : Reachable two_track_store :=
  Reachable.add_track ⟨7, []⟩
    (Reachable.add_track ⟨3, []⟩ (Reachable.construct 1) rfl) rfl

theorem get_new_id_fresh (s : TrackContainer) (h : ∀ t ∈ s.tracks_, t.id + 1 < SIZE_MOD) :
    get_new_id s = max_id_loop 0 s.tracks_ + 1 ∧ has_track s (get_new_id s) = false := by
  have hlt : max_id_loop 0 s.tracks_ + 1 < SIZE_MOD := by
    rcases max_id_loop_attained 0 s.tracks_ with e | ⟨t, ht, e⟩
    · rw [e]; unfold SIZE_MOD; omega
    · rw [← e]; exact h t ht
  have e : get_new_id s = max_id_loop 0 s.tracks_ + 1 := by
    unfold get_new_id; exact Nat.mod_eq_of_lt hlt
  refine ⟨e, ?_⟩
  rw [has_track_false_iff]
  intro t ht heq
  have := id_le_max_id_loop 0 s.tracks_ t ht
  omega

/-- C9 (counterexample): with tracks 0 and 2^64 - 1 in the store, `max_id + 1` wraps and
`get_new_id` returns 0, which is not one more than the maximum id and is the id of a track
of the store. -/
theorem get_new_id_wraps :
    Reachable overflow_store ∧ get_new_id overflow_store = 0 ∧
    get_new_id overflow_store ≠ 1 + 18446744073709551615 ∧
    has_track overflow_store (get_new_id overflow_store) = true := by
  refine ⟨reachable_overflow_store, by decide, by decide, by decide⟩

/-- C9 (amended): `get_new_id` returns 1 when the store has no tracks and otherwise one more
than the maximum id `m` over the tracks of the store, provided `m + 1` is representable
(`m < 2^64 - 1`); then no track of the store carries the returned id. -/
theorem get_new_id_spec (s : TrackContainer) (m : Nat)
    (hmax : ∀ t ∈ s.tracks_, t.id ≤ m)
    (hm : (s.tracks_ = [] ∧ m = 0) ∨ ∃ t ∈ s.tracks_, t.id = m)
    (hrep : m + 1 < SIZE_MOD) :
    get_new_id s = m + 1 ∧ has_track s (get_new_id s) = false := by
  have hfresh := get_new_id_fresh s (fun t ht => by have := hmax t ht; omega)
  have e : max_id_loop 0 s.tracks_ = m := by
    rcases hm with ⟨h0, rfl⟩ | hm
    · rw [h0]; rfl
    · exact max_id_loop_eq _ _ hm hmax
  rw [e] at hfresh
  exact hfresh

/-- C9 (witness): with tracks 3 and 7 `get_new_id` returns 8, an id not in use; on a newly
constructed store it returns 1. -/
theorem get_new_id_spec_witness :
    (get_new_id two_track_store = 7 + 1 ∧
      has_track two_track_store (get_new_id two_track_store) = false) ∧
    get_new_id (TrackContainer.construct 5) = 0 + 1 :=
  ⟨get_new_id_spec two_track_store 7 (by decide) (by decide) (by decide),
   (get_new_id_spec (TrackContainer.construct 5) 0 (by decide) (by decide) (by decide)).1⟩

theorem index_nodes_error {s : TrackContainer} {ns : List Node} {e : Fault}
    (h : index_nodes s ns = .error e) : e ≠ .duplicate_id := by
  induction ns generalizing s with
  | nil => simp [index_nodes] at h
  | cons n ns ih =>
    simp only [index_nodes] at h
    split at h
    · split at h
      · exact ih h
      · cases h; decide
    · cases h; decide

theorem add_track_duplicate {s : TrackContainer} {track : Track}
    (h : add_track s track = .error .duplicate_id) : has_track s track.id = true := by
  unfold add_track at h
  split at h
  · assumption
  · exact absurd rfl (index_nodes_error h)

theorem deref_error {ts : List StoredTrack} {p : Nat} {e : Fault}
    (h : deref ts p = .error e) : e = .dangling := by
  unfold deref at h
  split at h
  · cases h
  · cases h; rfl

theorem erase_first_id_error {ts : List StoredTrack} {id : Nat} {b : List Nat} {e : Fault}
    (h : erase_first_id ts id b = .error e) : e = .dangling := by
  induction b with
  | nil => simp [erase_first_id] at h
  | cons p ps ih =>
    simp only [erase_first_id] at h
    split at h
    · rename_i e1 h1
      cases h; exact deref_error h1
    · split at h
      · cases h
      · split at h
        · rename_i e1 h1
          cases h; exact ih h1
        · cases h

theorem delete_detection_error {s : TrackContainer} {track_id frame_idx : Nat} {e : Fault}
    (h : delete_detection s track_id frame_idx = .error e) : e ≠ .duplicate_id := by
  unfold delete_detection at h
  split at h
  · split at h
    · cases h
    · split at h
      · split at h
        · rename_i e1 h1
          cases h; rw [erase_first_id_error h1]; decide
        · cases h
      · cases h; decide
  · cases h

theorem delete_detections_error {s : TrackContainer} {track_id : Nat} {frames : List Nat}
    {e : Fault} (h : delete_detections s track_id frames = .error e) : e ≠ .duplicate_id := by
  induction frames generalizing s with
  | nil => simp [delete_detections] at h
  | cons f fs ih =>
    simp only [delete_detections] at h
    split at h
    · rename_i e1 h1
      cases h; exact delete_detection_error h1
    · exact ih h

theorem unindex_nodes_error {ts : List StoredTrack} {id : Nat} {tl : List (List Nat)}
    {ns : List Node} {e : Fault} (h : unindex_nodes ts id tl ns = .error e) :
    e ≠ .duplicate_id := by
  induction ns generalizing tl with
  | nil => simp [unindex_nodes] at h
  | cons n ns ih =>
    simp only [unindex_nodes] at h
    split at h
    · split at h
      · rename_i e1 h1
        cases h; rw [erase_first_id_error h1]; decide
      · exact ih h
    · cases h; decide

theorem delete_track_error {s : TrackContainer} {id : Nat} {e : Fault}
    (h : delete_track s id = .error e) : e ≠ .duplicate_id := by
  unfold delete_track at h
  split at h
  · cases h
  · split at h
    · rename_i e1 h1
      cases h; exact unindex_nodes_error h1
    · cases h

theorem delete_detection_ids {s s1 : TrackContainer} {track_id frame_idx : Nat} {r : Bool}
    (h : delete_detection s track_id frame_idx = .ok (s1, r)) :
    s1.tracks_.map StoredTrack.id = s.tracks_.map StoredTrack.id := by
  rcases delete_detection_ok h with ⟨-, rfl, -⟩ | ⟨-, -, -, -, b, -, rfl⟩
  · rfl
  · exact map_id_del _ _ _

theorem delete_detections_ids {s s1 : TrackContainer} {track_id : Nat} {frames : List Nat}
    (h : delete_detections s track_id frames = .ok s1) :
    s1.tracks_.map StoredTrack.id = s.tracks_.map StoredTrack.id := by
  induction frames generalizing s with
  | nil =>
    simp only [delete_detections, Except.ok.injEq] at h
    subst h; rfl
  | cons f fs ih =>
    simp only [delete_detections] at h
    split at h
    · cases h
    · rename_i s2 r h2
      rw [ih h, delete_detection_ids h2]

theorem eraseP_id_eq_filter (ts : List StoredTrack) (x : Nat)
    (hu : (ts.map StoredTrack.id).Nodup) :
    ts.eraseP (fun t => t.id == x) = ts.filter (fun t => decide (t.id ≠ x)) := by
  induction ts with
  | nil => rfl
  | cons t ts ih =>
    simp only [List.map_cons, List.nodup_cons] at hu
    by_cases h : t.id = x
    · have hno : ∀ u ∈ ts, decide (u.id ≠ x) = true := by
        intro u hu2
        simp only [decide_eq_true_eq]
        intro e
        exact hu.1 (List.mem_map.2 ⟨u, hu2, by rw [e, h]⟩)
      rw [List.eraseP_cons_of_pos (by simpa using h)]
      rw [List.filter_cons_of_neg (by simpa using h)]
      exact (List.filter_eq_self.2 hno).symm
    · rw [List.eraseP_cons_of_neg (by simpa using h)]
      rw [List.filter_cons_of_pos (by simpa using h)]
      rw [ih hu.2]

theorem reachable_overflow_split_store : Reachable overflow_split_store :=
  Reachable.add_track ⟨18446744073709551615, []⟩
    (Reachable.add_track ⟨0, [det_at 0 0]⟩ (Reachable.construct 1) rfl) rfl

/-- C3 (counterexample): in a store holding tracks 0 and 2^64 - 1, both reached through
`add_track`, the `add_track` call inside `create_new_track` and the one inside
`split_track` fail the duplicate-identifier assertion, because `get_new_id` wraps to 0. -/
theorem new_id_hits_duplicate_assertion :
    Reachable overflow_store ∧
    create_new_track overflow_store (det_at 0 0) = .error .duplicate_id ∧
    Reachable overflow_split_store ∧
    split_track overflow_split_store 0 0 = .error .duplicate_id := by
  refine ⟨reachable_overflow_store, by rfl, reachable_overflow_split_store, by rfl⟩

/-- C3 (amended): in every state reached from `TrackContainer(video_length)` by the seven
editing operations no two tracks share an id; `add_track` rejects an id that is present;
the `add_track` call inside `unite_tracks` never fails the duplicate-identifier assertion,
and the ones inside `create_new_track` and `split_track` never fail it as long as every id
in the store is below `2^64 - 1`. -/
theorem track_ids_unique (s : TrackContainer) (h : Reachable s) :
    UniqueIds s ∧
    (∀ track, has_track s track.id = true → add_track s track = .error .duplicate_id) ∧
    (∀ id_A id_B, unite_tracks s id_A id_B ≠ .error .duplicate_id) ∧
    ((∀ t ∈ s.tracks_, t.id + 1 < SIZE_MOD) →
      (∀ det, create_new_track s det ≠ .error .duplicate_id) ∧
      (∀ track_id frame_idx, split_track s track_id frame_idx ≠ .error .duplicate_id)) := by
  have hs := reachable_sound h
  refine ⟨hs.1, ?_, ?_, ?_⟩
  · intro track ht
    unfold add_track
    rw [if_pos ht]
  · intro id_A id_B hu
    unfold unite_tracks at hu
    split at hu
    · cases hu
    · split at hu
      · cases hu
      · rename_i track_A hA track_B hB
        simp only at hu
        split at hu
        · rename_i e he
          cases hu; exact delete_track_error he rfl
        · rename_i s2 r2 h2
          split at hu
          · rename_i e he
            cases hu; exact delete_track_error he rfl
          · rename_i s3 r3 h3
            split at hu
            · rename_i e he
              cases hu
              have hdup := add_track_duplicate he
              simp only at hdup
              obtain ⟨-, -, -, htr2, -, -⟩ := delete_track_ok h2
              obtain ⟨-, -, -, htr3, -, -⟩ := delete_track_ok h3
              obtain ⟨t, ht, e⟩ := (has_track_iff _ _).1 hdup
              rw [htr3] at ht
              have ht2 := (List.eraseP_sublist _).subset ht
              rw [htr2, eraseP_id_eq_filter _ _ hs.1] at ht2
              have := (List.mem_filter.1 ht2).2
              simp only [decide_eq_true_eq] at this
              exact this e
            · cases hu
  · intro hsmall
    have hfresh := (get_new_id_fresh s hsmall).2
    refine ⟨?_, ?_⟩
    · intro det hu
      unfold create_new_track at hu
      simp only at hu
      split at hu
      · rename_i e he
        cases hu
        have := add_track_duplicate he
        simp only at this
        rw [hfresh] at this; cases this
      · cases hu
    · intro track_id frame_idx hu
      unfold split_track at hu
      split at hu
      · cases hu
      · simp only at hu
        split at hu
        · cases hu
        · split at hu
          · rename_i e he
            cases hu; exact delete_detections_error he rfl
          · rename_i s2 h2
            split at hu
            · rename_i e he
              cases hu
              have := add_track_duplicate he
              simp only at this
              rw [has_track_congr (delete_detections_ids h2), hfresh] at this
              cases this
            · cases hu

/-- C3 (witness): the store with tracks 3 and 7 is reachable, its ids are distinct and below
`2^64 - 1`, and none of the three operations fails the duplicate-identifier assertion. -/
theorem track_ids_unique_witness :
    Reachable two_track_store ∧ UniqueIds two_track_store ∧
    (∀ t ∈ two_track_store.tracks_, t.id + 1 < SIZE_MOD) ∧
    create_new_track two_track_store (det_at 0 0) ≠ .error .duplicate_id ∧
    split_track two_track_store 3 0 ≠ .error .duplicate_id ∧
    unite_tracks two_track_store 3 7 ≠ .error .duplicate_id :=
  have key := track_ids_unique two_track_store reachable_two_track_store
  ⟨reachable_two_track_store, key.1, by decide,
    (key.2.2.2 (by decide)).1 (det_at 0 0), (key.2.2.2 (by decide)).2 3 0, key.2.2.1 3 7⟩

theorem reachable_scenario_store : Reachable scenario_store :=
  Reachable.add_det2track (r := true) 1 (det_at 4 1)
    (Reachable.create_new_track (i := 1) (det_at 2 0) (Reachable.construct 5) rfl) rfl

theorem del_frames_cons_keep (F : Nat) (n : Node) (hn : n.det.frame < F) (fs : List Nat)
    (hfs : ∀ f ∈ fs, F ≤ f) (ns : List Node) :
    del_frames (n :: ns) fs = n :: del_frames ns fs := by
  induction fs generalizing ns with
  | nil => rfl
  | cons f fs ih =>
    have hf := hfs f (List.mem_cons_self _ _)
    have hne : ¬ ((n.det.frame == f) = true) := by
      simp only [beq_iff_eq]; omega
    simp only [del_frames]
    rw [List.eraseP_cons_of_neg (p := fun m : Node => m.det.frame == f) hne]
    exact ih (fun g hg => hfs g (List.mem_cons_of_mem _ hg)) _

theorem del_frames_moved (F : Nat) (ns : List Node) :
    del_frames ns ((ns.filter (fun n => decide (n.det.frame ≥ F))).map (fun n => n.det.frame))
      = ns.filter (fun n => decide (n.det.frame < F)) := by
  induction ns with
  | nil => rfl
  | cons n ns ih =>
    by_cases h : F ≤ n.det.frame
    · rw [List.filter_cons_of_pos (by simpa using h)]
      rw [List.filter_cons_of_neg (by simpa using h)]
      simp only [List.map_cons, del_frames]
      rw [List.eraseP_cons_of_pos (p := fun m : Node => m.det.frame == n.det.frame) (by simp)]
      exact ih
    · rw [List.filter_cons_of_neg (by simpa using h)]
      rw [List.filter_cons_of_pos (by simp only [decide_eq_true_eq]; omega)]
      rw [del_frames_cons_keep F n (by omega), ih]
      intro f hf
      obtain ⟨m, hm, rfl⟩ := List.mem_map.1 hf
      simpa using (List.mem_filter.1 hm).2

theorem delete_detections_ok {s s1 : TrackContainer} {track_id : Nat} {frames : List Nat}
    (h : delete_detections s track_id frames = .ok s1)
    (ht : has_track s track_id = true) (hf : ∀ f ∈ frames, f < s.video_len_) :
    s1.tracks_ = s.tracks_.map
        (fun t => if t.id = track_id then ⟨t.id, del_frames t.nodes frames⟩ else t) ∧
    s1.video_len_ = s.video_len_ ∧ s1.heap_top = s.heap_top ∧
    s1.timeline_.length = s.timeline_.length := by
  induction frames generalizing s with
  | nil =>
    simp only [delete_detections, Except.ok.injEq] at h
    subst h
    refine ⟨?_, rfl, rfl, rfl⟩
    simp [del_frames]
  | cons f fs ih =>
    simp only [delete_detections] at h
    split at h
    · cases h
    · rename_i s2 r h2
      have hfv := hf f (List.mem_cons_self _ _)
      rcases delete_detection_ok h2 with ⟨-, -, hc⟩ | ⟨-, -, -, -, b, -, e2⟩
      · rcases hc with hc | hc
        · rw [ht] at hc; cases hc
        · omega
      · have ht2 : has_track s2 track_id = true := by
          rw [has_track_congr (delete_detection_ids h2)]; exact ht
        have hv2 : s2.video_len_ = s.video_len_ := by rw [e2]
        obtain ⟨h3, h4, h5, h6⟩ := ih h ht2
          (fun g hg => by rw [hv2]; exact hf g (List.mem_cons_of_mem _ hg))
        refine ⟨?_, by rw [h4, hv2], by rw [h5, e2], by rw [h6, e2]; simp⟩
        rw [h3, e2]
        simp only [List.map_map]
        apply List.map_congr_left
        intro t _
        simp only [Function.comp]
        by_cases hid : t.id = track_id
        · simp [hid, StoredTrack.del, del_frames]
        · simp [hid]

theorem eq_of_mem_of_id_eq {ts : List StoredTrack} (hu : (ts.map StoredTrack.id).Nodup)
    {t u : StoredTrack} (ht : t ∈ ts) (hu2 : u ∈ ts) (e : t.id = u.id) : t = u :=
  List.inj_on_of_nodup_map hu ht hu2 e

theorem find_track_some {ts : List StoredTrack} {id : Nat} {t : StoredTrack}
    (h : ts.find? (fun t => t.id == id) = some t) : t ∈ ts ∧ t.id = id :=
  ⟨List.mem_of_find?_eq_some h, by simpa using List.find?_some h⟩

theorem find_track_of_mem {ts : List StoredTrack} (hu : (ts.map StoredTrack.id).Nodup)
    {t : StoredTrack} (ht : t ∈ ts) : ts.find? (fun u => u.id == t.id) = some t := by
  cases hf : ts.find? (fun u => u.id == t.id) with
  | none =>
    have := List.find?_eq_none.1 hf t ht
    simp at this
  | some u =>
    obtain ⟨h1, h2⟩ := find_track_some hf
    rw [eq_of_mem_of_id_eq hu h1 ht h2]

theorem get_track_some {s : TrackContainer} {id : Nat} {trk : Track}
    (h : get_track s id = some trk) :
    ∃ t, s.tracks_.find? (fun t => t.id == id) = some t ∧ trk = t.toTrack := by
  unfold get_track at h
  cases hf : s.tracks_.find? (fun t => t.id == id) with
  | none => rw [hf] at h; cases h
  | some t =>
    rw [hf] at h
    simp only [Option.map_some', Option.some.injEq] at h
    exact ⟨t, rfl, h.symm⟩

theorem find_map_keep_id (g : StoredTrack → StoredTrack) (hg : ∀ u, (g u).id = u.id)
    (ts : List StoredTrack) (id : Nat) :
    (ts.map g).find? (fun t => t.id == id) = (ts.find? (fun t => t.id == id)).map g := by
  induction ts with
  | nil => rfl
  | cons t ts ih =>
    simp only [List.map_cons, List.find?_cons, hg]
    split
    · rfl
    · exact ih

theorem find_append_of_none {ts : List StoredTrack} {id : Nat} (us : List StoredTrack)
    (h : ts.find? (fun t => t.id == id) = none) :
    (ts ++ us).find? (fun t => t.id == id) = us.find? (fun t => t.id == id) := by
  rw [List.find?_append, h]; rfl

theorem find_append_of_some {ts : List StoredTrack} {id : Nat} {t : StoredTrack}
    (us : List StoredTrack) (h : ts.find? (fun t => t.id == id) = some t) :
    (ts ++ us).find? (fun t => t.id == id) = some t := by
  rw [List.find?_append, h]; rfl

theorem find_none_of_has_track_false {s : TrackContainer} {id : Nat}
    (h : has_track s id = false) : s.tracks_.find? (fun t => t.id == id) = none := by
  rw [List.find?_eq_none]
  intro t ht
  have := (has_track_false_iff s id).1 h t ht
  simpa using this

theorem split_track_ok {s s1 : TrackContainer} {track_id frame_idx : Nat} {r : Bool}
    {t : StoredTrack} (hs : Sound s)
    (ht : s.tracks_.find? (fun t => t.id == track_id) = some t)
    (hm : t.nodes.filter (fun n => decide (n.det.frame ≥ frame_idx)) ≠ [])
    (h : split_track s track_id frame_idx = .ok (s1, r)) :
    r = true ∧ ∃ s2,
      delete_detections s track_id
        ((t.nodes.filter (fun n => decide (n.det.frame ≥ frame_idx))).map
          (fun n => n.det.frame)) = .ok s2 ∧
      add_track s2 ⟨get_new_id s,
        (t.nodes.filter (fun n => decide (n.det.frame ≥ frame_idx))).map
          (fun n => restamp (get_new_id s) n.det)⟩ = .ok s1 ∧
      s2.tracks_ = s.tracks_.map (fun u =>
        if u.id = track_id then ⟨u.id, u.nodes.filter (fun n => decide (n.det.frame < frame_idx))⟩
        else u) ∧
      s2.video_len_ = s.video_len_ ∧ s2.heap_top = s.heap_top ∧
      s2.timeline_.length = s.timeline_.length := by
  obtain ⟨hmem, hid⟩ := find_track_some ht
  unfold split_track at h
  rw [ht] at h
  simp only at h
  rw [if_neg (by simpa using hm)] at h
  split at h
  · cases h
  · rename_i s2 h2
    split at h
    · cases h
    · rename_i s3 h3
      simp only [Except.ok.injEq, Prod.mk.injEq] at h
      obtain ⟨rfl, rfl⟩ := h
      refine ⟨rfl, s2, h2, h3, ?_⟩
      have hfr : ∀ f ∈ (t.nodes.filter (fun n => decide (n.det.frame ≥ frame_idx))).map
          (fun n => n.det.frame), f < s.video_len_ := by
        intro f hf
        obtain ⟨n, hn, rfl⟩ := List.mem_map.1 hf
        exact hs.2.1.2 n (mem_owned.2 ⟨t, hmem, (List.mem_filter.1 hn).1⟩)
      obtain ⟨h4, h5, h6, h7⟩ := delete_detections_ok h2
        ((has_track_iff _ _).2 ⟨t, hmem, hid⟩) hfr
      refine ⟨?_, h5, h6, h7⟩
      rw [h4]
      apply List.map_congr_left
      intro u hu
      by_cases hu2 : u.id = track_id
      · have : u = t := eq_of_mem_of_id_eq hs.1 hu hmem (by rw [hu2, hid])
        subst this
        simp only [hu2, if_true]
        rw [del_frames_moved]
      · simp [hu2]

theorem map_payload_restamp (new_id : Nat) (ds : List Detection) :
    (ds.map (restamp new_id)).map payload = ds.map payload := by
  rw [List.map_map]
  apply List.map_congr_left
  intro d _
  rfl

theorem filter_det_map (p : Detection → Bool) (ns : List Node) :
    (ns.filter (fun n => p n.det)).map Node.det = (ns.map Node.det).filter p := by
  induction ns with
  | nil => rfl
  | cons n ns ih =>
    simp only [List.filter_cons, List.map_cons]
    split <;> simp [ih]

/-- C4: for a store, an existing track `T` (whose copy is `trk`) and a split point `F` such
that `T` has a detection with frame >= `F`, a `split_track(T, F)` that returns returns true;
afterwards track `T` holds exactly its former detections with frame < `F`, unchanged and in
their order, the track with id `get_new_id()` (computed before the call) holds exactly the
former detections with frame >= `F` with only the id re-stamped, every other track is
still in the store, and the (frame, bbox, confidence) triples of the two tracks together
are a permutation of those of `T` before the call. -/
theorem split_track_partitions (s s1 : TrackContainer) (track_id frame_idx : Nat) (r : Bool)
    (trk : Track) (hs : Reachable s) (ht : get_track s track_id = some trk)
    (hmove : ∃ d ∈ trk.dets, frame_idx ≤ d.frame)
    (h : split_track s track_id frame_idx = .ok (s1, r)) :
    r = true ∧
    get_track s1 track_id
      = some ⟨track_id, trk.dets.filter (fun d => decide (d.frame < frame_idx))⟩ ∧
    get_track s1 (get_new_id s)
      = some ⟨get_new_id s,
          (trk.dets.filter (fun d => decide (frame_idx ≤ d.frame))).map
            (restamp (get_new_id s))⟩ ∧
    (∀ u ∈ s.tracks_, u.id ≠ track_id → u ∈ s1.tracks_) ∧
    get_num_tracks s1 = get_num_tracks s + 1 ∧
    ((trk.dets.filter (fun d => decide (d.frame < frame_idx))).map payload ++
      ((trk.dets.filter (fun d => decide (frame_idx ≤ d.frame))).map
        (restamp (get_new_id s))).map payload).Perm (trk.dets.map payload) := by
  have hsound := reachable_sound hs
  obtain ⟨t, hfind, rfl⟩ := get_track_some ht
  obtain ⟨hmem, hid⟩ := find_track_some hfind
  have hm : t.nodes.filter (fun n => decide (n.det.frame ≥ frame_idx)) ≠ [] := by
    obtain ⟨d, hd, hle⟩ := hmove
    obtain ⟨n, hn, rfl⟩ := List.mem_map.1 hd
    intro he
    have : n ∈ t.nodes.filter (fun n => decide (n.det.frame ≥ frame_idx)) :=
      List.mem_filter.2 ⟨hn, by simpa using hle⟩
    rw [he] at this; cases this
  obtain ⟨hr, s2, -, hadd, htr2, -, htop, -⟩ := split_track_ok hsound hfind hm h
  obtain ⟨hfresh, -, rfl⟩ := add_track_ok hadd
  simp only at hfresh
  have hkeep : ∀ u : StoredTrack,
      (if u.id = track_id then
        (⟨u.id, u.nodes.filter (fun n => decide (n.det.frame < frame_idx))⟩ : StoredTrack)
       else u).id = u.id := by
    intro u; split <;> rfl
  refine ⟨hr, ?_, ?_, ?_, ?_, ?_⟩
  · unfold get_track
    simp only
    rw [htr2, find_append_of_some _
      (by rw [find_map_keep_id _ hkeep, hfind]; rfl)]
    simp only [Option.map_some', StoredTrack.toTrack, hid, if_true, Option.some.injEq,
      Track.mk.injEq, true_and]
    exact filter_det_map (fun d => decide (d.frame < frame_idx)) t.nodes
  · unfold get_track
    simp only
    rw [find_append_of_none _ (find_none_of_has_track_false hfresh)]
    simp only [List.find?_cons, beq_self_eq_true, Option.map_some', StoredTrack.toTrack,
      map_det_copy_nodes, Option.some.injEq, Track.mk.injEq, true_and]
    rw [← filter_det_map (fun d => decide (frame_idx ≤ d.frame)) t.nodes]
    simp [List.map_map, Function.comp_def]
  · intro u hu hne
    simp only [htr2, List.mem_append, List.mem_map]
    exact Or.inl ⟨u, hu, by simp [hne]⟩
  · simp [get_num_tracks, htr2]
  · rw [map_payload_restamp, ← List.map_append]
    apply List.Perm.map
    have hp := List.filter_append_perm (fun d : Detection => decide (d.frame < frame_idx))
      (t.toTrack.dets)
    refine List.Perm.trans (List.Perm.of_eq ?_) hp
    congr 1
    apply List.filter_congr
    intro d _
    by_cases hlt : d.frame < frame_idx
    · have hn : ¬ frame_idx ≤ d.frame := by omega
      simp [hlt, hn]
    · have hn : frame_idx ≤ d.frame := by omega
      simp [hlt, hn]

/-- C4 (witness): the scenario store, track 1 with detections at frames 2 and 4, split
at 4. -/
theorem split_track_partitions_witness :
    Reachable scenario_store ∧ get_track scenario_store 1
      = some ⟨1, [det_at 2 1, det_at 4 1]⟩ ∧
    split_track scenario_store 1 4 = .ok (scenario_split, true) ∧
    get_track scenario_split 1 = some ⟨1, [det_at 2 1]⟩ ∧
    get_track scenario_split 2 = some ⟨2, [det_at 4 2]⟩ :=
  have key := split_track_partitions scenario_store scenario_split 1 4 true
    ⟨1, [det_at 2 1, det_at 4 1]⟩ reachable_scenario_store rfl ⟨det_at 4 1, by decide, by decide⟩
    rfl
  ⟨reachable_scenario_store, rfl, rfl, key.2.1, key.2.2.1⟩

theorem unite_tracks_ok {s s1 : TrackContainer} {id_A id_B : Nat} {r : Bool}
    {tA tB : StoredTrack} (hs : Sound s)
    (hA : s.tracks_.find? (fun t => t.id == id_A) = some tA)
    (hB : s.tracks_.find? (fun t => t.id == id_B) = some tB)
    (h : unite_tracks s id_A id_B = .ok (s1, r)) :
    r = true ∧ ∃ s2 r2 s3 r3,
      delete_track s (min id_A id_B) = .ok (s2, r2) ∧
      delete_track s2 (max id_A id_B) = .ok (s3, r3) ∧
      add_track s3 ⟨min id_A id_B,
        (tA.nodes.map Node.det).map (restamp (min id_A id_B)) ++
        (tB.nodes.map Node.det).map (restamp (min id_A id_B))⟩ = .ok s1 ∧
      s3.tracks_ = s.tracks_.filter (fun u => decide (u.id ≠ id_A ∧ u.id ≠ id_B)) := by
  obtain ⟨-, hidA⟩ := find_track_some hA
  obtain ⟨-, hidB⟩ := find_track_some hB
  unfold unite_tracks get_track at h
  rw [hA, hB] at h
  simp only [Option.map_some', StoredTrack.toTrack, hidA, hidB] at h
  split at h
  · cases h
  · rename_i s2 r2 h2
    split at h
    · cases h
    · rename_i s3 r3 h3
      split at h
      · cases h
      · rename_i s4 h4
        simp only [Except.ok.injEq, Prod.mk.injEq] at h
        obtain ⟨rfl, rfl⟩ := h
        refine ⟨rfl, s2, r2, s3, r3, h2, h3, h4, ?_⟩
        obtain ⟨-, -, -, htr2, -, -⟩ := delete_track_ok h2
        obtain ⟨-, -, -, htr3, -, -⟩ := delete_track_ok h3
        have hs2 := sound_delete_track h2 hs
        rw [htr3, eraseP_id_eq_filter _ _ hs2.1, htr2, eraseP_id_eq_filter _ _ hs.1,
          List.filter_filter]
        apply List.filter_congr
        intro u _
        rcases le_total id_A id_B with hle | hle
        · rw [min_eq_left hle, max_eq_right hle]
          by_cases h1 : u.id = id_A <;> by_cases h2 : u.id = id_B <;> simp [h1, h2]
        · rw [min_eq_right hle, max_eq_left hle]
          by_cases h1 : u.id = id_A <;> by_cases h2 : u.id = id_B <;> simp [h1, h2]

theorem length_filter_two (ts : List StoredTrack) (hu : (ts.map StoredTrack.id).Nodup)
    {tA tB : StoredTrack} (hA : tA ∈ ts) (hB : tB ∈ ts) (hne : tA.id ≠ tB.id) :
    (ts.filter (fun u => decide (u.id ≠ tA.id ∧ u.id ≠ tB.id))).length + 2 = ts.length := by
  induction ts with
  | nil => cases hA
  | cons t ts ih =>
    simp only [List.map_cons, List.nodup_cons] at hu
    have hnot : ∀ u ∈ ts, u.id ≠ t.id := by
      intro u hu2 e
      exact hu.1 (List.mem_map.2 ⟨u, hu2, e⟩)
    have hone : ∀ v : StoredTrack, v ∈ ts → v.id ≠ t.id →
        (ts.filter (fun u => decide (u.id ≠ v.id ∧ u.id ≠ t.id))).length + 1 = ts.length ∧
        (ts.filter (fun u => decide (u.id ≠ t.id ∧ u.id ≠ v.id))).length + 1 = ts.length := by
      intro v hv hvt
      have e1 : ts.filter (fun u => decide (u.id ≠ v.id ∧ u.id ≠ t.id))
          = ts.eraseP (fun u => u.id == v.id) := by
        rw [eraseP_id_eq_filter _ _ hu.2]
        apply List.filter_congr
        intro u hu2
        have := hnot u hu2
        simp [this]
      have e2 : ts.filter (fun u => decide (u.id ≠ t.id ∧ u.id ≠ v.id))
          = ts.eraseP (fun u => u.id == v.id) := by
        rw [eraseP_id_eq_filter _ _ hu.2]
        apply List.filter_congr
        intro u hu2
        have := hnot u hu2
        simp [this]
      have hl := List.length_eraseP_of_mem (p := fun u : StoredTrack => u.id == v.id) hv
        (by simp)
      have hpos : 0 < ts.length := List.length_pos_of_mem hv
      rw [e1, e2, hl]
      omega
    rcases List.mem_cons.1 hA with rfl | hA2
    · rcases List.mem_cons.1 hB with rfl | hB2
      · exact absurd rfl hne
      · rw [List.filter_cons_of_neg (by simp)]
        have := (hone tB hB2 (fun e => hne e.symm)).2
        simp only [List.length_cons]; omega
    · rcases List.mem_cons.1 hB with rfl | hB2
      · rw [List.filter_cons_of_neg (by simp)]
        have := (hone tA hA2 hne).1
        simp only [List.length_cons]; omega
      · rw [List.filter_cons_of_pos (by
          simp only [decide_eq_true_eq]
          exact ⟨fun e => hnot tA hA2 e.symm, fun e => hnot tB hB2 e.symm⟩)]
        have := ih hu.2 hA2 hB2
        simp only [List.length_cons]; omega

/-- C6: for a store and two distinct existing track ids `A` and `B` (with copies `trkA`,
`trkB`), a `unite_tracks(A, B)` that returns returns true; afterwards the track with id
`min(A, B)` holds `A`'s former detections followed by `B`'s, every one stamped with
`min(A, B)`, so that its (frame, bbox, confidence) triples are those of `A` followed by
those of `B`; `has_track(max(A, B))` is false; the tracks other than `A` and `B` are
unchanged and `get_num_tracks` has decreased by exactly one. -/
theorem unite_tracks_merges (s s1 : TrackContainer) (id_A id_B : Nat) (r : Bool)
    (trkA trkB : Track) (hs : Reachable s) (hne : id_A ≠ id_B)
    (hA : get_track s id_A = some trkA) (hB : get_track s id_B = some trkB)
    (h : unite_tracks s id_A id_B = .ok (s1, r)) :
    r = true ∧
    get_track s1 (min id_A id_B)
      = some ⟨min id_A id_B, trkA.dets.map (restamp (min id_A id_B)) ++
          trkB.dets.map (restamp (min id_A id_B))⟩ ∧
    (∀ d ∈ trkA.dets.map (restamp (min id_A id_B)) ++
        trkB.dets.map (restamp (min id_A id_B)), d.id = min id_A id_B) ∧
    (trkA.dets.map (restamp (min id_A id_B)) ++
        trkB.dets.map (restamp (min id_A id_B))).map payload
      = trkA.dets.map payload ++ trkB.dets.map payload ∧
    has_track s1 (max id_A id_B) = false ∧
    s1.tracks_.filter (fun u => decide (u.id ≠ min id_A id_B))
      = s.tracks_.filter (fun u => decide (u.id ≠ id_A ∧ u.id ≠ id_B)) ∧
    get_num_tracks s1 + 1 = get_num_tracks s := by
  have hsound := reachable_sound hs
  obtain ⟨tA, hfA, rfl⟩ := get_track_some hA
  obtain ⟨tB, hfB, rfl⟩ := get_track_some hB
  obtain ⟨hmA, hidA⟩ := find_track_some hfA
  obtain ⟨hmB, hidB⟩ := find_track_some hfB
  obtain ⟨hr, s2, r2, s3, r3, -, -, hadd, htr3⟩ := unite_tracks_ok hsound hfA hfB h
  obtain ⟨hfresh, -, rfl⟩ := add_track_ok hadd
  simp only at hfresh
  have hminmem : min id_A id_B = id_A ∨ min id_A id_B = id_B := by
    rcases le_total id_A id_B with hle | hle
    · exact Or.inl (min_eq_left hle)
    · exact Or.inr (min_eq_right hle)
  have hmaxmem : max id_A id_B = id_A ∨ max id_A id_B = id_B := by
    rcases le_total id_A id_B with hle | hle
    · exact Or.inr (max_eq_right hle)
    · exact Or.inl (max_eq_left hle)
  have hminmax : min id_A id_B ≠ max id_A id_B := by
    rcases le_total id_A id_B with hle | hle
    · rw [min_eq_left hle, max_eq_right hle]; exact hne
    · rw [min_eq_right hle, max_eq_left hle]; exact fun e => hne e.symm
  have hkept : ∀ u ∈ s3.tracks_, u.id ≠ id_A ∧ u.id ≠ id_B := by
    intro u hu
    rw [htr3] at hu
    simpa using (List.mem_filter.1 hu).2
  refine ⟨hr, ?_, ?_, ?_, ?_, ?_, ?_⟩
  · unfold get_track
    simp only
    rw [find_append_of_none _ (find_none_of_has_track_false hfresh)]
    simp [StoredTrack.toTrack, map_det_copy_nodes]
  · intro d hd
    rcases List.mem_append.1 hd with hd | hd
    · obtain ⟨d0, -, rfl⟩ := List.mem_map.1 hd; rfl
    · obtain ⟨d0, -, rfl⟩ := List.mem_map.1 hd; rfl
  · rw [List.map_append, map_payload_restamp, map_payload_restamp]
  · rw [has_track_false_iff]
    intro u hu
    simp only [List.mem_append, List.mem_singleton] at hu
    rcases hu with hu | rfl
    · have := hkept u hu
      rcases hmaxmem with e | e <;> rw [e]
      · exact this.1
      · exact this.2
    · exact hminmax
  · simp only [List.filter_append]
    rw [List.filter_cons_of_neg (by simp), List.filter_nil, List.append_nil]
    rw [List.filter_eq_self.2]
    · exact htr3
    · intro u hu
      have := hkept u hu
      simp only [decide_eq_true_eq]
      rcases hminmem with e | e <;> rw [e]
      · exact this.1
      · exact this.2
  · simp only [get_num_tracks, List.length_append, List.length_singleton, htr3]
    have := length_filter_two s.tracks_ hsound.1 hmA hmB (by rw [hidA, hidB]; exact hne)
    rw [hidA, hidB] at this
    omega

theorem reachable_unite_store : Reachable unite_store :=
  Reachable.create_new_track (i := 2) (det_at 1 0)
    (Reachable.create_new_track (i := 1) (det_at 0 0) (Reachable.construct 2) rfl) rfl

/-- C6 (witness): tracks 1 (frame 0) and 2 (frame 1) united as `unite_tracks(2, 1)`. -/
theorem unite_tracks_merges_witness :
    Reachable unite_store ∧ 2 ≠ 1 ∧
    get_track unite_store 2 = some ⟨2, [det_at 1 2]⟩ ∧
    get_track unite_store 1 = some ⟨1, [det_at 0 1]⟩ ∧
    unite_tracks unite_store 2 1 = .ok (united_store, true) ∧
    get_track united_store (min 2 1) = some ⟨min 2 1, [det_at 1 1, det_at 0 1]⟩ ∧
    has_track united_store (max 2 1) = false ∧
    get_num_tracks united_store + 1 = get_num_tracks unite_store :=
  have key := unite_tracks_merges unite_store united_store 2 1 true ⟨2, [det_at 1 2]⟩
    ⟨1, [det_at 0 1]⟩ reachable_unite_store (by decide) rfl rfl rfl
  ⟨reachable_unite_store, by decide, rfl, rfl, rfl, key.2.1, key.2.2.2.2.1, key.2.2.2.2.2.2⟩

theorem deref_append_old (ts : List StoredTrack) (u : StoredTrack) (p : Nat)
    (h : ∀ n ∈ u.nodes, n.addr ≠ p) : deref (ts ++ [u]) p = deref ts p := by
  unfold deref
  rw [owned_append, List.find?_append]
  have hnone : (owned [u]).find? (fun n => n.addr == p) = none := by
    rw [List.find?_eq_none]
    intro n hn
    simp only [owned, List.append_nil] at hn
    simpa using h n hn
  rw [hnone]
  cases (owned ts).find? (fun n => n.addr == p) <;> rfl

theorem deref_append_new (ts : List StoredTrack) (u : StoredTrack) (p : Nat)
    (h : ∀ n ∈ owned ts, n.addr ≠ p) : deref (ts ++ [u]) p = deref [u] p := by
  unfold deref
  rw [owned_append, List.find?_append]
  have hnone : (owned ts).find? (fun n => n.addr == p) = none := by
    rw [List.find?_eq_none]
    intro n hn
    simpa using h n hn
  rw [hnone]
  rfl

theorem deref_all_congr (ts1 ts2 : List StoredTrack) (ps : List Nat)
    (h : ∀ p ∈ ps, deref ts1 p = deref ts2 p) : deref_all ts1 ps = deref_all ts2 ps := by
  induction ps with
  | nil => rfl
  | cons p ps ih =>
    simp only [deref_all]
    rw [h p (List.mem_cons_self _ _), ih (fun q hq => h q (List.mem_cons_of_mem _ hq))]

theorem deref_all_append {ts : List StoredTrack} {ps qs : List Nat} {l m : List Detection}
    (h1 : deref_all ts ps = .ok l) (h2 : deref_all ts qs = .ok m) :
    deref_all ts (ps ++ qs) = .ok (l ++ m) := by
  induction ps generalizing l with
  | nil =>
    simp only [deref_all, Except.ok.injEq] at h1
    subst h1; simpa using h2
  | cons p ps ih =>
    simp only [deref_all] at h1
    split at h1
    · cases h1
    · rename_i d hd
      split at h1
      · cases h1
      · rename_i ds hds
        simp only [Except.ok.injEq] at h1
        subst h1
        show deref_all ts (p :: (ps ++ qs)) = _
        simp only [deref_all, hd, ih hds]
        rfl

/-- C10 (counterexample): in the store holding tracks 0 and 2^64 - 1, a detection inside
the video does not get a track: `create_new_track` stops at the duplicate-identifier
assertion of `add_track` and returns nothing. -/
theorem create_new_track_aborts :
    Reachable overflow_store ∧ (det_at 0 5).frame < overflow_store.video_len_ ∧
    ∀ r, create_new_track overflow_store (det_at 0 5) ≠ .ok r := by
  refine ⟨reachable_overflow_store, by decide, ?_⟩
  intro r h
  have e : create_new_track overflow_store (det_at 0 5) = .error .duplicate_id := rfl
  rw [e] at h
  cases h

/-- C10 (amended): for a store, a detection `det` with `det.frame < video_length`, and
provided the id `get_new_id()` is not in use (which holds whenever every id is below
`2^64 - 1`), `create_new_track(det)` returns that id; afterwards `has_track` of it is true,
`get_track` of it holds exactly `det` with the id field set to it, `get_detections(det.frame)`
is its previous value with that detection appended, every other frame's `get_detections`
and every other track are unchanged, and `get_num_tracks` has grown by one. -/
theorem create_new_track_spec (s : TrackContainer) (det : Detection) (hs : Reachable s)
    (hf : det.frame < s.video_len_) (hfresh : has_track s (get_new_id s) = false) :
    (∃ s1, create_new_track s det = .ok (s1, get_new_id s)) ∧
    ∀ s1 id, create_new_track s det = .ok (s1, id) →
      id = get_new_id s ∧ has_track s1 id = true ∧
      get_track s1 id = some ⟨id, [restamp id det]⟩ ∧
      (∀ l, get_detections s det.frame = .ok l →
        get_detections s1 det.frame = .ok (l ++ [restamp id det])) ∧
      (∀ f, f ≠ det.frame → get_detections s1 f = get_detections s f) ∧
      (∀ i, i ≠ id → get_track s1 i = get_track s i) ∧
      (∀ u ∈ s.tracks_, u ∈ s1.tracks_) ∧
      get_num_tracks s1 = get_num_tracks s + 1 := by
  obtain ⟨hu, ⟨hl, hb⟩, ha1, ha2⟩ := reachable_sound hs
  have hadd := add_track_of s ⟨get_new_id s, [restamp (get_new_id s) det]⟩ hfresh
    (by intro d hd; simp only [List.mem_singleton] at hd; subst hd; exact hf) hl
  have hcreate : create_new_track s det = .ok
      ({ video_len_ := s.video_len_,
         tracks_ := s.tracks_ ++
           [⟨get_new_id s, copy_nodes s.heap_top [restamp (get_new_id s) det]⟩],
         timeline_ := push_all s.timeline_ (copy_nodes s.heap_top [restamp (get_new_id s) det]),
         heap_top := s.heap_top + [restamp (get_new_id s) det].length }, get_new_id s) := by
    unfold create_new_track
    simp only
    rw [hadd]
  refine ⟨⟨_, hcreate⟩, ?_⟩
  intro s1 id h
  rw [hcreate] at h
  simp only [Except.ok.injEq, Prod.mk.injEq] at h
  obtain ⟨rfl, rfl⟩ := h
  have hderef_old : ∀ f, ∀ p ∈ bucket s.timeline_ f,
      deref (s.tracks_ ++
        [⟨get_new_id s, copy_nodes s.heap_top [restamp (get_new_id s) det]⟩]) p
        = deref s.tracks_ p := by
    intro f p hp
    apply deref_append_old
    intro n hn
    simp only [copy_nodes, List.mem_singleton] at hn
    subst hn
    have := ha2 f p hp
    simp only; omega
  have hderef_new : deref (s.tracks_ ++
        [⟨get_new_id s, copy_nodes s.heap_top [restamp (get_new_id s) det]⟩]) s.heap_top
        = .ok (restamp (get_new_id s) det) := by
    rw [deref_append_new]
    · simp [deref, owned, copy_nodes]
    · intro n hn
      have := ha1 n hn
      omega
  refine ⟨rfl, ?_, ?_, ?_, ?_, ?_, ?_, ?_⟩
  · rw [has_track_iff]
    exact ⟨_, List.mem_append_right _ (List.mem_singleton_self _), rfl⟩
  · unfold get_track
    simp only
    rw [find_append_of_none _ (find_none_of_has_track_false hfresh)]
    simp [StoredTrack.toTrack, copy_nodes]
  · intro l hget
    unfold get_detections at hget ⊢
    simp only [length_push_all] at hget ⊢
    rw [if_neg (by omega)] at hget ⊢
    rw [if_pos (by omega)] at hget ⊢
    rw [bucket_push_all _ _ _ (by omega)]
    have hfilter : (copy_nodes s.heap_top [restamp (get_new_id s) det]).filter
        (fun n => decide (n.det.frame = det.frame)) = [⟨s.heap_top, restamp (get_new_id s) det⟩] := by
      simp [copy_nodes, restamp]
    rw [hfilter]
    apply deref_all_append
    · rw [deref_all_congr _ _ _ (hderef_old det.frame)]; exact hget
    · simp only [List.map_cons, List.map_nil, deref_all, hderef_new]
  · intro f hne
    unfold get_detections
    simp only [length_push_all]
    by_cases hfl : f < s.video_len_
    · have h1 : ¬ f ≥ s.video_len_ := by omega
      have h2 : f < s.timeline_.length := by omega
      simp only [if_neg h1, if_pos h2]
      rw [bucket_push_all _ _ _ (by omega)]
      have hfilter : (copy_nodes s.heap_top [restamp (get_new_id s) det]).filter
          (fun n => decide (n.det.frame = f)) = [] := by
        simp [copy_nodes, restamp, Ne.symm hne]
      rw [hfilter, List.map_nil, List.append_nil]
      exact deref_all_congr _ _ _ (hderef_old f)
    · have h1 : f ≥ s.video_len_ := by omega
      simp only [if_pos h1]
  · intro i hi
    unfold get_track
    simp only
    rw [List.find?_append]
    have : ([⟨get_new_id s, copy_nodes s.heap_top [restamp (get_new_id s) det]⟩] :
        List StoredTrack).find? (fun t => t.id == i) = none := by
      simp [List.find?_cons, Ne.symm hi]
    rw [this]
    cases s.tracks_.find? (fun t => t.id == i) <;> rfl
  · intro u hu
    exact List.mem_append_left _ hu
  · simp [get_num_tracks]

/-- C10 (witness): `create_new_track` with a detection at frame 2 on a newly constructed
store of video length 5. -/
theorem create_new_track_spec_witness :
    Reachable (TrackContainer.construct 5) ∧
    (det_at 2 0).frame < (TrackContainer.construct 5).video_len_ ∧
    has_track (TrackContainer.construct 5) (get_new_id (TrackContainer.construct 5)) = false ∧
    create_new_track (TrackContainer.construct 5) (det_at 2 0) = .ok (scenario_first, 1) ∧
    has_track scenario_first 1 = true ∧
    get_track scenario_first 1 = some ⟨1, [restamp 1 (det_at 2 0)]⟩ ∧
    get_num_tracks scenario_first = get_num_tracks (TrackContainer.construct 5) + 1 :=
  have key := (create_new_track_spec (TrackContainer.construct 5) (det_at 2 0)
    (Reachable.construct 5) (by decide) (by decide)).2 scenario_first 1 rfl
  ⟨Reachable.construct 5, by decide, by decide, rfl, key.2.1, key.2.2.1, key.2.2.2.2.2.2.2⟩

theorem reachable_foreign_store : Reachable foreign_store :=
  Reachable.add_det2track (r := true) 1 (det_at 0 7)
    (Reachable.add_track ⟨1, []⟩ (Reachable.construct 1) rfl) rfl

theorem reachable_shared_id_store : Reachable shared_id_store :=
  Reachable.add_det2track (r := true) 2 (det_at 0 1)
    (Reachable.create_new_track (i := 2) (det_at 0 0)
      (Reachable.create_new_track (i := 1) (det_at 0 0) (Reachable.construct 1) rfl) rfl) rfl

/-- C2 (evaluation at the failing input): after `add_track(Track(1))` on a store of video
length 1, `add_det2track(1, det)` with `det.id = 7` returns true and track 1 then holds a
detection whose id is 7; `add_track` of a track 1 that already holds that detection gives
the same store. -/
theorem add_det2track_keeps_foreign_id :
    add_track (TrackContainer.construct 1) ⟨1, []⟩ = .ok empty_track_store ∧
    add_det2track empty_track_store 1 (det_at 0 7) = .ok (foreign_store, true) ∧
    get_track foreign_store 1 = some ⟨1, [det_at 0 7]⟩ ∧
    (det_at 0 7).id ≠ 1 ∧
    ¬ Tagged foreign_store ∧
    add_track (TrackContainer.construct 1) ⟨1, [det_at 0 7]⟩ = .ok foreign_store := by
  refine ⟨rfl, rfl, rfl, by decide, ?_, rfl⟩
  intro h
  have := h ⟨1, [⟨0, det_at 0 7⟩]⟩ (List.mem_cons_self _ _) ⟨0, det_at 0 7⟩
    (List.mem_cons_self _ _)
  revert this
  decide

/-- C1 (evaluation at the failing input): in the reachable store whose track 1 holds a
detection with id 7 at frame 0, `delete_track(1)` returns true and removes the track but
not its reference: bucket 0 still holds the address of the destroyed detection, no track
owns anything, and `get_detections(0)` reads through the dangling pointer. -/
theorem delete_track_leaves_dangling_reference :
    Reachable foreign_store ∧
    delete_track foreign_store 1 = .ok (dangling_store, true) ∧
    bucket dangling_store.timeline_ 0 = [0] ∧
    owned dangling_store.tracks_ = [] ∧
    deref dangling_store.tracks_ 0 = .error .dangling ∧
    get_detections dangling_store 0 = .error .dangling ∧
    ¬ Consistent dangling_store := by
  refine ⟨reachable_foreign_store, rfl, rfl, rfl, rfl, rfl, ?_⟩
  intro h
  obtain ⟨n, hn, -⟩ := h.2.2 0 (by decide) 0 (by decide)
  cases hn

/-- C7 (evaluation at the failing input): in the reachable store where track 2 holds, at
frame 0, a detection whose id field is 1, `delete_track(1)` returns true and
`has_track(1)` becomes false, yet `get_detections(0)` still returns a detection with
id 1. -/
theorem delete_track_leaves_id_in_bucket :
    Reachable shared_id_store ∧
    delete_track shared_id_store 1 = .ok (shared_id_deleted, true) ∧
    has_track shared_id_deleted 1 = false ∧
    get_detections shared_id_deleted 0 = .ok [det_at 0 2, det_at 0 1] ∧
    (det_at 0 1).id = 1 :=
  ⟨reachable_shared_id_store, rfl, rfl, rfl, rfl⟩

theorem find_addr_of_mem {l : List Node} (hn : (l.map Node.addr).Nodup) {n : Node}
    (h : n ∈ l) : l.find? (fun m => m.addr == n.addr) = some n := by
  cases hf : l.find? (fun m => m.addr == n.addr) with
  | none =>
    have := List.find?_eq_none.1 hf n h
    simp at this
  | some m =>
    have h1 : m ∈ l := List.mem_of_find?_eq_some hf
    have h2 : m.addr = n.addr := by simpa using List.find?_some hf
    rw [List.inj_on_of_nodup_map hn h1 h h2]

theorem deref_of_mem {ts : List StoredTrack} (hn : ((owned ts).map Node.addr).Nodup)
    {n : Node} (h : n ∈ owned ts) : deref ts n.addr = .ok n.det := by
  unfold deref
  rw [find_addr_of_mem hn h]

theorem deref_ok_mem {ts : List StoredTrack} {p : Nat} {d : Detection}
    (h : deref ts p = .ok d) : ∃ n ∈ owned ts, n.addr = p ∧ n.det = d := by
  unfold deref at h
  split at h
  · rename_i n hf
    simp only [Except.ok.injEq] at h
    exact ⟨n, List.mem_of_find?_eq_some hf, by simpa using List.find?_some hf, h⟩
  · cases h

theorem deref_mono {ts ts0 : List StoredTrack} (hsub : (owned ts).Sublist (owned ts0))
    (hn : ((owned ts0).map Node.addr).Nodup) {p : Nat} {d : Detection}
    (h : deref ts p = .ok d) : deref ts0 p = .ok d := by
  obtain ⟨n, hmem, rfl, rfl⟩ := deref_ok_mem h
  exact deref_of_mem hn (hsub.subset hmem)

theorem erase_first_id_eq_eraseP {ts : List StoredTrack} (ts0 : List StoredTrack) {id : Nat}
    {b b1 : List Nat}
    (hmono : ∀ p d, deref ts p = .ok d → deref ts0 p = .ok d)
    (h : erase_first_id ts id b = .ok b1) : b1 = b.eraseP (carries ts0 id) := by
  induction b generalizing b1 with
  | nil =>
    simp only [erase_first_id, Except.ok.injEq] at h
    subst h; rfl
  | cons p ps ih =>
    simp only [erase_first_id] at h
    split at h
    · cases h
    · rename_i d hd
      have h0 := hmono p d hd
      split at h
      · rename_i hid
        simp only [Except.ok.injEq] at h
        subst h
        rw [List.eraseP_cons_of_pos]
        simp [carries, h0, hid]
      · rename_i hid
        split at h
        · cases h
        · rename_i ps1 he
          simp only [Except.ok.injEq] at h
          subst h
          rw [List.eraseP_cons_of_neg (by simp [carries, h0, hid]), ih he]

theorem delete_detections_timeline {s s1 : TrackContainer} {ts0 : List StoredTrack}
    {track_id : Nat} {frames : List Nat}
    (hn : ((owned ts0).map Node.addr).Nodup) (hsub : (owned s.tracks_).Sublist (owned ts0))
    (ht : has_track s track_id = true) (hf : ∀ f ∈ frames, f < s.video_len_)
    (h : delete_detections s track_id frames = .ok s1) :
    s1.timeline_ = erase_frames (carries ts0 track_id) s.timeline_ frames := by
  induction frames generalizing s with
  | nil =>
    simp only [delete_detections, Except.ok.injEq] at h
    subst h; rfl
  | cons f fs ih =>
    simp only [delete_detections] at h
    split at h
    · cases h
    · rename_i s2 r h2
      have hfv := hf f (List.mem_cons_self _ _)
      rcases delete_detection_ok h2 with ⟨-, -, hc⟩ | ⟨-, -, -, -, b, hb, e2⟩
      · rcases hc with hc | hc
        · rw [ht] at hc; cases hc
        · omega
      · have hb2 := erase_first_id_eq_eraseP ts0
          (fun p d hd => deref_mono hsub hn hd) hb
        have ht2 : has_track s2 track_id = true := by
          rw [has_track_congr (delete_detection_ids h2)]; exact ht
        have hsub2 : (owned s2.tracks_).Sublist (owned ts0) := by
          rw [e2]
          exact (owned_map_sublist _ _ (del_nodes_sublist track_id f)).trans hsub
        have hv2 : s2.video_len_ = s.video_len_ := by rw [e2]
        rw [ih hsub2 ht2 (fun g hg => by rw [hv2]; exact hf g (List.mem_cons_of_mem _ hg)) h]
        rw [e2, hb2]
        rfl

theorem iterate_eraseP_cons_neg (q : Nat → Bool) (p : Nat) (hp : q p = false) (k : Nat)
    (ps : List Nat) : (List.eraseP q)^[k] (p :: ps) = p :: (List.eraseP q)^[k] ps := by
  induction k generalizing ps with
  | zero => rfl
  | succ k ih =>
    rw [Function.iterate_succ_apply, Function.iterate_succ_apply,
      List.eraseP_cons_of_neg (by simp [hp]), ih]

theorem iterate_eraseP_eq_filter (q : Nat → Bool) (b : List Nat) (k : Nat)
    (h : b.countP q ≤ k) : (List.eraseP q)^[k] b = b.filter (fun p => !q p) := by
  induction b generalizing k with
  | nil =>
    clear h
    induction k with
    | zero => rfl
    | succ k ih => rw [Function.iterate_succ_apply]; exact ih
  | cons p ps ih =>
    cases hq : q p with
    | true =>
      rw [List.countP_cons_of_pos _ _ hq] at h
      obtain ⟨k, rfl⟩ : ∃ j, k = j + 1 := ⟨k - 1, by omega⟩
      rw [Function.iterate_succ_apply, List.eraseP_cons_of_pos hq,
        List.filter_cons_of_neg (by simp [hq])]
      exact ih k (by omega)
    | false =>
      rw [List.countP_cons_of_neg _ _ (by simp [hq])] at h
      rw [iterate_eraseP_cons_neg q p hq, List.filter_cons_of_pos (by simp [hq]), ih k h]

theorem length_erase_frames (q : Nat → Bool) (tl : List (List Nat)) (fs : List Nat) :
    (erase_frames q tl fs).length = tl.length := by
  induction fs generalizing tl with
  | nil => rfl
  | cons f fs ih => simp [erase_frames, ih]

theorem bucket_erase_frames (q : Nat → Bool) (tl : List (List Nat)) (fs : List Nat) (g : Nat)
    (hg : g < tl.length) :
    bucket (erase_frames q tl fs) g = (List.eraseP q)^[fs.count g] (bucket tl g) := by
  induction fs generalizing tl with
  | nil => rfl
  | cons f fs ih =>
    simp only [erase_frames]
    rw [ih _ (by simpa using hg), bucket_set]
    by_cases hfg : f = g
    · subst hfg
      rw [if_pos ⟨rfl, hg⟩, List.count_cons_self, Function.iterate_succ_apply]
    · rw [if_neg (by tauto), List.count_cons_of_ne (Ne.symm hfg)]

theorem consistent_deref {s : TrackContainer} (hc : Consistent s) {f p : Nat}
    (hf : f < s.timeline_.length) (hp : p ∈ bucket s.timeline_ f) :
    ∃ n ∈ owned s.tracks_, n.addr = p ∧ n.det.frame = f ∧ deref s.tracks_ p = .ok n.det := by
  obtain ⟨n, hn, rfl, hfr⟩ := hc.2.2 f hf p hp
  exact ⟨n, hn, rfl, hfr, deref_of_mem hc.1 hn⟩

theorem consistent_bucket_nodup {s : TrackContainer} (hc : Consistent s) {f : Nat}
    (hf : f < s.timeline_.length) : (bucket s.timeline_ f).Nodup := by
  rw [List.nodup_iff_count_le_one]
  intro p
  by_cases hp : p ∈ bucket s.timeline_ f
  · obtain ⟨n, hn, rfl, hfr⟩ := hc.2.2 f hf p hp
    have := hc.2.1 n hn
    rw [hfr] at this
    omega
  · rw [List.count_eq_zero_of_not_mem hp]; omega

theorem mem_track_of_carries {s : TrackContainer} (hu : UniqueIds s) (htag : Tagged s)
    {t : StoredTrack} (ht : t ∈ s.tracks_) {n : Node} (hn : n ∈ owned s.tracks_)
    (hid : n.det.id = t.id) : n ∈ t.nodes := by
  obtain ⟨u, hu2, hnu⟩ := mem_owned.1 hn
  have e : u = t := eq_of_mem_of_id_eq hu hu2 ht (by rw [← htag u hu2 n hnu, hid])
  rw [← e]; exact hnu

theorem count_frames_moved (F g : Nat) (hg : F ≤ g) (ns : List Node) :
    ((ns.filter (fun n => decide (n.det.frame ≥ F))).map (fun n => n.det.frame)).count g
      = (ns.filter (fun n => decide (n.det.frame = g))).length := by
  induction ns with
  | nil => rfl
  | cons n ns ih =>
    by_cases h1 : n.det.frame = g
    · have h2 : n.det.frame ≥ F := by omega
      rw [List.filter_cons_of_pos (p := fun n : Node => decide (n.det.frame ≥ F))
            (by simpa using h2),
          List.filter_cons_of_pos (p := fun n : Node => decide (n.det.frame = g))
            (by simpa using h1)]
      simp only [List.map_cons, List.length_cons]
      rw [h1, List.count_cons_self, ih]
    · rw [List.filter_cons_of_neg (p := fun n : Node => decide (n.det.frame = g))
            (by simpa using h1)]
      by_cases h2 : n.det.frame ≥ F
      · rw [List.filter_cons_of_pos (p := fun n : Node => decide (n.det.frame ≥ F))
              (by simpa using h2)]
        simp only [List.map_cons]
        rw [List.count_cons_of_ne (Ne.symm h1), ih]
      · rw [List.filter_cons_of_neg (p := fun n : Node => decide (n.det.frame ≥ F))
              (by simpa using h2), ih]

theorem count_frames_below (F g : Nat) (hg : g < F) (ns : List Node) :
    ((ns.filter (fun n => decide (n.det.frame ≥ F))).map (fun n => n.det.frame)).count g
      = 0 := by
  rw [List.count_eq_zero]
  intro hmem
  obtain ⟨n, hn, e⟩ := List.mem_map.1 hmem
  have := (List.mem_filter.1 hn).2
  simp only [decide_eq_true_eq] at this
  omega

theorem countP_carries_le {s : TrackContainer} (hu : UniqueIds s) (htag : Tagged s)
    (hc : Consistent s) {t : StoredTrack} (ht : t ∈ s.tracks_) {g : Nat}
    (hg : g < s.timeline_.length) :
    (bucket s.timeline_ g).countP (carries s.tracks_ t.id)
      ≤ (t.nodes.filter (fun n => decide (n.det.frame = g))).length := by
  rw [List.countP_eq_length_filter]
  have hnd : ((bucket s.timeline_ g).filter (carries s.tracks_ t.id)).Nodup :=
    (consistent_bucket_nodup hc hg).filter _
  have hsub : (bucket s.timeline_ g).filter (carries s.tracks_ t.id)
      ⊆ (t.nodes.filter (fun n => decide (n.det.frame = g))).map Node.addr := by
    intro p hp
    obtain ⟨hp1, hp2⟩ := List.mem_filter.1 hp
    obtain ⟨n, hn, rfl, hfr, hd⟩ := consistent_deref hc hg hp1
    have hid : n.det.id = t.id := by
      simpa [carries, hd] using hp2
    exact List.mem_map.2 ⟨n, List.mem_filter.2
      ⟨mem_track_of_carries hu htag ht hn hid, by simpa using hfr⟩, rfl⟩
  have := (hnd.subperm hsub).length_le
  simpa using this

theorem mem_owned_map {ts : List StoredTrack} (g : StoredTrack → StoredTrack)
    {u : StoredTrack} (hu : u ∈ ts) {n : Node} (hn : n ∈ (g u).nodes) :
    n ∈ owned (ts.map g) :=
  mem_owned.2 ⟨g u, List.mem_map.2 ⟨u, hu, rfl⟩, hn⟩

theorem deref_all_of {ts : List StoredTrack} (v : Nat → Detection) (ps : List Nat)
    (h : ∀ p ∈ ps, deref ts p = .ok (v p)) : deref_all ts ps = .ok (ps.map v) := by
  induction ps with
  | nil => rfl
  | cons p ps ih =>
    simp only [deref_all, h p (List.mem_cons_self _ _),
      ih (fun q hq => h q (List.mem_cons_of_mem _ hq)), List.map_cons]

theorem deref_all_nodes {ts : List StoredTrack} (ns : List Node)
    (h : ∀ n ∈ ns, deref ts n.addr = .ok n.det) :
    deref_all ts (ns.map Node.addr) = .ok (ns.map Node.det) := by
  induction ns with
  | nil => rfl
  | cons n ns ih =>
    simp only [List.map_cons, deref_all, h n (List.mem_cons_self _ _),
      ih (fun q hq => h q (List.mem_cons_of_mem _ hq))]

theorem peek_of_deref {ts : List StoredTrack} {p : Nat} {d : Detection}
    (h : deref ts p = .ok d) : peek ts p = d := by
  simp [peek, h]

theorem carries_of_deref {ts : List StoredTrack} {p : Nat} {d : Detection} (id : Nat)
    (h : deref ts p = .ok d) : carries ts id p = decide (d.id = id) := by
  simp [carries, h]

theorem get_detections_consistent {s : TrackContainer} (hc : Consistent s)
    (hl : s.timeline_.length = s.video_len_) (f : Nat) :
    get_detections s f
      = .ok (if f < s.video_len_ then (bucket s.timeline_ f).map (peek s.tracks_) else []) := by
  unfold get_detections
  by_cases hf : f < s.video_len_
  · have h1 : ¬ f ≥ s.video_len_ := by omega
    have h2 : f < s.timeline_.length := by omega
    simp only [if_neg h1, if_pos h2, if_pos hf]
    apply deref_all_of
    intro p hp
    obtain ⟨n, -, -, -, hd⟩ := consistent_deref hc h2 hp
    rw [hd, peek_of_deref hd]
  · have h1 : f ≥ s.video_len_ := by omega
    simp only [if_pos h1, if_neg hf]

theorem tail_filter_ge (new_id F f : Nat) (hf : F ≤ f) (ns : List Node) :
    ((ns.filter (fun n => decide (n.det.frame ≥ F))).map
        (fun n => restamp new_id n.det)).filter (fun d => decide (d.frame = f))
      = ((ns.map Node.det).filter (fun d => decide (d.frame = f))).map (restamp new_id) := by
  have e1 : ((ns.filter (fun n => decide (n.det.frame ≥ F))).map
        (fun n => restamp new_id n.det)).filter (fun d => decide (d.frame = f))
      = (ns.filter (fun n => decide (n.det.frame = f))).map
          (fun n => restamp new_id n.det) := by
    rw [List.filter_map, List.filter_filter]
    congr 1
    apply List.filter_congr
    intro n _
    by_cases h1 : n.det.frame = f
    · have h2 : F ≤ n.det.frame := by omega
      simp [Function.comp, restamp, h1, h2, hf]
    · simp [Function.comp, restamp, h1]
  have e2 : ((ns.map Node.det).filter (fun d => decide (d.frame = f))).map (restamp new_id)
      = (ns.filter (fun n => decide (n.det.frame = f))).map
          (fun n => restamp new_id n.det) := by
    rw [List.filter_map, List.map_map]
    rfl
  rw [e1, e2]

theorem tail_filter_lt (new_id F f : Nat) (hf : f < F) (ns : List Node) :
    ((ns.filter (fun n => decide (n.det.frame ≥ F))).map
        (fun n => restamp new_id n.det)).filter (fun d => decide (d.frame = f)) = [] := by
  rw [List.filter_eq_nil_iff]
  intro d hd
  obtain ⟨n, hn, rfl⟩ := List.mem_map.1 hd
  have := (List.mem_filter.1 hn).2
  simp only [decide_eq_true_eq] at this ⊢
  simp only [restamp]
  omega

theorem split_get_detections {s s1 : TrackContainer} {track_id frame_idx : Nat} {r : Bool}
    {t : StoredTrack} (hsound : Sound s) (hc : Consistent s) (htag : Tagged s)
    (hfind : s.tracks_.find? (fun t => t.id == track_id) = some t)
    (hm : t.nodes.filter (fun n => decide (n.det.frame ≥ frame_idx)) ≠ [])
    (h : split_track s track_id frame_idx = .ok (s1, r)) (f : Nat) (hf : f < s.video_len_) :
    get_detections s1 f = .ok
      (if frame_idx ≤ f then
        ((bucket s.timeline_ f).map (peek s.tracks_)).filter
            (fun d => decide (d.id ≠ track_id)) ++
          ((t.nodes.map Node.det).filter (fun d => decide (d.frame = f))).map
            (restamp (get_new_id s))
       else (bucket s.timeline_ f).map (peek s.tracks_)) := by
  obtain ⟨hmem, hid⟩ := find_track_some hfind
  obtain ⟨-, s2, hdel, hadd, htr2, hv2, htop2, hl2⟩ := split_track_ok hsound hfind hm h
  have hs2 : Sound s2 := sound_delete_detections hdel hsound
  obtain ⟨hu, ⟨hl, hb⟩, ha1, ha2⟩ := hsound
  have hfl : f < s.timeline_.length := by omega
  have hfr : ∀ g ∈ (t.nodes.filter (fun n => decide (n.det.frame ≥ frame_idx))).map
      (fun n => n.det.frame), g < s.video_len_ := by
    intro g hg
    obtain ⟨n, hn, rfl⟩ := List.mem_map.1 hg
    exact hb n (mem_owned.2 ⟨t, hmem, (List.mem_filter.1 hn).1⟩)
  have htl2 := delete_detections_timeline hc.1 (List.Sublist.refl _)
    ((has_track_iff _ _).2 ⟨t, hmem, hid⟩) hfr hdel
  have hsub2 : (owned s2.tracks_).Sublist (owned s.tracks_) := by
    rw [htr2]
    apply owned_map_sublist
    intro u
    split
    · exact List.filter_sublist _
    · exact List.Sublist.refl _
  have hnd2 : ((owned s2.tracks_).map Node.addr).Nodup := hc.1.sublist (hsub2.map _)
  obtain ⟨-, -, rfl⟩ := add_track_ok hadd
  -- pointers that survive the deletions read the same detection as before
  have hsurv : ∀ p ∈ bucket s.timeline_ f,
      (frame_idx ≤ f → carries s.tracks_ track_id p = false) →
      deref (s2.tracks_ ++ [⟨get_new_id s, copy_nodes s2.heap_top
        ((t.nodes.filter (fun n => decide (n.det.frame ≥ frame_idx))).map
          (fun n => restamp (get_new_id s) n.det))⟩]) p = .ok (peek s.tracks_ p) := by
    intro p hp hq
    obtain ⟨n, hn, rfl, hnf, hd⟩ := consistent_deref hc hfl hp
    rw [peek_of_deref hd]
    rw [deref_append_old]
    · apply deref_of_mem hnd2
      obtain ⟨u, hu2, hnu⟩ := mem_owned.1 hn
      rw [htr2]
      apply mem_owned_map _ hu2
      by_cases hut : u.id = track_id
      · rw [if_pos hut]
        simp only [List.mem_filter, decide_eq_true_eq]
        refine ⟨hnu, ?_⟩
        by_contra hge
        have hq2 := hq (by omega)
        rw [carries_of_deref track_id hd] at hq2
        have := htag u hu2 n hnu
        simp only [decide_eq_false_iff_not] at hq2
        exact hq2 (by rw [this, hut])
      · rw [if_neg hut]; exact hnu
    · intro m hm2
      have h1 := (mem_copy_nodes hm2).1
      have h2 := ha2 f n.addr hp
      omega
  -- the new pointers read the detections of the tail track
  have hnew : ∀ m ∈ copy_nodes s2.heap_top
        ((t.nodes.filter (fun n => decide (n.det.frame ≥ frame_idx))).map
          (fun n => restamp (get_new_id s) n.det)),
      deref (s2.tracks_ ++ [⟨get_new_id s, copy_nodes s2.heap_top
        ((t.nodes.filter (fun n => decide (n.det.frame ≥ frame_idx))).map
          (fun n => restamp (get_new_id s) n.det))⟩]) m.addr = .ok m.det := by
    intro m hm2
    rw [deref_append_new]
    · apply deref_of_mem
      · simp only [owned, List.append_nil]
        exact nodup_addr_copy_nodes _ _
      · simp only [owned, List.append_nil]
        exact hm2
    · intro n hn
      have h1 := (mem_copy_nodes hm2).1
      have h2 := hs2.2.2.1 n hn
      omega
  unfold get_detections
  simp only [length_push_all]
  have c1 : ¬ f ≥ s2.video_len_ := by omega
  have c2 : f < s2.timeline_.length := by omega
  simp only [if_neg c1, if_pos c2]
  rw [bucket_push_all _ _ _ c2, htl2, bucket_erase_frames _ _ _ _ hfl]
  by_cases hF : frame_idx ≤ f
  · rw [if_pos hF]
    have hcount := countP_carries_le hu htag hc hmem hfl
    rw [hid, ← count_frames_moved frame_idx f hF] at hcount
    rw [iterate_eraseP_eq_filter _ _ _ hcount]
    apply deref_all_append
    · rw [deref_all_of (peek s.tracks_)]
      · congr 1
        rw [List.filter_map]
        congr 1
        apply List.filter_congr
        intro p hp
        obtain ⟨n, -, -, -, hd⟩ := consistent_deref hc hfl hp
        simp [Function.comp, carries_of_deref track_id hd, peek_of_deref hd]
      · intro p hp
        obtain ⟨hp1, hp2⟩ := List.mem_filter.1 hp
        exact hsurv p hp1 (fun _ => by simpa using hp2)
    · rw [deref_all_nodes]
      · congr 1
        rw [filter_det_map (fun d => decide (d.frame = f)), map_det_copy_nodes]
        exact tail_filter_ge _ _ _ hF _
      · intro m hm2
        exact hnew m (List.mem_filter.1 hm2).1
  · rw [if_neg hF]
    rw [count_frames_below frame_idx f (by omega), Function.iterate_zero_apply]
    have hnone : (copy_nodes s2.heap_top
        ((t.nodes.filter (fun n => decide (n.det.frame ≥ frame_idx))).map
          (fun n => restamp (get_new_id s) n.det))).filter
        (fun n => decide (n.det.frame = f)) = [] := by
      rw [List.filter_eq_nil_iff]
      intro m hm2
      obtain ⟨d0, hd0⟩ : ∃ d0, d0 = m.det := ⟨_, rfl⟩
      have hmem2 := (mem_copy_nodes hm2).2.2
      obtain ⟨n, hn, e⟩ := List.mem_map.1 hmem2
      have := (List.mem_filter.1 hn).2
      simp only [decide_eq_true_eq] at this ⊢
      rw [← e]
      simp only [restamp]
      omega
    rw [hnone, List.map_nil, List.append_nil]
    apply deref_all_of
    intro p hp
    exact hsurv p hp (fun hge => absurd hge hF)

/-- C5: for a store whose frame index is consistent and whose detections all carry their
track's id, after a `split_track(T, F)` that returns and moves at least one detection:
for every frame `f >= F`, `get_detections(f)` is its previous value without the detections
of id `T`, followed by `T`'s former detections at `f` re-stamped with the new id (so it
contains no detection with id `T` and contains each of those re-stamped detections); for
every frame `f < F`, `get_detections(f)` is unchanged. -/
theorem split_track_frame_index (s s1 : TrackContainer) (track_id frame_idx : Nat) (r : Bool)
    (trk : Track) (hs : Reachable s) (hc : Consistent s) (htag : Tagged s)
    (ht : get_track s track_id = some trk)
    (hmove : ∃ d ∈ trk.dets, frame_idx ≤ d.frame)
    (h : split_track s track_id frame_idx = .ok (s1, r)) :
    (∀ f, frame_idx ≤ f → ∃ l, get_detections s f = .ok l ∧
      get_detections s1 f = .ok (l.filter (fun d => decide (d.id ≠ track_id)) ++
        (trk.dets.filter (fun d => decide (d.frame = f))).map (restamp (get_new_id s)))) ∧
    (∀ f l1, frame_idx ≤ f → get_detections s1 f = .ok l1 →
      (∀ d ∈ l1, d.id ≠ track_id) ∧
      ∀ d ∈ trk.dets, d.frame = f → restamp (get_new_id s) d ∈ l1) ∧
    (∀ f, f < frame_idx → get_detections s1 f = get_detections s f) := by
  have hsound := reachable_sound hs
  obtain ⟨t, hfind, rfl⟩ := get_track_some ht
  obtain ⟨hmem, hid⟩ := find_track_some hfind
  have hm : t.nodes.filter (fun n => decide (n.det.frame ≥ frame_idx)) ≠ [] := by
    obtain ⟨d, hd, hle⟩ := hmove
    obtain ⟨n, hn, rfl⟩ := List.mem_map.1 hd
    intro he
    have : n ∈ t.nodes.filter (fun n => decide (n.det.frame ≥ frame_idx)) :=
      List.mem_filter.2 ⟨hn, by simpa using hle⟩
    rw [he] at this; cases this
  have hkey := split_get_detections hsound hc htag hfind hm h
  obtain ⟨-, s2, hdel, hadd, -, hv2, -, -⟩ := split_track_ok hsound hfind hm h
  obtain ⟨hfresh, -, hs1⟩ := add_track_ok hadd
  simp only at hfresh
  have hv1 : s1.video_len_ = s.video_len_ := by rw [hs1]; exact hv2
  have hnew : get_new_id s ≠ track_id := by
    intro e
    rw [has_track_congr (delete_detections_ids hdel), e] at hfresh
    have := (has_track_iff s track_id).2 ⟨t, hmem, hid⟩
    rw [this] at hfresh; cases hfresh
  have hfirst : ∀ f, frame_idx ≤ f → ∃ l, get_detections s f = .ok l ∧
      get_detections s1 f = .ok (l.filter (fun d => decide (d.id ≠ track_id)) ++
        (t.toTrack.dets.filter (fun d => decide (d.frame = f))).map
          (restamp (get_new_id s))) := by
    intro f hF
    refine ⟨_, get_detections_consistent hc hsound.2.1.1 f, ?_⟩
    by_cases hf : f < s.video_len_
    · rw [hkey f hf, if_pos hF, if_pos hf]; rfl
    · rw [if_neg hf]
      have hnone : t.toTrack.dets.filter (fun d => decide (d.frame = f)) = [] := by
        rw [List.filter_eq_nil_iff]
        intro d hd
        obtain ⟨n, hn, rfl⟩ := List.mem_map.1 hd
        have := hsound.2.1.2 n (mem_owned.2 ⟨t, hmem, hn⟩)
        simp only [decide_eq_true_eq]
        omega
      rw [hnone]
      unfold get_detections
      rw [if_pos (by omega)]
      rfl
  refine ⟨hfirst, ?_, ?_⟩
  · intro f l1 hF hget
    obtain ⟨l, -, h1⟩ := hfirst f hF
    rw [h1] at hget
    simp only [Except.ok.injEq] at hget
    subst hget
    refine ⟨?_, ?_⟩
    · intro d hd
      rcases List.mem_append.1 hd with hd | hd
      · simpa using (List.mem_filter.1 hd).2
      · obtain ⟨d0, -, rfl⟩ := List.mem_map.1 hd
        exact hnew
    · intro d hd hdf
      exact List.mem_append_right _
        (List.mem_map.2 ⟨d, List.mem_filter.2 ⟨hd, by simpa using hdf⟩, rfl⟩)
  · intro f hF
    rw [get_detections_consistent hc hsound.2.1.1 f]
    by_cases hf : f < s.video_len_
    · rw [hkey f hf, if_neg (by omega), if_pos hf]
    · rw [if_neg hf]
      unfold get_detections
      rw [if_pos (by omega)]

theorem consistent_scenario_store : Consistent scenario_store := by
  refine ⟨by decide, by decide, ?_⟩
  decide

theorem tagged_scenario_store : Tagged scenario_store := by
  unfold Tagged
  decide

/-- C5 (witness): the scenario of the claim: video length 5, `create_new_track` at frame 2
returns 1, `add_det2track(1, ·)` at frame 4, `split_track(1, 4)`; `get_detections(4)` then
reports id 2 and not id 1, and `get_detections(2)` is unchanged. -/
theorem split_track_frame_index_witness :
    Reachable scenario_store ∧ Consistent scenario_store ∧ Tagged scenario_store ∧
    create_new_track (TrackContainer.construct 5) (det_at 2 0) = .ok (scenario_first, 1) ∧
    add_det2track scenario_first 1 (det_at 4 1) = .ok (scenario_store, true) ∧
    get_detections scenario_store 2 = .ok [det_at 2 1] ∧
    split_track scenario_store 1 4 = .ok (scenario_split, true) ∧
    get_detections scenario_split 4 = .ok [det_at 4 2] ∧
    ((∀ d ∈ [det_at 4 2], d.id ≠ 1) ∧
      ∀ d ∈ [det_at 2 1, det_at 4 1], d.frame = 4 → restamp 2 d ∈ [det_at 4 2]) ∧
    get_detections scenario_split 2 = get_detections scenario_store 2 :=
  have key := split_track_frame_index scenario_store scenario_split 1 4 true
    ⟨1, [det_at 2 1, det_at 4 1]⟩ reachable_scenario_store consistent_scenario_store
    tagged_scenario_store rfl ⟨det_at 4 1, by decide, by decide⟩ rfl
  ⟨reachable_scenario_store, consistent_scenario_store, tagged_scenario_store, rfl, rfl, rfl,
    rfl, rfl, key.2.1 4 [det_at 4 2] (by decide) rfl, key.2.2 2 (by decide)⟩

theorem find_owned_add_to_first_old (track_id a : Nat) (det : Detection)
    (ts : List StoredTrack) (p : Nat) (h : p ≠ a) :
    (owned (add_to_first track_id a det ts)).find? (fun n => n.addr == p)
      = (owned ts).find? (fun n => n.addr == p) := by
  induction ts with
  | nil => rfl
  | cons t ts ih =>
    simp only [add_to_first]
    split
    · simp only [owned, StoredTrack.add, List.find?_append, List.find?_cons, List.find?_nil]
      have : ((a == p) = false) := by simpa using Ne.symm h
      simp [this]
    · simp only [owned, List.find?_append, ih]

theorem deref_add_to_first_old (track_id a : Nat) (det : Detection) (ts : List StoredTrack)
    (p : Nat) (h : p ≠ a) : deref (add_to_first track_id a det ts) p = deref ts p := by
  unfold deref
  rw [find_owned_add_to_first_old _ _ _ _ _ h]

theorem find_none_of_addr_ne {l : List Node} {a : Nat} (h : ∀ n ∈ l, n.addr ≠ a) :
    l.find? (fun n => n.addr == a) = none := by
  rw [List.find?_eq_none]
  intro n hn
  simpa using h n hn

theorem deref_add_to_first_new (track_id a : Nat) (det : Detection) (ts : List StoredTrack)
    (ht : ∃ t ∈ ts, t.id = track_id) (hfresh : ∀ n ∈ owned ts, n.addr ≠ a) :
    deref (add_to_first track_id a det ts) a = .ok det := by
  induction ts with
  | nil => obtain ⟨t, ht, -⟩ := ht; cases ht
  | cons t ts ih =>
    have h1 : ∀ n ∈ t.nodes, n.addr ≠ a := fun n hn =>
      hfresh n (by simp only [owned, List.mem_append]; exact Or.inl hn)
    have h2 : ∀ n ∈ owned ts, n.addr ≠ a := fun n hn =>
      hfresh n (by simp only [owned, List.mem_append]; exact Or.inr hn)
    simp only [add_to_first]
    split
    · unfold deref
      simp only [owned, StoredTrack.add, List.find?_append, find_none_of_addr_ne h1,
        List.find?_cons, beq_self_eq_true]
      rfl
    · rename_i hne
      have ht2 : ∃ u ∈ ts, u.id = track_id := by
        obtain ⟨u, hu, e⟩ := ht
        rcases List.mem_cons.1 hu with rfl | hu
        · exact absurd e hne
        · exact ⟨u, hu, e⟩
      have := ih ht2 h2
      unfold deref at this ⊢
      simp only [owned, List.find?_append, find_none_of_addr_ne h1]
      exact this

theorem add_det2track_get_detections {s : TrackContainer} (hs : Sound s) (track_id : Nat)
    (det : Detection) (ht : has_track s track_id = true) (hf : det.frame < s.video_len_) :
    ∃ s1, add_det2track s track_id det = .ok (s1, true) ∧ s1.video_len_ = s.video_len_ ∧
      ∀ f l, get_detections s f = .ok l →
        get_detections s1 f = .ok (if f = det.frame then l ++ [det] else l) := by
  obtain ⟨-, ⟨hl, -⟩, ha1, ha2⟩ := hs
  refine ⟨{ video_len_ := s.video_len_,
            tracks_ := add_to_first track_id s.heap_top det s.tracks_,
            timeline_ := timeline_push s.timeline_ det.frame s.heap_top,
            heap_top := s.heap_top + 1 }, ?_, rfl, ?_⟩
  · unfold add_det2track
    rw [if_pos hf, if_pos hl.symm, if_pos ht]
  · intro f l hget
    unfold get_detections at hget ⊢
    simp only [length_timeline_push]
    by_cases hfv : f < s.video_len_
    · have c1 : ¬ f ≥ s.video_len_ := by omega
      have c2 : f < s.timeline_.length := by omega
      simp only [if_neg c1, if_pos c2] at hget ⊢
      have hold : deref_all (add_to_first track_id s.heap_top det s.tracks_)
          (bucket s.timeline_ f) = .ok l := by
        rw [deref_all_congr _ s.tracks_]
        · exact hget
        · intro p hp
          apply deref_add_to_first_old
          have := ha2 f p hp
          omega
      rw [bucket_timeline_push]
      by_cases hfd : f = det.frame
      · rw [if_pos ⟨hfd.symm, c2⟩, if_pos hfd]
        apply deref_all_append hold
        simp only [deref_all]
        rw [deref_add_to_first_new _ _ _ _ ((has_track_iff _ _).1 ht)
          (fun n hn => by have := ha1 n hn; omega)]
      · rw [if_neg (fun h => hfd h.1.symm), if_neg hfd]
        exact hold
    · have c1 : f ≥ s.video_len_ := by omega
      simp only [if_pos c1] at hget ⊢
      have hne : f ≠ det.frame := by omega
      rw [if_neg hne]
      exact hget

theorem add_empty_track_get_detections {s : TrackContainer} (hs : Sound s) (id : Nat)
    (hid : has_track s id = false) :
    ∃ s1, add_track s ⟨id, []⟩ = .ok s1 ∧ s1.video_len_ = s.video_len_ ∧
      has_track s1 id = true ∧ ∀ f, get_detections s1 f = get_detections s f := by
  have hadd := add_track_of s ⟨id, []⟩ hid (by intro d hd; cases hd) hs.2.1.1
  refine ⟨_, hadd, rfl, ?_, ?_⟩
  · rw [has_track_iff]
    exact ⟨_, List.mem_append_right _ (List.mem_singleton_self _), rfl⟩
  · intro f
    unfold get_detections
    simp only [copy_nodes, push_all]
    by_cases hfv : f < s.video_len_
    · have c1 : ¬ f ≥ s.video_len_ := by omega
      have c2 : f < s.timeline_.length := by have := hs.2.1.1; omega
      simp only [if_neg c1, if_pos c2]
      apply deref_all_congr
      intro p _
      apply deref_append_old
      intro n hn
      cases hn
    · have c1 : f ≥ s.video_len_ := by omega
      simp only [if_pos c1]

theorem save_frames_ok (pc : Nat) (s : TrackContainer) (dets : Nat → List Detection)
    (fs : List Nat) (h : ∀ f ∈ fs, get_detections s f = .ok (dets f)) :
    save_frames pc s fs = .ok ((frames_dets dets fs).map (Detection.toRow pc)) := by
  induction fs with
  | nil => rfl
  | cons f fs ih =>
    simp only [save_frames, h f (List.mem_cons_self _ _),
      ih (fun g hg => h g (List.mem_cons_of_mem _ hg)), frames_dets, List.map_append]

theorem mem_frames_dets {dets : Nat → List Detection} {fs : List Nat} {d : Detection}
    (h : d ∈ frames_dets dets fs) : ∃ g ∈ fs, d ∈ dets g := by
  induction fs with
  | nil => cases h
  | cons f fs ih =>
    simp only [frames_dets, List.mem_append] at h
    rcases h with h | h
    · exact ⟨f, List.mem_cons_self _ _, h⟩
    · obtain ⟨g, hg, hd⟩ := ih h
      exact ⟨g, List.mem_cons_of_mem _ hg, hd⟩

theorem filter_frames_dets (dets : Nat → List Detection) (fs : List Nat) (hnd : fs.Nodup)
    (hfr : ∀ g ∈ fs, ∀ d ∈ dets g, d.frame = g) (f : Nat) :
    (frames_dets dets fs).filter (fun d => decide (d.frame = f))
      = if f ∈ fs then dets f else [] := by
  induction fs with
  | nil => rfl
  | cons g fs ih =>
    simp only [List.nodup_cons] at hnd
    have ih2 := ih hnd.2 (fun x hx => hfr x (List.mem_cons_of_mem _ hx))
    simp only [frames_dets, List.filter_append, ih2]
    by_cases hgf : g = f
    · subst hgf
      have hall : (dets g).filter (fun d => decide (d.frame = g)) = dets g := by
        rw [List.filter_eq_self]
        intro d hd
        simpa using hfr g (List.mem_cons_self _ _) d hd
      rw [hall, if_neg hnd.1, if_pos (List.mem_cons_self _ _), List.append_nil]
    · have hnone : (dets g).filter (fun d => decide (d.frame = f)) = [] := by
        rw [List.filter_eq_nil_iff]
        intro d hd
        have := hfr g (List.mem_cons_self _ _) d hd
        simp only [decide_eq_true_eq]
        omega
      rw [hnone, List.nil_append]
      by_cases hf : f ∈ fs
      · rw [if_pos hf, if_pos (List.mem_cons_of_mem _ hf)]
      · rw [if_neg hf, if_neg (by
          intro hm
          rcases List.mem_cons.1 hm with e | hm
          · exact hgf e.symm
          · exact hf hm)]

theorem get_detections_construct (V f : Nat) :
    get_detections (TrackContainer.construct V) f = .ok [] := by
  unfold get_detections
  by_cases hf : f < V
  · have c1 : ¬ f ≥ (TrackContainer.construct V).video_len_ := by
      simp [TrackContainer.construct]; omega
    have c2 : f < (TrackContainer.construct V).timeline_.length := by
      simp [TrackContainer.construct]; omega
    simp only [if_neg c1, if_pos c2]
    simp [TrackContainer.construct, bucket_replicate, deref_all]
  · have c1 : f ≥ (TrackContainer.construct V).video_len_ := by
      simp [TrackContainer.construct]; omega
    simp only [if_pos c1]

theorem reachable_orphan_store : Reachable orphan_store :=
  Reachable.delete_detection (r := true) 1 0
    (Reachable.add_det2track (r := true) 2 (det_at 0 1)
      (Reachable.add_track ⟨2, []⟩
        (Reachable.add_track ⟨1, []⟩ (Reachable.construct 1) rfl) rfl) rfl) rfl

theorem save_never_returns (pc : Nat) (s : TrackContainer) (b : Bool) :
    save pc s true ≠ .ok b := by
  unfold save
  simp only [if_true]
  split <;> exact fun h => by cases h

theorem save_unopened (pc : Nat) (s : TrackContainer) : save pc s false = .ok false := rfl

/-- C8: evaluation at the failing input. The reachable store `orphan_store` holds a
detection (track 2 owns it) that the frame index no longer references. `save` to an opened
file streams the video length and no row, and then reaches the end of its body, which has
no `return` statement; `load` of a file with that content into a fresh store stops at
`assert(is_initalized)` instead of yielding a store. The missing `return` does not depend
on the store: `save` of the scenario store, whose frame index is consistent, streams its
two rows and ends the same way. -/
theorem save_load_orphan_store :
    Reachable orphan_store ∧ get_track orphan_store 2 = some ⟨2, [det_at 0 1]⟩ ∧
    get_detections orphan_store 0 = .ok [] ∧
    save_stream 1 orphan_store = .ok (1, []) ∧
    save 1 orphan_store true = .error .no_return ∧
    load 1 (TrackContainer.fresh 0) (some ⟨1, []⟩) = .error .not_initialized ∧
    save_stream 1 scenario_store
      = .ok (5, [⟨3, 1, 10, 20, 30, 40, 1, 1⟩, ⟨5, 1, 10, 20, 30, 40, 1, 1⟩]) ∧
    save 1 scenario_store true = .error .no_return :=
  ⟨reachable_orphan_store, by rfl, by rfl, by rfl, by rfl, by rfl, by rfl, by rfl⟩

theorem erase_first_id_total (ts : List StoredTrack) (id : Nat) (b : List Nat)
    (h : ∀ p ∈ b, ∃ d, deref ts p = .ok d) : ∃ b1, erase_first_id ts id b = .ok b1 := by
  induction b with
  | nil => exact ⟨[], rfl⟩
  | cons p ps ih =>
    obtain ⟨d, hd⟩ := h p (List.mem_cons_self _ _)
    obtain ⟨b1, hb1⟩ := ih (fun q hq => h q (List.mem_cons_of_mem _ hq))
    simp only [erase_first_id, hd, hb1]
    by_cases hid : d.id = id
    · exact ⟨ps, by rw [if_pos hid]⟩
    · exact ⟨p :: b1, by rw [if_neg hid]⟩

/-- C13: `split_track(track_id, frame_idx)` returns false and leaves the store as it was
when no track with `track_id` exists; when the track exists but none of its detections has
frame >= `frame_idx` it returns true and leaves the store as it was (the resulting state is
the state before the call, so tracks, frame index, `get_num_tracks` and `get_new_id` are
the same). -/
theorem split_track_noop (s : TrackContainer) (track_id frame_idx : Nat) :
    (has_track s track_id = false → split_track s track_id frame_idx = .ok (s, false)) ∧
    (∀ trk, get_track s track_id = some trk → (∀ d ∈ trk.dets, d.frame < frame_idx) →
      split_track s track_id frame_idx = .ok (s, true)) := by
  refine ⟨?_, ?_⟩
  · intro h
    unfold split_track
    rw [find_none_of_has_track_false h]
  · intro trk ht hlt
    obtain ⟨t, hfind, rfl⟩ := get_track_some ht
    unfold split_track
    rw [hfind]
    simp only
    have hnone : t.nodes.filter (fun n => decide (n.det.frame ≥ frame_idx)) = [] := by
      rw [List.filter_eq_nil_iff]
      intro n hn
      have := hlt n.det (List.mem_map.2 ⟨n, hn, rfl⟩)
      simp only [decide_eq_true_eq]
      omega
    rw [hnone]
    simp

/-- C13 (witness): on the scenario store, `split_track(9, 0)` (no track 9) returns false and
`split_track(1, 5)` (track 1 has frames 2 and 4 only) returns true, the store being the
same in both cases. -/
theorem split_track_noop_witness :
    has_track scenario_store 9 = false ∧
    split_track scenario_store 9 0 = .ok (scenario_store, false) ∧
    get_track scenario_store 1 = some ⟨1, [det_at 2 1, det_at 4 1]⟩ ∧
    split_track scenario_store 1 5 = .ok (scenario_store, true) :=
  have key := split_track_noop scenario_store
  ⟨by decide, (key 9 0).1 (by decide), rfl,
    (key 1 5).2 ⟨1, [det_at 2 1, det_at 4 1]⟩ rfl (by decide)⟩

/-- A call `delete_detection(track_id, frame)` that returns, returns false exactly when no
track with `track_id` exists or `frame >= video_length`, and then the store is left as it
was; in the other cases the call returns true, whether or not the track has a detection
at that frame, provided the references in the bucket of that frame are live (the scan
reads through each of them). -/
theorem delete_detection_returns (s : TrackContainer) (track_id frame_idx : Nat)
    (hs : Reachable s) :
    ((has_track s track_id = false ∨ s.video_len_ ≤ frame_idx) →
      delete_detection s track_id frame_idx = .ok (s, false)) ∧
    (∀ s1 r, delete_detection s track_id frame_idx = .ok (s1, r) →
      (r = false ↔ (has_track s track_id = false ∨ s.video_len_ ≤ frame_idx)) ∧
      (r = false → s1 = s)) ∧
    (has_track s track_id = true → frame_idx < s.video_len_ →
      (∀ p ∈ bucket s.timeline_ frame_idx, ∃ d, deref s.tracks_ p = .ok d) →
      ∃ s1, delete_detection s track_id frame_idx = .ok (s1, true)) := by
  have hl := (reachable_sound hs).2.1.1
  refine ⟨?_, ?_, ?_⟩
  · intro h
    unfold delete_detection
    by_cases ht : has_track s track_id = true
    · rcases h with h | h
      · rw [ht] at h; cases h
      · rw [if_pos ht, if_pos h]
    · rw [if_neg ht]
  · intro s1 r h
    rcases delete_detection_ok h with ⟨hr, hs1, hc⟩ | ⟨hr, ht, hf, -, -⟩
    · exact ⟨⟨fun _ => hc, fun _ => hr⟩, fun _ => hs1⟩
    · subst hr
      refine ⟨⟨(fun h => by cases h), ?_⟩, (fun h => by cases h)⟩
      intro hc
      rcases hc with hc | hc
      · rw [ht] at hc; cases hc
      · omega
  · intro ht hf hlive
    obtain ⟨b, hb⟩ := erase_first_id_total s.tracks_ track_id _ hlive
    unfold delete_detection
    rw [if_pos ht, if_neg (by omega), if_pos hl, hb]
    exact ⟨_, rfl⟩

/-- Example: on the scenario store, `delete_detection(9, 2)` (no track 9) and
`delete_detection(1, 7)` (frame outside the video) return false with the store as it
was, and `delete_detection(1, 3)` returns true although track 1 has no detection at
frame 3. -/
theorem delete_detection_returns_witness :
    Reachable scenario_store ∧
    delete_detection scenario_store 9 2 = .ok (scenario_store, false) ∧
    delete_detection scenario_store 1 7 = .ok (scenario_store, false) ∧
    delete_detection scenario_store 1 3 = .ok (scenario_store, true) ∧
    ((true = false ↔ (has_track scenario_store 1 = false ∨ scenario_store.video_len_ ≤ 3)) ∧
      (true = false → scenario_store = scenario_store)) :=
  have key9 := delete_detection_returns scenario_store 9 2 reachable_scenario_store
  have key7 := delete_detection_returns scenario_store 1 7 reachable_scenario_store
  have key3 := delete_detection_returns scenario_store 1 3 reachable_scenario_store
  ⟨reachable_scenario_store, key9.1 (Or.inl (by decide)), key7.1 (Or.inr (by decide)),
    by rfl, key3.2.1 scenario_store true (by rfl)⟩

theorem find_add_to_first_same (track_id a : Nat) (det : Detection) {ts : List StoredTrack}
    {t : StoredTrack} (h : ts.find? (fun t => t.id == track_id) = some t) :
    (add_to_first track_id a det ts).find? (fun t => t.id == track_id)
      = some (t.add a det) := by
  induction ts with
  | nil => cases h
  | cons u ts ih =>
    simp only [add_to_first]
    by_cases hu : u.id = track_id
    · rw [if_pos hu]
      rw [List.find?_cons_of_pos _ (by simpa using hu)] at h
      simp only [Option.some.injEq] at h
      subst h
      rw [List.find?_cons_of_pos _ (by simpa [StoredTrack.add] using hu)]
    · rw [if_neg hu]
      rw [List.find?_cons_of_neg _ (by simpa using hu)] at h
      rw [List.find?_cons_of_neg _ (by simpa using hu)]
      exact ih h

theorem find_add_to_first_other (track_id a : Nat) (det : Detection) (ts : List StoredTrack)
    {i : Nat} (hi : i ≠ track_id) :
    (add_to_first track_id a det ts).find? (fun t => t.id == i)
      = ts.find? (fun t => t.id == i) := by
  induction ts with
  | nil => rfl
  | cons u ts ih =>
    simp only [add_to_first]
    by_cases hu : u.id = track_id
    · rw [if_pos hu]
      have hne : (u.id == i) = false := by
        rw [beq_eq_false_iff_ne, hu]; exact fun e => hi e.symm
      simp only [List.find?_cons, StoredTrack.add, hne]
    · rw [if_neg hu]
      simp only [List.find?_cons, ih]

/-- C12: for a detection `det` with `det.frame < video_length`, `add_det2track(track_id, det)`
returns false and leaves the store as it was when no track with `track_id` exists;
otherwise it returns true, the track's detection sequence is its previous sequence with
`det` appended last, `get_detections(det.frame)` is its previous value with `det` appended
last, and every other track and every other frame bucket is unchanged. -/
theorem add_det2track_spec (s : TrackContainer) (track_id : Nat) (det : Detection)
    (hs : Reachable s) (hf : det.frame < s.video_len_) :
    (has_track s track_id = false → add_det2track s track_id det = .ok (s, false)) ∧
    (has_track s track_id = true → ∃ s1, add_det2track s track_id det = .ok (s1, true)) ∧
    ∀ s1 r trk, add_det2track s track_id det = .ok (s1, r) →
      get_track s track_id = some trk →
      r = true ∧
      get_track s1 track_id = some ⟨track_id, trk.dets ++ [det]⟩ ∧
      (∀ l, get_detections s det.frame = .ok l →
        get_detections s1 det.frame = .ok (l ++ [det])) ∧
      (∀ f, f ≠ det.frame → get_detections s1 f = get_detections s f ∧
        bucket s1.timeline_ f = bucket s.timeline_ f) ∧
      (∀ i, i ≠ track_id → get_track s1 i = get_track s i) ∧
      get_num_tracks s1 = get_num_tracks s := by
  have hsound := reachable_sound hs
  have hl := hsound.2.1.1
  refine ⟨?_, ?_, ?_⟩
  · intro h
    unfold add_det2track
    rw [if_pos hf, if_pos hl.symm, h]
    rfl
  · intro h
    unfold add_det2track
    rw [if_pos hf, if_pos hl.symm, if_pos h]
    exact ⟨_, rfl⟩
  · intro s1 r trk h ht
    obtain ⟨t, hfind, rfl⟩ := get_track_some ht
    obtain ⟨hmem, hid⟩ := find_track_some hfind
    have hhas : has_track s track_id = true := (has_track_iff _ _).2 ⟨t, hmem, hid⟩
    obtain ⟨s2, h2, -, hget⟩ := add_det2track_get_detections hsound track_id det hhas hf
    rw [h2] at h
    simp only [Except.ok.injEq, Prod.mk.injEq] at h
    obtain ⟨rfl, rfl⟩ := h
    obtain ⟨-, -, -, hs2⟩ := add_det2track_ok h2
    rw [if_pos hhas] at hs2
    refine ⟨rfl, ?_, ?_, ?_, ?_, ?_⟩
    · unfold get_track
      rw [hs2]
      simp only
      rw [find_add_to_first_same _ _ _ hfind]
      simp [StoredTrack.toTrack, StoredTrack.add, hid]
    · intro l hl2
      have := hget det.frame l hl2
      rw [if_pos rfl] at this
      exact this
    · intro f hne
      refine ⟨?_, ?_⟩
      · rw [hs2]
        unfold get_detections
        simp only [length_timeline_push]
        by_cases hfv : f < s.video_len_
        · have c1 : ¬ f ≥ s.video_len_ := by omega
          have c2 : f < s.timeline_.length := by omega
          simp only [if_neg c1, if_pos c2]
          rw [bucket_timeline_push, if_neg (fun h => hne h.1.symm)]
          apply deref_all_congr
          intro p hp
          apply deref_add_to_first_old
          have := hsound.2.2.2 f p hp
          omega
        · have c1 : f ≥ s.video_len_ := by omega
          simp only [if_pos c1]
      · rw [hs2]
        simp only
        rw [bucket_timeline_push, if_neg (fun h => hne h.1.symm)]
    · intro i hi
      unfold get_track
      rw [hs2]
      simp only
      rw [find_add_to_first_other _ _ _ _ hi]
    · rw [hs2]
      simp only [get_num_tracks]
      have := congrArg List.length (map_id_add_to_first track_id s.heap_top det s.tracks_)
      simpa using this

/-- C12 (witness): on the first store of the scenario (track 1 with one detection at
frame 2), `add_det2track(1, ·)` with a detection at frame 4 gives the scenario store, and
`add_det2track(9, ·)` returns false. -/
theorem add_det2track_spec_witness :
    Reachable scenario_first ∧ (det_at 4 1).frame < scenario_first.video_len_ ∧
    add_det2track scenario_first 9 (det_at 4 1) = .ok (scenario_first, false) ∧
    add_det2track scenario_first 1 (det_at 4 1) = .ok (scenario_store, true) ∧
    get_track scenario_store 1 = some ⟨1, [det_at 2 1] ++ [det_at 4 1]⟩ ∧
    get_num_tracks scenario_store = get_num_tracks scenario_first :=
  have hr : Reachable scenario_first :=
    Reachable.create_new_track (i := 1) (det_at 2 0) (Reachable.construct 5) (by rfl)
  have key := add_det2track_spec scenario_first 1 (det_at 4 1) hr (by decide)
  have key9 := add_det2track_spec scenario_first 9 (det_at 4 1) hr (by decide)
  have k := key.2.2 scenario_store true ⟨1, [det_at 2 1]⟩ (by rfl) (by rfl)
  ⟨hr, by decide, key9.1 (by decide), by rfl, k.2.1, k.2.2.2.2.2⟩

theorem reachable_scenario_first : Reachable scenario_first :=
  Reachable.create_new_track (i := 1) (det_at 2 0) (Reachable.construct 5) (by rfl)

/-- C14: for two existing tracks `A` and `B` (with copies `trkA`, `trkB`), the track that a
returning `unite_tracks(A, B)` leaves under `min(A, B)` has as its detection sequence `A`'s
detections in `A`'s order followed by `B`'s detections in `B`'s order, each re-stamped with
`min(A, B)`; the order of the arguments decides, not which id is smaller. -/
theorem unite_tracks_order (s s1 : TrackContainer) (id_A id_B : Nat) (r : Bool)
    (trkA trkB : Track) (hs : Reachable s) (hne : id_A ≠ id_B)
    (hA : get_track s id_A = some trkA) (hB : get_track s id_B = some trkB)
    (h : unite_tracks s id_A id_B = .ok (s1, r)) :
    get_track s1 (min id_A id_B)
      = some ⟨min id_A id_B, trkA.dets.map (restamp (min id_A id_B)) ++
          trkB.dets.map (restamp (min id_A id_B))⟩ ∧
    min id_A id_B ≠ max id_A id_B := by
  have hsound := reachable_sound hs
  obtain ⟨tA, hfA, rfl⟩ := get_track_some hA
  obtain ⟨tB, hfB, rfl⟩ := get_track_some hB
  obtain ⟨-, s2, r2, s3, r3, -, -, hadd, -⟩ := unite_tracks_ok hsound hfA hfB h
  obtain ⟨hfresh, -, rfl⟩ := add_track_ok hadd
  simp only at hfresh
  refine ⟨?_, ?_⟩
  · unfold get_track
    simp only
    rw [find_append_of_none _ (find_none_of_has_track_false hfresh)]
    simp [StoredTrack.toTrack, map_det_copy_nodes]
  · rcases le_total id_A id_B with hle | hle
    · rw [min_eq_left hle, max_eq_right hle]; exact hne
    · rw [min_eq_right hle, max_eq_left hle]; exact fun e => hne e.symm

/-- C14 (witness): tracks 1 (one detection at frame 0) and 2 (one detection at frame 1):
`unite_tracks(2, 1)` leaves track 1 = [frame 1, frame 0] and `unite_tracks(1, 2)` leaves
track 1 = [frame 0, frame 1]. -/
theorem unite_tracks_order_witness :
    Reachable unite_store ∧
    unite_tracks unite_store 2 1 = .ok (united_store, true) ∧
    get_track united_store (min 2 1) = some ⟨min 2 1,
      [det_at 1 2].map (restamp (min 2 1)) ++ [det_at 0 1].map (restamp (min 2 1))⟩ ∧
    unite_tracks unite_store 1 2 = .ok (united_store_12, true) ∧
    get_track united_store_12 (min 1 2) = some ⟨min 1 2,
      [det_at 0 1].map (restamp (min 1 2)) ++ [det_at 1 2].map (restamp (min 1 2))⟩ :=
  ⟨reachable_unite_store, by rfl,
    (unite_tracks_order unite_store united_store 2 1 true ⟨2, [det_at 1 2]⟩ ⟨1, [det_at 0 1]⟩
      reachable_unite_store (by decide) (by rfl) (by rfl) (by rfl)).1,
    by rfl,
    (unite_tracks_order unite_store united_store_12 1 2 true ⟨1, [det_at 0 1]⟩
      ⟨2, [det_at 1 2]⟩ reachable_unite_store (by decide) (by rfl) (by rfl) (by rfl)).1⟩

/-- C19 (counterexample): track 1 holds one detection, at frame 2; after `split_track(1, 0)`
all its detections have moved to track 2, and track 1 is still in the store, empty. -/
theorem split_track_leaves_empty_track :
    Reachable scenario_first ∧
    get_track scenario_first 1 = some ⟨1, [det_at 2 1]⟩ ∧
    split_track scenario_first 1 0 = .ok (emptied_store, true) ∧
    has_track emptied_store 1 = true ∧
    get_track emptied_store 1 = some ⟨1, []⟩ ∧
    get_num_tracks emptied_store = 2 :=
  ⟨reachable_scenario_first, by rfl, by rfl, by rfl, by rfl, by rfl⟩

/-- C19 (amended): for an existing track `T` all of whose detections (at least one) have
frame >= `F`, after a returning `split_track(T, F)` the original track is still in the
store and holds no detection (`has_track(T)` is true), and the new tail track, with id
`get_new_id()`, holds all the detections re-stamped with its id; the store has one more
track. -/
theorem split_track_keeps_emptied_track (s s1 : TrackContainer) (track_id frame_idx : Nat)
    (r : Bool) (trk : Track) (hs : Reachable s) (ht : get_track s track_id = some trk)
    (hne : trk.dets ≠ []) (hall : ∀ d ∈ trk.dets, frame_idx ≤ d.frame)
    (h : split_track s track_id frame_idx = .ok (s1, r)) :
    r = true ∧ has_track s1 track_id = true ∧
    get_track s1 track_id = some ⟨track_id, []⟩ ∧
    get_track s1 (get_new_id s)
      = some ⟨get_new_id s, trk.dets.map (restamp (get_new_id s))⟩ ∧
    get_num_tracks s1 = get_num_tracks s + 1 := by
  have hsound := reachable_sound hs
  obtain ⟨t, hfind, rfl⟩ := get_track_some ht
  obtain ⟨hmem, hid⟩ := find_track_some hfind
  have hall2 : ∀ n ∈ t.nodes, frame_idx ≤ n.det.frame :=
    fun n hn => hall n.det (List.mem_map.2 ⟨n, hn, rfl⟩)
  have hmoved : t.nodes.filter (fun n => decide (n.det.frame ≥ frame_idx)) = t.nodes := by
    rw [List.filter_eq_self]
    intro n hn
    simpa using hall2 n hn
  have hkept : t.nodes.filter (fun n => decide (n.det.frame < frame_idx)) = [] := by
    rw [List.filter_eq_nil_iff]
    intro n hn
    have := hall2 n hn
    simp only [decide_eq_true_eq]
    omega
  have hm : t.nodes.filter (fun n => decide (n.det.frame ≥ frame_idx)) ≠ [] := by
    rw [hmoved]
    intro he
    apply hne
    simp [StoredTrack.toTrack, he]
  obtain ⟨hr, s2, -, hadd, htr2, -, -, -⟩ := split_track_ok hsound hfind hm h
  rw [hmoved] at hadd
  obtain ⟨hfresh, -, rfl⟩ := add_track_ok hadd
  simp only at hfresh
  have hkeep : ∀ u : StoredTrack,
      (if u.id = track_id then
        (⟨u.id, u.nodes.filter (fun n => decide (n.det.frame < frame_idx))⟩ : StoredTrack)
       else u).id = u.id := by
    intro u; split <;> rfl
  have hfind2 : s2.tracks_.find? (fun u => u.id == track_id)
      = some ⟨track_id, []⟩ := by
    rw [htr2, find_map_keep_id _ hkeep, hfind]
    simp [hid, hkept]
  refine ⟨hr, ?_, ?_, ?_, ?_⟩
  · rw [has_track_iff]
    refine ⟨⟨track_id, []⟩, ?_, rfl⟩
    exact List.mem_append_left _ (List.mem_of_find?_eq_some hfind2)
  · unfold get_track
    simp only
    rw [find_append_of_some _ hfind2]
    rfl
  · unfold get_track
    simp only
    rw [find_append_of_none _ (find_none_of_has_track_false hfresh)]
    simp [StoredTrack.toTrack, map_det_copy_nodes, List.map_map, Function.comp_def]
  · simp [get_num_tracks, htr2]

/-- C19 (witness): the first store of the scenario split at frame 0. -/
theorem split_track_keeps_emptied_track_witness :
    Reachable scenario_first ∧
    get_track scenario_first 1 = some ⟨1, [det_at 2 1]⟩ ∧
    split_track scenario_first 1 0 = .ok (emptied_store, true) ∧
    has_track emptied_store 1 = true ∧
    get_track emptied_store (get_new_id scenario_first)
      = some ⟨get_new_id scenario_first,
          [det_at 2 1].map (restamp (get_new_id scenario_first))⟩ :=
  have key := split_track_keeps_emptied_track scenario_first emptied_store 1 0 true
    ⟨1, [det_at 2 1]⟩ reachable_scenario_first (by rfl) (by decide) (by decide) (by rfl)
  ⟨reachable_scenario_first, by rfl, by rfl, key.2.1, key.2.2.2.1⟩

theorem load_rows_retained_eq (pc : Nat) (rows : List Row) (s : TrackContainer)
    (init : Bool) :
    load_rows pc s init (rows.map some)
      = load_rows pc s init ((retained pc rows).map some) := by
  induction rows generalizing s init with
  | nil => rfl
  | cons r rows ih =>
    by_cases hpc : r.object_type = pc
    · have hf : retained pc (r :: rows) = r :: retained pc rows := by
        unfold retained
        rw [List.filter_cons_of_pos (by simpa using hpc)]
      rw [hf]
      simp only [List.map_cons, load_rows, ih]
    · have hf : retained pc (r :: rows) = retained pc rows := by
        unfold retained
        rw [List.filter_cons_of_neg (by simpa using hpc)]
      rw [hf]
      simp only [List.map_cons, load_rows]
      rw [if_pos hpc]
      exact ih s init

theorem load_retained_eq (pc V : Nat) (rows : List Row) (s : TrackContainer) :
    load pc s (some ⟨V, rows.map some⟩) = load pc s (some ⟨V, (retained pc rows).map some⟩) := by
  unfold load
  simp only [load_rows_retained_eq pc rows]

theorem mem_retained {pc : Nat} {rows : List Row} {r : Row} (h : r ∈ retained pc rows) :
    r.object_type = pc := by
  unfold retained at h
  simpa using (List.mem_filter.1 h).2

theorem get_track_append_new (s : TrackContainer) (id : Nat) (hid : has_track s id = false)
    (i : Nat) :
    (s.tracks_ ++ [(⟨id, []⟩ : StoredTrack)]).find? (fun t => t.id == i)
      = if i = id then some ⟨id, []⟩ else s.tracks_.find? (fun t => t.id == i) := by
  by_cases hi : i = id
  · subst hi
    rw [if_pos rfl, find_append_of_none _ (find_none_of_has_track_false hid)]
    simp
  · rw [if_neg hi, List.find?_append]
    have : ([(⟨id, []⟩ : StoredTrack)]).find? (fun t => t.id == i) = none := by
      simp [List.find?_cons, Ne.symm hi]
    rw [this]
    cases s.tracks_.find? (fun t => t.id == i) <;> rfl

theorem find_some_of_has_track {s : TrackContainer} {id : Nat} (h : has_track s id = true) :
    ∃ t, s.tracks_.find? (fun t => t.id == id) = some t := by
  cases hf : s.tracks_.find? (fun t => t.id == id) with
  | some t => exact ⟨t, rfl⟩
  | none =>
    obtain ⟨t, ht, e⟩ := (has_track_iff s id).1 h
    have := List.find?_eq_none.1 hf t ht
    simp [e] at this

theorem mem_ids_iff_has_track (s : TrackContainer) (id : Nat) :
    id ∈ s.tracks_.map StoredTrack.id ↔ has_track s id = true := by
  rw [has_track_iff, List.mem_map]

theorem add_det2track_get_track {s s1 : TrackContainer} {track_id : Nat} {det : Detection}
    {r : Bool} (h : add_det2track s track_id det = .ok (s1, r))
    (ht : has_track s track_id = true) (i : Nat) :
    get_track s1 i = if i = track_id
      then some ⟨track_id, dets_of (get_track s track_id) ++ [det]⟩ else get_track s i := by
  obtain ⟨-, -, -, hs1⟩ := add_det2track_ok h
  rw [if_pos ht] at hs1
  obtain ⟨t, hfind⟩ := find_some_of_has_track ht
  obtain ⟨-, hid⟩ := find_track_some hfind
  by_cases hi : i = track_id
  · subst hi
    rw [if_pos rfl]
    unfold get_track
    rw [hs1]
    simp only
    rw [find_add_to_first_same _ _ _ hfind, hfind]
    simp [StoredTrack.toTrack, StoredTrack.add, dets_of, hid]
  · rw [if_neg hi]
    unfold get_track
    rw [hs1]
    simp only
    rw [find_add_to_first_other _ _ _ _ hi]

theorem get_track_id {s : TrackContainer} {i : Nat} {trk : Track}
    (h : get_track s i = some trk) : trk.id = i := by
  obtain ⟨t, hfind, rfl⟩ := get_track_some h
  exact (find_track_some hfind).2

/-- One retained row of `load`: the optional `add_track` of an empty track followed by
`add_det2track`. -/
theorem load_step {s sa sb : TrackContainer} {d : Detection} {added : Bool} (hs : Sound s)
    (h1 : (if has_track s d.id then Except.ok s else add_track s ⟨d.id, []⟩) = .ok sa)
    (h2 : add_det2track sa d.id d = .ok (sb, added)) :
    added = true ∧ d.frame < s.video_len_ ∧ Sound sb ∧ sb.video_len_ = s.video_len_ ∧
    (∀ i, get_track sb i = if i = d.id
      then some ⟨d.id, dets_of (get_track s d.id) ++ [d]⟩ else get_track s i) ∧
    sb.tracks_.map StoredTrack.id = note_id (s.tracks_.map StoredTrack.id) d.id ∧
    ∀ f l, get_detections s f = .ok l →
      get_detections sb f = .ok (if f = d.frame then l ++ [d] else l) := by
  -- the state after the optional `add_track`
  have hsa : Sound sa ∧ sa.video_len_ = s.video_len_ ∧ has_track sa d.id = true ∧
      (∀ f, get_detections sa f = get_detections s f) ∧
      dets_of (get_track sa d.id) = dets_of (get_track s d.id) ∧
      (∀ i, i ≠ d.id → get_track sa i = get_track s i) ∧
      sa.tracks_.map StoredTrack.id = note_id (s.tracks_.map StoredTrack.id) d.id := by
    by_cases hh : has_track s d.id = true
    · rw [if_pos hh] at h1
      simp only [Except.ok.injEq] at h1
      subst h1
      refine ⟨hs, rfl, hh, fun f => rfl, rfl, fun i _ => rfl, ?_⟩
      unfold note_id
      rw [if_pos ((mem_ids_iff_has_track _ _).2 hh)]
    · rw [if_neg hh] at h1
      have hh2 : has_track s d.id = false := by simpa using hh
      obtain ⟨sa2, e1, e2, e3, e4⟩ := add_empty_track_get_detections hs d.id hh2
      rw [h1] at e1
      simp only [Except.ok.injEq] at e1
      subst e1
      obtain ⟨-, -, hsa⟩ := add_track_ok h1
      refine ⟨sound_add_track h1 hs, e2, e3, e4, ?_, ?_, ?_⟩
      · unfold get_track
        rw [hsa]
        simp only [copy_nodes]
        rw [get_track_append_new s d.id hh2, if_pos rfl,
          find_none_of_has_track_false hh2]
        rfl
      · intro i hi
        unfold get_track
        rw [hsa]
        simp only [copy_nodes]
        rw [get_track_append_new s d.id hh2, if_neg hi]
      · rw [hsa]
        simp only [List.map_append, List.map_cons, List.map_nil]
        unfold note_id
        rw [if_neg (fun hm => hh ((mem_ids_iff_has_track _ _).1 hm))]
  obtain ⟨hsnd, hv, hhas, hget, hdets, hother, hids⟩ := hsa
  obtain ⟨hfr, -, hadd, hsb⟩ := add_det2track_ok h2
  rw [hhas] at hadd
  obtain ⟨sb2, e1, e2, e3⟩ := add_det2track_get_detections hsnd d.id d hhas hfr
  subst hadd
  rw [h2] at e1
  simp only [Except.ok.injEq, Prod.mk.injEq, and_true] at e1
  subst e1
  refine ⟨rfl, by rw [← hv]; exact hfr, sound_add_det2track h2 hsnd, by rw [e2, hv], ?_, ?_, ?_⟩
  · intro i
    rw [add_det2track_get_track h2 hhas i, hdets]
    by_cases hi : i = d.id
    · rw [if_pos hi, if_pos hi]
    · rw [if_neg hi, if_neg hi, hother i hi]
  · rw [if_pos hhas] at hsb
    rw [hsb]
    simp only [map_id_add_to_first]
    exact hids
  · intro f l hl
    exact e3 f l (by rw [hget]; exact hl)

theorem load_rows_ok (pc : Nat) (R : List Row) (hR : ∀ r ∈ R, r.object_type = pc)
    {s s1 : TrackContainer} {init b : Bool} (hs : Sound s)
    (h : load_rows pc s init (R.map some) = .ok (s1, b)) :
    b = (init || !R.isEmpty) ∧ Sound s1 ∧ s1.video_len_ = s.video_len_ ∧
    (∀ r ∈ R, r.toDetection.frame < s.video_len_) ∧
    (∀ i, get_track s1 i = if i ∈ R.map Row.id
      then some ⟨i, dets_of (get_track s i) ++
        (R.filter (fun r => decide (r.id = i))).map Row.toDetection⟩
      else get_track s i) ∧
    s1.tracks_.map StoredTrack.id
      = (R.map Row.id).foldl note_id (s.tracks_.map StoredTrack.id) ∧
    ∀ f l, get_detections s f = .ok l →
      get_detections s1 f
        = .ok (l ++ (R.map Row.toDetection).filter (fun d => decide (d.frame = f))) := by
  induction R generalizing s init with
  | nil =>
    simp only [List.map_nil, load_rows, Except.ok.injEq, Prod.mk.injEq] at h
    obtain ⟨rfl, rfl⟩ := h
    refine ⟨by simp, hs, rfl, by simp, by simp, rfl, ?_⟩
    intro f l hl
    simpa using hl
  | cons r R ih =>
    have hpc := hR r (List.mem_cons_self _ _)
    have hR2 : ∀ x ∈ R, x.object_type = pc := fun x hx => hR x (List.mem_cons_of_mem _ hx)
    simp only [List.map_cons, load_rows] at h
    rw [if_neg (by simpa using hpc)] at h
    split at h
    · cases h
    · rename_i sa h1
      split at h
      · cases h
      · rename_i sb added h2
        have hrid : r.toDetection.id = r.id := rfl
        obtain ⟨hadd, hfr, hsb, hvb, hgt, hids, hgd⟩ := load_step hs h1 h2
        subst hadd
        simp only [if_true] at h
        obtain ⟨e1, e2, e3, e4, e5, e6, e7⟩ := ih hR2 hsb h
        refine ⟨by rw [e1]; simp, e2, by rw [e3, hvb], ?_, ?_, ?_, ?_⟩
        · intro x hx
          rcases List.mem_cons.1 hx with rfl | hx
          · exact hfr
          · rw [← hvb]; exact e4 x hx
        · intro i
          rw [e5 i, hgt i, hrid]
          by_cases hi : i = r.id
          · subst hi
            rw [if_pos rfl]
            have hmem : r.id ∈ (r :: R).map Row.id := by simp
            rw [if_pos hmem, List.filter_cons_of_pos (by simp)]
            by_cases hin : r.id ∈ R.map Row.id
            · rw [if_pos hin]
              simp [dets_of]
            · rw [if_neg hin]
              have hnone : R.filter (fun x => decide (x.id = r.id)) = [] := by
                rw [List.filter_eq_nil_iff]
                intro x hx
                simp only [decide_eq_true_eq]
                intro e
                exact hin (List.mem_map.2 ⟨x, hx, e⟩)
              rw [hnone]
              simp
          · rw [if_neg hi, List.filter_cons_of_neg (by simpa using Ne.symm hi)]
            have hiff : i ∈ (r :: R).map Row.id ↔ i ∈ R.map Row.id := by
              simp only [List.map_cons, List.mem_cons]
              constructor
              · rintro (e | e)
                · exact absurd e hi
                · exact e
              · exact Or.inr
            by_cases hin : i ∈ R.map Row.id
            · rw [if_pos hin, if_pos (hiff.2 hin)]
            · rw [if_neg hin, if_neg (fun hm => hin (hiff.1 hm))]
        · rw [e6, hids, hrid]
          rfl
        · intro f l hl
          rw [e7 f _ (hgd f l hl)]
          simp only [List.map_cons]
          by_cases hfd : r.toDetection.frame = f
          · rw [if_pos hfd.symm, List.filter_cons_of_pos (by simpa using hfd)]
            simp
          · rw [if_neg (fun e => hfd e.symm), List.filter_cons_of_neg (by simpa using hfd)]

theorem fresh_header (v0 V : Nat) :
    ({ TrackContainer.fresh v0 with
        video_len_ := V,
        timeline_ := timeline_resize (TrackContainer.fresh v0).timeline_ V } : TrackContainer)
      = TrackContainer.construct V := by
  simp [TrackContainer.fresh, TrackContainer.construct, timeline_resize]

theorem toDetection_frame (x : Row) (h1 : 1 ≤ x.frame) (h2 : x.frame < SIZE_MOD) :
    x.toDetection.frame = x.frame - 1 := by
  simp only [Row.toDetection]
  have e : x.frame + SIZE_MOD - 1 = (x.frame - 1) + SIZE_MOD := by omega
  rw [e, Nat.add_mod_right]
  exact Nat.mod_eq_of_lt (by omega)

theorem toDetection_frame_zero (x : Row) (h : x.frame = 0) :
    x.toDetection.frame = SIZE_MOD - 1 := by
  simp only [Row.toDetection, h]
  unfold SIZE_MOD
  rfl

/-- C18: loading a sequence of well-formed rows gives the same result as loading the
sequence without the rows whose `object_type` differs from the pedestrian class; when the
load into a fresh store returns, it returns true and the store is determined by the
retained rows alone: the track ids are the retained ids in order of first mention, the
track of id `i` holds the detections of the retained rows with that id, in row order,
every frame bucket reads the detections of the retained rows of that frame, in row order,
and a retained row with on-disk frame `frame` is a detection at in-memory frame
`frame - 1` of the track with its id. -/
theorem load_class_filter (pc V : Nat) (rows : List Row) :
    (∀ s, load pc s (some ⟨V, rows.map some⟩)
      = load pc s (some ⟨V, (retained pc rows).map some⟩)) ∧
    ∀ v0 s1 r, load pc (TrackContainer.fresh v0) (some ⟨V, rows.map some⟩) = .ok (s1, r) →
      r = true ∧ get_video_len s1 = V ∧
      (∀ i, get_track s1 i = if i ∈ (retained pc rows).map Row.id
        then some ⟨i, ((retained pc rows).filter (fun x => decide (x.id = i))).map
          Row.toDetection⟩
        else none) ∧
      s1.tracks_.map StoredTrack.id = ((retained pc rows).map Row.id).foldl note_id [] ∧
      (∀ f, get_detections s1 f
        = .ok (((retained pc rows).map Row.toDetection).filter
            (fun d => decide (d.frame = f)))) ∧
      (∀ x ∈ retained pc rows, x.toDetection.frame < V ∧
        x.toDetection ∈ dets_of (get_track s1 x.id) ∧
        (V < SIZE_MOD → x.frame < SIZE_MOD →
          1 ≤ x.frame ∧ x.toDetection.frame = x.frame - 1)) := by
  refine ⟨fun s => load_retained_eq pc V rows s, ?_⟩
  intro v0 s1 r h
  rw [load_retained_eq] at h
  unfold load at h
  simp only [fresh_header] at h
  split at h
  · cases h
  · rename_i s2 init hrows
    split at h
    · rename_i hinit
      simp only [Except.ok.injEq, Prod.mk.injEq] at h
      obtain ⟨rfl, rfl⟩ := h
      obtain ⟨-, -, e3, e4, e5, e6, e7⟩ := load_rows_ok pc (retained pc rows)
        (fun x hx => mem_retained hx) (sound_construct V) hrows
      have hnone : ∀ i, get_track (TrackContainer.construct V) i = none := fun i => rfl
      have hfrV : ∀ x ∈ retained pc rows, x.toDetection.frame < V := e4
      have hgt : ∀ i, get_track s2 i = if i ∈ (retained pc rows).map Row.id
          then some ⟨i, ((retained pc rows).filter (fun x => decide (x.id = i))).map
            Row.toDetection⟩
          else none := by
        intro i
        rw [e5 i, hnone i]
        simp [dets_of]
      refine ⟨rfl, e3, hgt, e6, ?_, ?_⟩
      · intro f
        have := e7 f [] (get_detections_construct V f)
        simpa using this
      · intro x hx
        refine ⟨hfrV x hx, ?_, ?_⟩
        · rw [hgt x.id, if_pos (List.mem_map.2 ⟨x, hx, rfl⟩)]
          simp only [dets_of]
          exact List.mem_map.2 ⟨x, List.mem_filter.2 ⟨hx, by simp⟩, rfl⟩
        · intro hV hx2
          have hlt := hfrV x hx
          have h1 : 1 ≤ x.frame := by
            by_contra h0
            have h0' : x.frame = 0 := by omega
            rw [toDetection_frame_zero x h0'] at hlt
            omega
          exact ⟨h1, toDetection_frame x h1 hx2⟩
    · cases h

/-- C18 (witness): three rows for video length 5, the middle one of another class: the
load gives the scenario store (track 1 with detections at in-memory frames 2 and 4), and
no track 5. -/
theorem load_class_filter_witness :
    load 1 (TrackContainer.fresh 0) (some ⟨5, mixed_rows.map some⟩)
      = .ok (scenario_store, true) ∧
    retained 1 mixed_rows = [⟨3, 1, 10, 20, 30, 40, 1, 1⟩, ⟨5, 1, 10, 20, 30, 40, 1, 1⟩] ∧
    get_track scenario_store 5 = none ∧
    get_track scenario_store 1 = some ⟨1, [det_at 2 1, det_at 4 1]⟩ ∧
    get_detections scenario_store 4 = .ok [det_at 4 1] ∧
    load 1 (TrackContainer.fresh 0) (some ⟨5, mixed_rows.map some⟩)
      = load 1 (TrackContainer.fresh 0) (some ⟨5, (retained 1 mixed_rows).map some⟩) :=
  have key := (load_class_filter 1 5 mixed_rows).2 0 scenario_store true (by rfl)
  ⟨by rfl, by rfl, (key.2.2.1 5).trans (by rfl), (key.2.2.1 1).trans (by rfl),
    (key.2.2.2.2.1 4).trans (by rfl),
    (load_class_filter 1 5 mixed_rows).1 (TrackContainer.fresh 0)⟩

theorem unindex_nodes_eq_erase_frames {ts : List StoredTrack} {id : Nat} (ns : List Node) :
    ∀ {tl tl1 : List (List Nat)}, unindex_nodes ts id tl ns = .ok tl1 →
      tl1 = erase_frames (carries ts id) tl (ns.map (fun n => n.det.frame)) := by
  induction ns with
  | nil =>
    intro tl tl1 h
    simp only [unindex_nodes, Except.ok.injEq] at h
    simp [erase_frames, h]
  | cons n ns ih =>
    intro tl tl1 h
    simp only [unindex_nodes] at h
    split at h
    · split at h
      · cases h
      · rename_i b hb
        have e := erase_first_id_eq_eraseP ts (fun _ _ h => h) hb
        subst e
        simp only [List.map_cons, erase_frames]
        exact ih h
    · cases h

theorem unindex_nodes_total (ts : List StoredTrack) (id : Nat) (ns : List Node) :
    ∀ (tl : List (List Nat)), (∀ n ∈ ns, n.det.frame < tl.length) →
      (∀ f, ∀ p ∈ bucket tl f, ∃ d, deref ts p = .ok d) →
      ∃ tl1, unindex_nodes ts id tl ns = .ok tl1 := by
  induction ns with
  | nil => intro tl _ _; exact ⟨tl, rfl⟩
  | cons n ns ih =>
    intro tl hf hd
    have hn := hf n (List.mem_cons_self _ _)
    obtain ⟨b, hb⟩ := erase_first_id_total ts id (bucket tl n.det.frame) (hd _)
    simp only [unindex_nodes, if_pos hn, hb]
    apply ih
    · intro m hm
      rw [List.length_set]
      exact hf m (List.mem_cons_of_mem _ hm)
    · intro f p hp
      rw [bucket_set] at hp
      split at hp
      · exact hd _ p ((erase_first_id_sublist hb).subset hp)
      · exact hd f p hp

theorem count_frames (g : Nat) (ns : List Node) :
    (ns.map (fun n => n.det.frame)).count g
      = (ns.filter (fun n => decide (n.det.frame = g))).length := by
  have := count_frames_moved 0 g (Nat.zero_le _) ns
  rw [List.filter_eq_self.2 (fun n _ => by simp)] at this
  exact this

theorem delete_track_total {s : TrackContainer} (hsound : Sound s) (hc : Consistent s)
    (id : Nat) : ∃ s1, delete_track s id = .ok (s1, has_track s id) := by
  unfold delete_track
  cases hfind : s.tracks_.find? (fun t => t.id == id) with
  | none =>
    have : has_track s id = false := by
      rw [has_track_false_iff]
      intro t ht e
      have := List.find?_eq_none.1 hfind t ht
      simp [e] at this
    rw [this]
    exact ⟨s, rfl⟩
  | some t =>
    obtain ⟨hmem, hid⟩ := find_track_some hfind
    have ht : has_track s id = true := (has_track_iff _ _).2 ⟨t, hmem, hid⟩
    obtain ⟨tl1, htl⟩ := unindex_nodes_total s.tracks_ id t.nodes s.timeline_
      (fun n hn => by
        have := hsound.2.1.2 n (mem_owned.2 ⟨t, hmem, hn⟩)
        rw [hsound.2.1.1]; exact this)
      (fun f p hp => by
        by_cases hf : f < s.timeline_.length
        · obtain ⟨n, -, -, -, hd⟩ := consistent_deref hc hf hp
          exact ⟨_, hd⟩
        · rw [bucket_of_length_le _ _ (by omega)] at hp
          cases hp)
    simp only [htl, ht]
    exact ⟨_, rfl⟩

theorem delete_track_state {s s1 : TrackContainer} {id : Nat} {r : Bool} {t : StoredTrack}
    (hsound : Sound s) (hc : Consistent s) (htag : Tagged s)
    (hfind : s.tracks_.find? (fun t => t.id == id) = some t)
    (h : delete_track s id = .ok (s1, r)) :
    r = true ∧ s1.video_len_ = s.video_len_ ∧ s1.heap_top = s.heap_top ∧
    s1.tracks_ = s.tracks_.filter (fun u => decide (u.id ≠ id)) ∧
    s1.timeline_.length = s.timeline_.length ∧
    (∀ f, f < s.timeline_.length →
      bucket s1.timeline_ f = (bucket s.timeline_ f).filter (fun p => !carries s.tracks_ id p)) ∧
    ∀ f, f < s.timeline_.length → ∀ p ∈ bucket s.timeline_ f,
      carries s.tracks_ id p = false → deref s1.tracks_ p = .ok (peek s.tracks_ p) := by
  obtain ⟨hmem, hid⟩ := find_track_some hfind
  obtain ⟨hr, hv, htop, htr, hlen, -⟩ := delete_track_ok h
  have htr2 : s1.tracks_ = s.tracks_.filter (fun u => decide (u.id ≠ id)) := by
    rw [htr]; exact eraseP_id_eq_filter _ _ hsound.1
  have hr2 : r = true := by rw [hr]; exact (has_track_iff _ _).2 ⟨t, hmem, hid⟩
  refine ⟨hr2, hv, htop, htr2, hlen, ?_, ?_⟩
  · intro f hf
    unfold delete_track at h
    simp only [hfind] at h
    split at h
    · cases h
    · rename_i tl htl
      simp only [Except.ok.injEq, Prod.mk.injEq] at h
      obtain ⟨rfl, -⟩ := h
      simp only
      rw [unindex_nodes_eq_erase_frames _ htl, bucket_erase_frames _ _ _ _ hf]
      have hcount := countP_carries_le hsound.1 htag hc hmem hf
      rw [hid, ← count_frames] at hcount
      exact iterate_eraseP_eq_filter _ _ _ hcount
  · intro f hf p hp hq
    obtain ⟨n, hn, rfl, hnf, hd⟩ := consistent_deref hc hf hp
    rw [peek_of_deref hd]
    have hsub : (owned s1.tracks_).Sublist (owned s.tracks_) := by
      rw [htr2]; exact owned_sublist_of_sublist (List.filter_sublist _)
    apply deref_of_mem (hc.1.sublist (hsub.map _))
    obtain ⟨u, hu, hnu⟩ := mem_owned.1 hn
    rw [htr2]
    refine mem_owned.2 ⟨u, List.mem_filter.2 ⟨hu, ?_⟩, hnu⟩
    rw [carries_of_deref id hd] at hq
    simp only [decide_eq_false_iff_not] at hq
    simp only [decide_eq_true_eq]
    rw [← htag u hu n hnu]
    exact hq

theorem get_detections_value {s : TrackContainer} (hc : Consistent s)
    (hl : s.timeline_.length = s.video_len_) (f : Nat) :
    ∃ l, get_detections s f = .ok l ∧
      l = if f < s.video_len_ then (bucket s.timeline_ f).map (peek s.tracks_) else [] :=
  ⟨_, get_detections_consistent hc hl f, rfl⟩

theorem delete_track_get_detections {s s1 : TrackContainer} {id : Nat} {r : Bool}
    {t : StoredTrack} (hsound : Sound s) (hc : Consistent s) (htag : Tagged s)
    (hfind : s.tracks_.find? (fun t => t.id == id) = some t)
    (h : delete_track s id = .ok (s1, r)) (f : Nat) :
    get_detections s1 f = .ok
      ((if f < s.video_len_ then (bucket s.timeline_ f).map (peek s.tracks_) else []).filter
        (fun d => decide (d.id ≠ id))) := by
  obtain ⟨-, hv, -, -, hlen, hb, hd⟩ := delete_track_state hsound hc htag hfind h
  have hl := hsound.2.1.1
  unfold get_detections
  by_cases hf : f < s.video_len_
  · have c1 : ¬ f ≥ s1.video_len_ := by omega
    have c2 : f < s1.timeline_.length := by omega
    have hfl : f < s.timeline_.length := by omega
    simp only [if_neg c1, if_pos c2, if_pos hf]
    rw [hb f hfl, deref_all_of (peek s.tracks_)]
    · congr 1
      rw [List.filter_map]
      congr 1
      apply List.filter_congr
      intro p hp
      obtain ⟨n, -, -, -, hd2⟩ := consistent_deref hc hfl hp
      simp [Function.comp, carries_of_deref id hd2, peek_of_deref hd2]
    · intro p hp
      obtain ⟨hp1, hp2⟩ := List.mem_filter.1 hp
      exact hd f hfl p hp1 (by simpa using hp2)
  · have c1 : f ≥ s1.video_len_ := by omega
    simp [if_pos c1, hf]

theorem find_filter_ne (ts : List StoredTrack) {id j : Nat} (hj : j ≠ id) :
    (ts.filter (fun u => decide (u.id ≠ id))).find? (fun t => t.id == j)
      = ts.find? (fun t => t.id == j) := by
  induction ts with
  | nil => rfl
  | cons u ts ih =>
    by_cases hu : u.id = id
    · rw [List.filter_cons_of_neg (by simpa using hu)]
      have hne : (u.id == j) = false := by
        rw [beq_eq_false_iff_ne, hu]; exact fun e => hj e.symm
      simp only [List.find?_cons, hne]
      exact ih
    · rw [List.filter_cons_of_pos (by simpa using hu)]
      simp only [List.find?_cons]
      rw [ih]

theorem reachable_shared_frame_store : Reachable shared_frame_store :=
  Reachable.create_new_track (i := 3) (det_at 0 0)
    (Reachable.add_det2track (r := true) 1 (det_at 0 1)
      (Reachable.create_new_track (i := 2) (det_at 0 0)
        (Reachable.create_new_track (i := 1) (det_at 0 0) (Reachable.construct 1) rfl) rfl)
      rfl) rfl

theorem consistent_shared_frame_store : Consistent shared_frame_store := by
  refine ⟨by decide, by decide, ?_⟩
  decide

theorem tagged_shared_frame_store : Tagged shared_frame_store := by
  unfold Tagged
  decide

/-- C16: for a store whose frame index is consistent and whose detections all carry their
track's id, `delete_track(id)` returns, and it returns whether the track existed. When it
returns true, track `id` is gone, every other track reads as before, and for every frame
`f`, `get_detections(f)` is its previous value with the detections of id `id` filtered out
(the others keep their relative order). When it returns false the store is unchanged. -/
theorem delete_track_frame (s : TrackContainer) (id : Nat) (hs : Reachable s)
    (hc : Consistent s) (htag : Tagged s) :
    (∃ s1, delete_track s id = .ok (s1, has_track s id)) ∧
    ∀ s1 r, delete_track s id = .ok (s1, r) →
      r = has_track s id ∧ (r = false → s1 = s) ∧
      (r = true →
        has_track s1 id = false ∧
        (∀ j, j ≠ id → get_track s1 j = get_track s j) ∧
        get_video_len s1 = get_video_len s ∧
        get_num_tracks s1 + 1 = get_num_tracks s ∧
        ∀ f, ∃ l, get_detections s f = .ok l ∧
          get_detections s1 f = .ok (l.filter (fun d => decide (d.id ≠ id)))) := by
  have hsound := reachable_sound hs
  refine ⟨delete_track_total hsound hc id, ?_⟩
  intro s1 r h
  have hok := delete_track_ok h
  refine ⟨hok.1, ?_, ?_⟩
  · intro hr
    rw [hok.1] at hr
    have hnone := find_none_of_has_track_false hr
    unfold delete_track at h
    simp only [hnone, Except.ok.injEq, Prod.mk.injEq] at h
    exact h.1.symm
  · intro hr
    rw [hok.1] at hr
    obtain ⟨t, hfind⟩ := find_some_of_has_track hr
    obtain ⟨hmem, hid⟩ := find_track_some hfind
    obtain ⟨-, hv, -, htr, -, -, -⟩ := delete_track_state hsound hc htag hfind h
    refine ⟨?_, ?_, hv, ?_, ?_⟩
    · rw [has_track_false_iff]
      intro u hu
      rw [htr] at hu
      simpa using (List.mem_filter.1 hu).2
    · intro j hj
      unfold get_track
      rw [htr, find_filter_ne _ hj]
    · simp only [get_num_tracks]
      rw [hok.2.2.2.1, List.length_eraseP_of_mem hmem (by simp [hid])]
      have := List.length_pos_of_mem hmem
      omega
    · intro f
      exact ⟨_, get_detections_consistent hc hsound.2.1.1 f,
        delete_track_get_detections hsound hc htag hfind h f⟩

/-- C16 (witness): tracks 1, 2 and 3 share the bucket of frame 0, which reads ids
1, 2, 1, 3; `delete_track(1)` leaves ids 2, 3 in that order and tracks 2 and 3 as they
were; `delete_track(9)` returns false and leaves the store as it was. -/
theorem delete_track_frame_witness :
    Reachable shared_frame_store ∧ Consistent shared_frame_store ∧
    Tagged shared_frame_store ∧
    get_detections shared_frame_store 0
      = .ok [det_at 0 1, det_at 0 2, det_at 0 1, det_at 0 3] ∧
    delete_track shared_frame_store 1 = .ok (shared_frame_deleted, true) ∧
    get_detections shared_frame_deleted 0 = .ok [det_at 0 2, det_at 0 3] ∧
    get_track shared_frame_deleted 2 = get_track shared_frame_store 2 ∧
    get_track shared_frame_deleted 3 = get_track shared_frame_store 3 ∧
    has_track shared_frame_deleted 1 = false ∧
    delete_track shared_frame_store 9 = .ok (shared_frame_store, false) ∧
    (false = false → shared_frame_store = shared_frame_store) :=
  have key := (delete_track_frame shared_frame_store 1 reachable_shared_frame_store
    consistent_shared_frame_store tagged_shared_frame_store).2 shared_frame_deleted true
    (by rfl)
  have key9 := (delete_track_frame shared_frame_store 9 reachable_shared_frame_store
    consistent_shared_frame_store tagged_shared_frame_store).2 shared_frame_store false
    (by rfl)
  ⟨reachable_shared_frame_store, consistent_shared_frame_store, tagged_shared_frame_store,
    by rfl, by rfl, by rfl, (key.2.2 rfl).2.1 2 (by decide), (key.2.2 rfl).2.1 3 (by decide),
    (key.2.2 rfl).1, by rfl, key9.2.1⟩

theorem add_track_get_detections {s s1 : TrackContainer} {track : Track}
    (hl : s.timeline_.length = s.video_len_) (ha : AddrFresh s)
    (h : add_track s track = .ok s1) {f : Nat} {l : List Detection}
    (hg : get_detections s f = .ok l) :
    get_detections s1 f = .ok (l ++ track.dets.filter (fun d => decide (d.frame = f))) := by
  obtain ⟨-, hb, rfl⟩ := add_track_ok h
  unfold get_detections at hg ⊢
  simp only [length_push_all]
  by_cases hf : f ≥ s.video_len_
  · rw [if_pos hf] at hg ⊢
    simp only [Except.ok.injEq] at hg
    subst hg
    have : track.dets.filter (fun d => decide (d.frame = f)) = [] := by
      rw [List.filter_eq_nil_iff]
      intro d hd
      have := hb d hd
      simp only [decide_eq_true_eq]
      omega
    rw [this]; rfl
  · have c2 : f < s.timeline_.length := by omega
    rw [if_neg hf, if_pos c2] at hg ⊢
    rw [bucket_push_all _ _ _ c2]
    apply deref_all_append
    · rw [← hg]
      apply deref_all_congr
      intro p hp
      apply deref_append_old
      intro m hm
      have h1 := (mem_copy_nodes hm).1
      have h2 := ha.2 f p hp
      omega
    · rw [deref_all_nodes]
      · congr 1
        rw [filter_det_map (fun d => decide (d.frame = f)), map_det_copy_nodes]
      · intro m hm
        have hm2 := (List.mem_filter.1 hm).1
        rw [deref_append_new]
        · apply deref_of_mem
          · simp only [owned, List.append_nil]
            exact nodup_addr_copy_nodes _ _
          · simp only [owned, List.append_nil]
            exact hm2
        · intro n hn
          have h1 := (mem_copy_nodes hm2).1
          have h2 := ha.1 n hn
          omega

theorem restamp_tagged (id : Nat) (ds : List Detection) (h : ∀ d ∈ ds, d.id = id) :
    ds.map (restamp id) = ds := by
  induction ds with
  | nil => rfl
  | cons d ds ih =>
    have hd := h d (List.mem_cons_self _ _)
    rw [List.map_cons, ih (fun e he => h e (List.mem_cons_of_mem _ he))]
    congr 1
    cases d
    simp only [restamp]
    simp only at hd
    rw [hd]

theorem find_append_single_ne (ts : List StoredTrack) (u : StoredTrack) {j : Nat}
    (hj : u.id ≠ j) :
    (ts ++ [u]).find? (fun t => t.id == j) = ts.find? (fun t => t.id == j) := by
  induction ts with
  | nil =>
    have hne : (u.id == j) = false := by rw [beq_eq_false_iff_ne]; exact hj
    simp [List.find?_cons, hne]
  | cons t ts ih =>
    simp only [List.cons_append, List.find?_cons]
    rw [ih]

theorem unite_self_state {s : TrackContainer} {id : Nat} {t : StoredTrack}
    (hsound : Sound s) (hc : Consistent s) (htag : Tagged s)
    (hfind : s.tracks_.find? (fun t => t.id == id) = some t) :
    ∃ s2 s3, delete_track s id = .ok (s2, true) ∧
      add_track s2 ⟨id, t.nodes.map Node.det ++ t.nodes.map Node.det⟩ = .ok s3 ∧
      unite_tracks s id id = .ok (s3, true) := by
  obtain ⟨hmem, hid⟩ := find_track_some hfind
  have ht : has_track s id = true := (has_track_iff _ _).2 ⟨t, hmem, hid⟩
  obtain ⟨s2, hdel⟩ := delete_track_total hsound hc id
  rw [ht] at hdel
  obtain ⟨-, hv, -, htr, hlen, -, -⟩ := delete_track_state hsound hc htag hfind hdel
  have hno : has_track s2 id = false := by
    rw [has_track_false_iff]
    intro u hu
    rw [htr] at hu
    simpa using (List.mem_filter.1 hu).2
  have hdel2 : delete_track s2 id = .ok (s2, false) := by
    unfold delete_track
    rw [find_none_of_has_track_false hno]
  have hb : ∀ d ∈ t.nodes.map Node.det ++ t.nodes.map Node.det, d.frame < s2.video_len_ := by
    intro d hd
    have hd2 : d ∈ t.nodes.map Node.det := by
      rcases List.mem_append.1 hd with h | h <;> exact h
    obtain ⟨n, hn, rfl⟩ := List.mem_map.1 hd2
    rw [hv]
    exact hsound.2.1.2 n (mem_owned.2 ⟨t, hmem, hn⟩)
  have hadd := add_track_of s2 ⟨id, t.nodes.map Node.det ++ t.nodes.map Node.det⟩ hno hb
    (by rw [hlen, hv]; exact hsound.2.1.1)
  refine ⟨s2, _, hdel, hadd, ?_⟩
  have hre : (t.nodes.map Node.det).map (restamp id) = t.nodes.map Node.det := by
    apply restamp_tagged
    intro d hd
    obtain ⟨n, hn, rfl⟩ := List.mem_map.1 hd
    rw [htag t hmem n hn, hid]
  unfold unite_tracks get_track
  simp only [hfind, Option.map_some', StoredTrack.toTrack, hid, min_self, max_self, hre,
    hdel, hdel2, hadd]

/-- For every existing track `id` with detections `trk.dets`, a `unite_tracks(id, id)`
that returns, returns true, keeps `get_num_tracks`, leaves every other track as it was and
leaves a track `id` holding the former sequence (stamped with `id`) followed by a second
copy of it, twice as many detections. When moreover the frame index is consistent and the
detections all carry their track's id, the stamping changes nothing, the call does return,
and `get_detections(f)` is its previous value without the detections of id `id`, followed
by the track's former detections at `f` twice, so that every detection the track had at
`f` occurs twice as often as it occurred in the track. -/
theorem unite_tracks_self (s : TrackContainer) (id : Nat) (trk : Track)
    (hs : Reachable s) (ht : get_track s id = some trk) :
    (∀ s1 r, unite_tracks s id id = .ok (s1, r) →
      r = true ∧ get_num_tracks s1 = get_num_tracks s ∧
      get_track s1 id
        = some ⟨id, trk.dets.map (restamp id) ++ trk.dets.map (restamp id)⟩ ∧
      (trk.dets.map (restamp id) ++ trk.dets.map (restamp id)).length
        = 2 * trk.dets.length ∧
      (∀ j, j ≠ id → get_track s1 j = get_track s j)) ∧
    (Consistent s → Tagged s →
      trk.dets.map (restamp id) = trk.dets ∧
      (∃ s1, unite_tracks s id id = .ok (s1, true)) ∧
      (∀ f, ∃ l, get_detections s f = .ok l) ∧
      ∀ s1 r, unite_tracks s id id = .ok (s1, r) → ∀ f l, get_detections s f = .ok l →
        get_detections s1 f = .ok (l.filter (fun d => decide (d.id ≠ id)) ++
          (trk.dets.filter (fun d => decide (d.frame = f)) ++
           trk.dets.filter (fun d => decide (d.frame = f)))) ∧
        ∀ d ∈ trk.dets, d.frame = f →
          (l.filter (fun d => decide (d.id ≠ id)) ++
            (trk.dets.filter (fun d => decide (d.frame = f)) ++
             trk.dets.filter (fun d => decide (d.frame = f)))).count d
            = 2 * trk.dets.count d) := by
  have hsound := reachable_sound hs
  obtain ⟨t, hfind, rfl⟩ := get_track_some ht
  obtain ⟨hmem, hid⟩ := find_track_some hfind
  constructor
  · intro s1 r h
    obtain ⟨hr, s2, r2, s3, r3, -, -, hadd, htr3⟩ := unite_tracks_ok hsound hfind hfind h
    simp only [min_self] at hadd
    have htr3b : s3.tracks_ = s.tracks_.filter (fun u => decide (u.id ≠ id)) := by
      rw [htr3]
      apply List.filter_congr
      intro u _
      simp
    obtain ⟨hfresh, -, hs3⟩ := add_track_ok hadd
    simp only at hfresh
    refine ⟨hr, ?_, ?_, ?_, ?_⟩
    · rw [hs3]
      simp only [get_num_tracks, List.length_append, List.length_singleton]
      rw [htr3b, ← eraseP_id_eq_filter _ _ hsound.1,
        List.length_eraseP_of_mem hmem (by simp [hid])]
      have := List.length_pos_of_mem hmem
      omega
    · rw [hs3]
      unfold get_track
      simp only
      rw [find_append_of_none _ (find_none_of_has_track_false hfresh)]
      simp [StoredTrack.toTrack, map_det_copy_nodes]
    · simp only [List.length_append, List.length_map]; omega
    · intro j hj
      rw [hs3]
      unfold get_track
      simp only
      rw [find_append_single_ne _ _ (fun e => hj e.symm), htr3b, find_filter_ne _ hj]
  · intro hc htag
    obtain ⟨s2, s3, hdel, hadd, hcall⟩ := unite_self_state hsound hc htag hfind
    have hre : t.toTrack.dets.map (restamp id) = t.toTrack.dets := by
      apply restamp_tagged
      intro d hd
      obtain ⟨n, hn, rfl⟩ := List.mem_map.1 hd
      rw [htag t hmem n hn, hid]
    refine ⟨hre, ⟨s3, hcall⟩, fun f => ⟨_, get_detections_consistent hc hsound.2.1.1 f⟩, ?_⟩
    intro s1 r h f l hl
    rw [hcall] at h
    simp only [Except.ok.injEq, Prod.mk.injEq] at h
    obtain ⟨rfl, rfl⟩ := h
    have hs2 : Sound s2 := sound_delete_track hdel hsound
    rw [get_detections_consistent hc hsound.2.1.1 f] at hl
    simp only [Except.ok.injEq] at hl
    subst hl
    constructor
    · have := add_track_get_detections hs2.2.1.1 hs2.2.2 hadd
        (delete_track_get_detections hsound hc htag hfind hdel f)
      simpa [StoredTrack.toTrack, List.filter_append] using this
    · intro d hd hdf
      have hdid : d.id = id := by
        obtain ⟨n, hn, rfl⟩ := List.mem_map.1 hd
        rw [htag t hmem n hn, hid]
      have h0 : List.count d ((if f < s.video_len_ then
          (bucket s.timeline_ f).map (peek s.tracks_) else []).filter
            (fun d => decide (d.id ≠ id))) = 0 := by
        rw [List.count_eq_zero]
        intro hm
        have := (List.mem_filter.1 hm).2
        simp only [decide_eq_true_eq] at this
        exact this hdid
      rw [List.count_append, List.count_append, h0,
        List.count_filter (by simpa using hdf)]
      omega

/-- Example: in the store where track 1 holds two detections at frame 0 and shares
that bucket with tracks 2 and 3, `unite_tracks(1, 1)` returns true, the store still has
three tracks, track 1 holds four detections, and `get_detections(0)` reads the detections
of tracks 2 and 3 followed by the four of track 1. -/
theorem unite_tracks_self_witness :
    Reachable shared_frame_store ∧ Consistent shared_frame_store ∧
    Tagged shared_frame_store ∧
    get_track shared_frame_store 1 = some ⟨1, [det_at 0 1, det_at 0 1]⟩ ∧
    unite_tracks shared_frame_store 1 1 = .ok (shared_frame_doubled, true) ∧
    get_num_tracks shared_frame_doubled = get_num_tracks shared_frame_store ∧
    get_track shared_frame_doubled 1
      = some ⟨1, [det_at 0 1, det_at 0 1] ++ [det_at 0 1, det_at 0 1]⟩ ∧
    get_track shared_frame_doubled 2 = get_track shared_frame_store 2 ∧
    get_detections shared_frame_store 0
      = .ok [det_at 0 1, det_at 0 2, det_at 0 1, det_at 0 3] ∧
    get_detections shared_frame_doubled 0
      = .ok [det_at 0 2, det_at 0 3, det_at 0 1, det_at 0 1, det_at 0 1, det_at 0 1] ∧
    [det_at 0 2, det_at 0 3, det_at 0 1, det_at 0 1, det_at 0 1, det_at 0 1].count
        (det_at 0 1) = 2 * [det_at 0 1, det_at 0 1].count (det_at 0 1) :=
  have key := unite_tracks_self shared_frame_store 1 ⟨1, [det_at 0 1, det_at 0 1]⟩
    reachable_shared_frame_store (by rfl)
  have key1 := key.1 shared_frame_doubled true (by rfl)
  have key2 := (key.2 consistent_shared_frame_store tagged_shared_frame_store).2.2.2
    shared_frame_doubled true (by rfl) 0 [det_at 0 1, det_at 0 2, det_at 0 1, det_at 0 3]
    (by rfl)
  ⟨reachable_shared_frame_store, consistent_shared_frame_store, tagged_shared_frame_store,
    by rfl, by rfl, key1.2.1, key1.2.2.1.trans (by rfl), key1.2.2.2.2 2 (by decide), by rfl,
    key2.1.trans (by rfl), key2.2 (det_at 0 1) (by decide) (by rfl)⟩

theorem mem_bucket_timeline_resize {tl : List (List Nat)} {n f p : Nat}
    (h : p ∈ bucket (timeline_resize tl n) f) : p ∈ bucket tl f := by
  unfold bucket timeline_resize at h
  unfold bucket
  by_cases hf : f < (tl.take n).length
  · rw [List.getElem?_append_left hf] at h
    have hfn : f < n := by
      rw [List.length_take] at hf
      omega
    rw [List.getElem?_take_of_lt hfn] at h
    exact h
  · rw [List.getElem?_append_right (by omega), List.getElem?_replicate] at h
    split at h <;> simp at h

theorem length_timeline_resize (tl : List (List Nat)) (n : Nat) :
    (timeline_resize tl n).length = n := by
  simp only [timeline_resize, List.length_append, List.length_take, List.length_replicate]
  omega

theorem sound_load_header {s : TrackContainer} (V : Nat) (hs : Sound s)
    (hb : ∀ n ∈ owned s.tracks_, n.det.frame < V) :
    Sound { s with video_len_ := V, timeline_ := timeline_resize s.timeline_ V } := by
  obtain ⟨hu, -, ha1, ha2⟩ := hs
  refine ⟨hu, ⟨length_timeline_resize _ _, hb⟩, ha1, ?_⟩
  intro f p hp
  exact ha2 f p (mem_bucket_timeline_resize hp)

theorem sound_load_rows (pc : Nat) (rows : List (Option Row)) :
    ∀ {s s1 : TrackContainer} {init b : Bool}, Sound s →
      load_rows pc s init rows = .ok (s1, b) → Sound s1 := by
  induction rows with
  | nil =>
    intro s s1 init b hs h
    simp only [load_rows, Except.ok.injEq, Prod.mk.injEq] at h
    rw [← h.1]; exact hs
  | cons r rows ih =>
    intro s s1 init b hs h
    cases r with
    | none =>
      simp only [load_rows, Except.ok.injEq, Prod.mk.injEq] at h
      rw [← h.1]; exact hs
    | some r =>
      simp only [load_rows] at h
      split at h
      · exact ih hs h
      · split at h
        · cases h
        · rename_i sa hsa
          have hsa2 : Sound sa := by
            split at hsa
            · simp only [Except.ok.injEq] at hsa
              rw [← hsa]; exact hs
            · exact sound_add_track hsa hs
          split at h
          · cases h
          · rename_i sb added hsb
            have hsb2 : Sound sb := sound_add_det2track hsb hsa2
            split at h
            · exact ih hsb2 h
            · cases h

theorem sound_load {pc : Nat} {s s1 : TrackContainer} {file : Option TrackFile} {r : Bool}
    (hs : Sound s)
    (hb : ∀ f, file = some f → ∀ n ∈ owned s.tracks_, n.det.frame < f.video_length)
    (h : load pc s file = .ok (s1, r)) : Sound s1 := by
  cases file with
  | none =>
    simp only [load, Except.ok.injEq, Prod.mk.injEq] at h
    rw [← h.1]; exact hs
  | some f =>
    simp only [load] at h
    split at h
    · cases h
    · rename_i s2 init hrows
      have := sound_load_rows pc f.rows (sound_load_header f.video_length hs (hb f rfl)) hrows
      split at h
      · simp only [Except.ok.injEq, Prod.mk.injEq] at h
        rw [← h.1]; exact this
      · cases h

theorem sound_load_fresh {pc v0 : Nat} {s1 : TrackContainer} {file : Option TrackFile}
    {r : Bool} (h : load pc (TrackContainer.fresh v0) file = .ok (s1, r)) (hr : r = true) :
    Sound s1 := by
  cases file with
  | none =>
    simp only [load, Except.ok.injEq, Prod.mk.injEq] at h
    rw [hr] at h
    cases h.2
  | some f =>
    simp only [load, fresh_header] at h
    split at h
    · cases h
    · rename_i s2 init hrows
      have := sound_load_rows pc f.rows (sound_construct f.video_length) hrows
      split at h
      · simp only [Except.ok.injEq, Prod.mk.injEq] at h
        rw [← h.1]; exact this
      · cases h

theorem reachable_loaded_sound {pc : Nat} {s : TrackContainer} (h : ReachableLoaded pc s) :
    Sound s := by
  induction h with
  | construct n => exact sound_construct n
  | construct_file v0 file h => exact sound_load_fresh h rfl
  | create_new_track det _ h ih => exact sound_create_new_track h ih
  | add_track track _ h ih => exact sound_add_track h ih
  | add_det2track track_id det _ h ih => exact sound_add_det2track h ih
  | delete_detection track_id frame_idx _ h ih => exact sound_delete_detection h ih
  | delete_track id _ h ih => exact sound_delete_track h ih
  | split_track track_id frame_idx _ h ih => exact sound_split_track h ih
  | unite_tracks id_A id_B _ h ih => exact sound_unite_tracks h ih
  | load file _ hb h ih => exact sound_load ih hb h

/-- C17 (counterexample): `load` on a store that holds a detection at frame 4 with a file
of video length 2 returns true, and afterwards track 1 owns a detection whose frame is
not below the video length. -/
theorem load_breaks_frame_bound :
    create_new_track (TrackContainer.construct 5) (det_at 4 0) = .ok (late_store, 1) ∧
    load 1 late_store (some short_file) = .ok (late_store_loaded, true) ∧
    get_video_len late_store_loaded = 2 ∧
    get_track late_store_loaded 1 = some ⟨1, [det_at 4 1]⟩ ∧
    ¬ (det_at 4 1).frame < get_video_len late_store_loaded ∧
    ¬ Bounded late_store_loaded := by
  refine ⟨by rfl, by rfl, by rfl, by rfl, by decide, ?_⟩
  intro hb
  have := hb.2 ⟨0, det_at 4 1⟩ (by decide)
  revert this
  decide

/-- C17 (amended): in every state reached from either constructor through
`create_new_track`, `add_track`, `add_det2track`, `delete_detection`, `delete_track`,
`split_track`, `unite_tracks` and `load`, where `load` is applied only to a store none of
whose detections has a frame at or beyond the file's video length, every detection owned
by a track has `frame < video_length`, also as `get_track` hands it out, and the timeline
has exactly `video_length` buckets. -/
theorem frame_bound_invariant (pc : Nat) (s : TrackContainer) (h : ReachableLoaded pc s) :
    (∀ n ∈ owned s.tracks_, n.det.frame < get_video_len s) ∧
    (∀ i trk, get_track s i = some trk → ∀ d ∈ trk.dets, d.frame < get_video_len s) ∧
    s.timeline_.length = get_video_len s := by
  obtain ⟨-, ⟨hl, hb⟩, -⟩ := reachable_loaded_sound h
  refine ⟨hb, ?_, hl⟩
  intro i trk ht d hd
  obtain ⟨t, hfind, rfl⟩ := get_track_some ht
  obtain ⟨hmem, -⟩ := find_track_some hfind
  obtain ⟨n, hn, rfl⟩ := List.mem_map.1 hd
  exact hb n (mem_owned.2 ⟨t, hmem, hn⟩)

/-- C17 (witness): the scenario store built by the file constructor from three rows, then
`load` of a file of video length 6 on top of it: the detections lie at frames 2, 4 and 5,
below the video length 6, and the timeline has 6 buckets. -/
theorem frame_bound_invariant_witness :
    load 1 (TrackContainer.fresh 0) (some ⟨5, mixed_rows.map some⟩)
      = .ok (scenario_store, true) ∧
    load 1 scenario_store (some longer_file) = .ok (scenario_extended, true) ∧
    ReachableLoaded 1 scenario_extended ∧
    ((∀ n ∈ owned scenario_extended.tracks_, n.det.frame < get_video_len scenario_extended) ∧
      (∀ i trk, get_track scenario_extended i = some trk →
        ∀ d ∈ trk.dets, d.frame < get_video_len scenario_extended) ∧
      scenario_extended.timeline_.length = get_video_len scenario_extended) :=
  have hr : ReachableLoaded 1 scenario_extended :=
    ReachableLoaded.load (r := true) (some longer_file)
      (ReachableLoaded.construct_file 0 (some ⟨5, mixed_rows.map some⟩) (by rfl))
      (by
        intro f hf
        cases hf
        decide)
      (by rfl)
  ⟨by rfl, by rfl, hr, frame_bound_invariant 1 scenario_extended hr⟩

theorem reachable_crowded_store : Reachable crowded_store :=
  Reachable.add_det2track (r := true) 3 (det_conf 1 4)
    (Reachable.add_track ⟨3, []⟩
      (Reachable.create_new_track (i := 2) (det_conf 0 2)
        (Reachable.create_new_track (i := 1) (det_conf 0 1) (Reachable.construct 1) rfl)
        rfl)
      rfl) rfl

theorem consistent_crowded_store : Consistent crowded_store := by
  refine ⟨by decide, by decide, ?_⟩
  decide

/-- C15: evaluation at the failing input. The store is reachable and its frame index is
consistent; tracks 1 and 2 each hold exactly one detection at frame 0, and track 3 holds a
detection at frame 0 whose id field is 1. `unite_tracks(1, 2)` returns true and the merged
track 1 holds two detections at frame 0, but `get_detections(0)` then reads three
detections with id 1, not two: the one of track 3 comes first. -/
theorem unite_tracks_counts_foreign_detection :
    Reachable crowded_store ∧ Consistent crowded_store ∧
    get_track crowded_store 1 = some ⟨1, [det_conf 1 1]⟩ ∧
    get_track crowded_store 2 = some ⟨2, [det_conf 2 2]⟩ ∧
    unite_tracks crowded_store 1 2 = .ok (crowded_united, true) ∧
    get_track crowded_united 1 = some ⟨1, [det_conf 1 1, det_conf 1 2]⟩ ∧
    get_track crowded_united 3 = some ⟨3, [det_conf 1 4]⟩ ∧
    get_detections crowded_united 0 = .ok [det_conf 1 4, det_conf 1 1, det_conf 1 2] ∧
    ([det_conf 1 4, det_conf 1 1, det_conf 1 2].filter (fun d => decide (d.id = 1))).length
      = 3 :=
  ⟨reachable_crowded_store, consistent_crowded_store, by rfl, by rfl, by rfl, by rfl, by rfl,
    by rfl, by rfl⟩

theorem consistent_delete_track {s s1 : TrackContainer} {id : Nat} {r : Bool}
    {t : StoredTrack} (hsound : Sound s) (hc : Consistent s) (htag : Tagged s)
    (hfind : s.tracks_.find? (fun t => t.id == id) = some t)
    (h : delete_track s id = .ok (s1, r)) : Consistent s1 ∧ Tagged s1 := by
  obtain ⟨-, hv, -, htr, hlen, hb, -⟩ := delete_track_state hsound hc htag hfind h
  have hsub : (owned s1.tracks_).Sublist (owned s.tracks_) := by
    rw [htr]; exact owned_sublist_of_sublist (List.filter_sublist _)
  have hkeep : ∀ n ∈ owned s.tracks_, n.det.id ≠ id → n ∈ owned s1.tracks_ := by
    intro n hn hne
    obtain ⟨u, hu, hnu⟩ := mem_owned.1 hn
    rw [htr]
    refine mem_owned.2 ⟨u, List.mem_filter.2 ⟨hu, ?_⟩, hnu⟩
    simp only [decide_eq_true_eq]
    rw [← htag u hu n hnu]
    exact hne
  have hne1 : ∀ n ∈ owned s1.tracks_, n.det.id ≠ id := by
    intro n hn
    rw [htr] at hn
    obtain ⟨u, hu, hnu⟩ := mem_owned.1 hn
    obtain ⟨hu1, hu2⟩ := List.mem_filter.1 hu
    simp only [decide_eq_true_eq] at hu2
    rw [htag u hu1 n hnu]
    exact hu2
  refine ⟨⟨hc.1.sublist (hsub.map _), ?_, ?_⟩, ?_⟩
  · intro n hn
    have hn0 := hsub.subset hn
    have hfl : n.det.frame < s.timeline_.length := by
      rw [hsound.2.1.1]; exact hsound.2.1.2 n hn0
    rw [hb _ hfl, List.count_filter]
    · exact hc.2.1 n hn0
    · rw [carries_of_deref id (deref_of_mem hc.1 hn0)]
      simpa using hne1 n hn
  · intro f hf p hp
    rw [hlen] at hf
    rw [hb f hf] at hp
    obtain ⟨hp1, hp2⟩ := List.mem_filter.1 hp
    obtain ⟨n, hn, rfl, hnf, hd⟩ := consistent_deref hc hf hp1
    rw [carries_of_deref id hd] at hp2
    refine ⟨n, hkeep n hn (by simpa using hp2), rfl, hnf⟩
  · intro u hu n hn
    rw [htr] at hu
    exact htag u (List.mem_filter.1 hu).1 n hn

theorem unite_tracks_get_detections {s s1 : TrackContainer} {id_A id_B : Nat} {r : Bool}
    {tA tB : StoredTrack} (hsound : Sound s) (hc : Consistent s) (htag : Tagged s)
    (hne : id_A ≠ id_B)
    (hA : s.tracks_.find? (fun t => t.id == id_A) = some tA)
    (hB : s.tracks_.find? (fun t => t.id == id_B) = some tB)
    (h : unite_tracks s id_A id_B = .ok (s1, r)) (f : Nat) {l : List Detection}
    (hl : get_detections s f = .ok l) :
    get_detections s1 f = .ok
      ((l.filter (fun d => decide (d.id ≠ min id_A id_B))).filter
          (fun d => decide (d.id ≠ max id_A id_B)) ++
        ((tA.nodes.map Node.det).map (restamp (min id_A id_B)) ++
          (tB.nodes.map Node.det).map (restamp (min id_A id_B))).filter
            (fun d => decide (d.frame = f))) := by
  obtain ⟨-, s2, r2, s3, r3, hd1, hd2, hadd, -⟩ := unite_tracks_ok hsound hA hB h
  have hminmax : max id_A id_B ≠ min id_A id_B := by
    rcases le_total id_A id_B with hle | hle
    · rw [min_eq_left hle, max_eq_right hle]; exact fun e => hne e.symm
    · rw [min_eq_right hle, max_eq_left hle]; exact hne
  obtain ⟨tmin, hfmin⟩ : ∃ u, s.tracks_.find? (fun t => t.id == min id_A id_B) = some u := by
    rcases le_total id_A id_B with hle | hle
    · rw [min_eq_left hle]; exact ⟨_, hA⟩
    · rw [min_eq_right hle]; exact ⟨_, hB⟩
  obtain ⟨tmax, hfmax⟩ : ∃ u, s.tracks_.find? (fun t => t.id == max id_A id_B) = some u := by
    rcases le_total id_A id_B with hle | hle
    · rw [max_eq_right hle]; exact ⟨_, hB⟩
    · rw [max_eq_left hle]; exact ⟨_, hA⟩
  have hs2 : Sound s2 := sound_delete_track hd1 hsound
  have hs3 : Sound s3 := sound_delete_track hd2 hs2
  obtain ⟨hc2, htag2⟩ := consistent_delete_track hsound hc htag hfmin hd1
  have htr2 := (delete_track_state hsound hc htag hfmin hd1).2.2.2.1
  have hfmax2 : s2.tracks_.find? (fun t => t.id == max id_A id_B) = some tmax := by
    rw [htr2, find_filter_ne _ hminmax]; exact hfmax
  have h1 := delete_track_get_detections hsound hc htag hfmin hd1 f
  rw [get_detections_consistent hc hsound.2.1.1 f] at hl
  simp only [Except.ok.injEq] at hl
  rw [hl] at h1
  have h2 := delete_track_get_detections hs2 hc2 htag2 hfmax2 hd2 f
  have h1b := get_detections_consistent hc2 hs2.2.1.1 f
  rw [h1] at h1b
  simp only [Except.ok.injEq] at h1b
  rw [← h1b] at h2
  exact add_track_get_detections hs3.2.1.1 hs3.2.2 hadd h2

/-- When the frame index is consistent and the detections all carry their track's id, and
tracks A and B each hold exactly one detection at frame `f`, then after
`unite_tracks(A, B)` the detections with id `min(A, B)` that `get_detections(f)` reads
are exactly the two re-stamped ones, A's first. -/
theorem unite_tracks_no_dedup {s s1 : TrackContainer} {id_A id_B f : Nat} {r : Bool}
    {trkA trkB : Track} {a b : Detection} (hs : Reachable s) (hc : Consistent s)
    (htag : Tagged s) (hne : id_A ≠ id_B)
    (hA : get_track s id_A = some trkA) (hB : get_track s id_B = some trkB)
    (ha : trkA.dets.filter (fun d => decide (d.frame = f)) = [a])
    (hb : trkB.dets.filter (fun d => decide (d.frame = f)) = [b])
    (h : unite_tracks s id_A id_B = .ok (s1, r)) :
    ∃ l1, get_detections s1 f = .ok l1 ∧
      l1.filter (fun d => decide (d.id = min id_A id_B))
        = [restamp (min id_A id_B) a, restamp (min id_A id_B) b] := by
  have hsound := reachable_sound hs
  obtain ⟨tA, hfA, rfl⟩ := get_track_some hA
  obtain ⟨tB, hfB, rfl⟩ := get_track_some hB
  have hg := unite_tracks_get_detections hsound hc htag hne hfA hfB h f
    (get_detections_consistent hc hsound.2.1.1 f)
  refine ⟨_, hg, ?_⟩
  simp only [StoredTrack.toTrack] at ha hb
  rw [List.filter_append, List.filter_append]
  have e1 : ∀ (ds : List Detection) (i : Nat),
      (ds.map (restamp i)).filter (fun d => decide (d.frame = f))
        = (ds.filter (fun d => decide (d.frame = f))).map (restamp i) := by
    intro ds i
    induction ds with
    | nil => rfl
    | cons d ds ih =>
      by_cases hd : d.frame = f
      · simp [List.filter_cons, restamp, hd, ih]
      · simp [List.filter_cons, restamp, hd, ih]
  rw [e1, e1, ha, hb]
  have e0 : ∀ (l : List Detection),
      ((l.filter (fun d => decide (d.id ≠ min id_A id_B))).filter
        (fun d => decide (d.id ≠ max id_A id_B))).filter
          (fun d => decide (d.id = min id_A id_B)) = [] := by
    intro l
    rw [List.filter_eq_nil_iff]
    intro d hd
    have := (List.mem_filter.1 (List.mem_filter.1 hd).1).2
    simpa using this
  rw [e0]
  simp [restamp]

theorem reachable_dangling_tracked_store : Reachable dangling_tracked_store :=
  Reachable.add_track ⟨2, []⟩
    (Reachable.delete_track (r := true) 1 reachable_foreign_store (by rfl)) (by rfl)

/-- C11: evaluation at the failing input. After `add_track(Track(1))`,
`add_det2track(1, det)` with a detection at frame 0 whose id field is 7, `delete_track(1)`
and `add_track(Track(2))`, track 2 exists and frame 0 lies inside the video, so neither
guard of `delete_detection(2, 0)` applies; the scan of the bucket of frame 0 then reads
the id through the address of the detection that was destroyed with track 1, and the call
does not return true. -/
theorem delete_detection_reads_dangling_reference :
    Reachable dangling_tracked_store ∧
    add_det2track empty_track_store 1 (det_at 0 7) = .ok (foreign_store, true) ∧
    delete_track foreign_store 1 = .ok (dangling_store, true) ∧
    add_track dangling_store ⟨2, []⟩ = .ok dangling_tracked_store ∧
    has_track dangling_tracked_store 2 = true ∧
    0 < get_video_len dangling_tracked_store ∧
    bucket dangling_tracked_store.timeline_ 0 = [0] ∧
    deref dangling_tracked_store.tracks_ 0 = .error .dangling ∧
    delete_detection dangling_tracked_store 2 0 = .error .dangling :=
  ⟨reachable_dangling_tracked_store, by rfl, by rfl, by rfl, by rfl, by decide, by rfl,
    by rfl, by rfl⟩

/-- C20: evaluation at the failing input. Track 1 holds one detection, at frame 0, whose
id field is 7, and `get_detections(0)` reads it. `unite_tracks(1, 1)` returns true and
track 1 then holds two copies stamped with id 1, but `delete_track` inside it found no
reference with id 1 to erase: the bucket of frame 0 keeps the address of the destroyed
original in front of the two new references, and `get_detections(0)` reads through it. -/
theorem unite_tracks_self_leaves_dangling_reference :
    Reachable foreign_store ∧
    get_track foreign_store 1 = some ⟨1, [det_at 0 7]⟩ ∧
    get_detections foreign_store 0 = .ok [det_at 0 7] ∧
    unite_tracks foreign_store 1 1 = .ok (foreign_doubled, true) ∧
    get_num_tracks foreign_doubled = get_num_tracks foreign_store ∧
    get_track foreign_doubled 1 = some ⟨1, [det_at 0 1, det_at 0 1]⟩ ∧
    bucket foreign_doubled.timeline_ 0 = [0, 1, 2] ∧
    deref foreign_doubled.tracks_ 0 = .error .dangling ∧
    get_detections foreign_doubled 0 = .error .dangling :=
  ⟨reachable_foreign_store, by rfl, by rfl, by rfl, by rfl, by rfl, by rfl, by rfl, by rfl⟩

end MarkupTool
